import Mathlib

/-!
# Queue / command engine of the ionic network driver

A shallow embedding of `src/drivers/net/ionic_main.c`.

* Slot pointers (`struct desc_info *`, `struct cq_info *`) are the position of the
  slot in the `info` array it points into: `q->info` is position `0` and `cur + 1`
  is the position after `cur`.
* `unsigned int` is a `Nat` below `2 ^ 32`; arithmetic that may wrap is reduced
  modulo `2 ^ 32` explicitly.
* Stateful functions take the state and return the result together with the new state.
-/

namespace Ionic

/-! ## Machine integers and results -/

/-- Number of values of a C `unsigned int`. -/
def U32 : Nat := 2 ^ 32

/-- Addition of two `unsigned int`. -/
def add32 (a b : Nat) : Nat := (a + b) % U32

/-- Subtraction of two `unsigned int`, wrapping below zero. -/
def sub32 (a b : Nat) : Nat := (a % U32 + (U32 - b % U32)) % U32

/-- Modelled from the spec: the error numbers of errno.h, which is not part of the
sources at hand. The spec names them InvalidArgument (`EINVAL`), NoSpace (`ENOSPC`),
I/O error (`EIO`) and TimedOut (`ETIMEDOUT`); the source also names `ENOBUFS`, `EFAULT`
and `ENOMEM`. The driver returns them negated. -/
inductive Errno where
  | EINVAL
  | ENOSPC
  | EIO
  | ETIMEDOUT
  | ENOBUFS
  | EFAULT
  | ENOMEM
  deriving DecidableEq, Repr

/-- Value of a C `int` result of the driver: a non-negative number (`0` for success, or
a device status byte) or a negated error number. -/
inductive Ret where
  | val (v : Nat)
  | neg (e : Errno)
  deriving DecidableEq, Repr

/-- A result is a failure when it is not `0`. -/
def Ret.isFailure (r : Ret) : Bool :=
  match r with
  | Ret.val v => v != 0
  | Ret.neg _ => true

/-! ## `fls`, `ilog2`, `is_power_of_2` -/

/-- One narrowing step of `fls`: `if (!(x & mask)) { x <<= s; r -= s; }` on the 32-bit
pattern `x`. -/
def fls_step (mask s : Nat) (xr : Nat × Nat) : Nat × Nat :=
  if xr.1 &&& mask = 0 then ((xr.1 <<< s) % U32, xr.2 - s) else xr

/-- Find last set bit of the 32-bit pattern `x` (`static int fls(int x)`). -/
def fls (x : Nat) : Nat :=
  if x = 0 then 0
  else
    let xr := (x, 32)
    let xr := fls_step 0xffff0000 16 xr
    let xr := fls_step 0xff000000 8 xr
    let xr := fls_step 0xf0000000 4 xr
    let xr := fls_step 0xc0000000 2 xr
    let xr := fls_step 0x80000000 1 xr
    xr.2

/-- The source's `ilog2`: `fls(mem) - 1` converted to `u32`. -/
def ilog2 (mem : Nat) : Nat := sub32 (fls mem) 1

/-- Modelled from the spec: the macro `is_power_of_2` of ionic.h, which is not part of
the sources at hand. The spec says that initialisation fails "if capacity is not a power
of two"; an `unsigned int` is a power of two when it is one of `2 ^ 0 .. 2 ^ 31`. -/
def is_power_of_2 (n : Nat) : Bool := (List.range 32).any (fun k => n == 2 ^ k)

/-! ## Descriptor ring -/

/-- Per-slot metadata of a descriptor ring (`struct desc_info`). -/
structure desc_info where
  /-- Address of the descriptor of this slot. -/
  desc : Nat := 0
  /-- Address of the scatter-gather descriptor of this slot. -/
  sg_desc : Nat := 0
  /-- Pointer to the next slot. -/
  next : Nat := 0
  index : Nat := 0
  left : Nat := 0

/-- Descriptor ring (`struct queue`). The back pointers `lif` and `idev` and the
printable `name` carry no ring state and are left out. -/
structure queue where
  index : Nat := 0
  type : Nat := 0
  hw_index : Nat := 0
  hw_type : Nat := 0
  num_descs : Nat := 0
  desc_size : Nat := 0
  sg_desc_size : Nat := 0
  pid : Nat := 0
  /-- Producer slot pointer. -/
  head : Nat := 0
  /-- Consumer slot pointer. -/
  tail : Nat := 0
  info : Nat → desc_info := fun _ => {}
  base : Nat := 0
  base_pa : Nat := 0
  sg_base : Nat := 0
  sg_base_pa : Nat := 0

/-- Body of the loop of `ionic_q_init` for slot `i` (`cur` is slot `i`). -/
def ionic_q_init_slot (num_descs : Nat) (info : Nat → desc_info) (i : Nat) :
    Nat → desc_info :=
  Function.update info i
    { info i with
      next := if i + 1 = num_descs then 0 else i + 1
      index := i
      left := num_descs - i }

/-- Initialize the q (`ionic_q_init`): the result code and the queue afterwards. -/
def ionic_q_init (q : queue) (index num_descs desc_size sg_desc_size pid : Nat) :
    Ret × queue :=
  if desc_size = 0 ∨ !is_power_of_2 num_descs then
    (Ret.neg Errno.EINVAL, q)
  else
    let ring_size := ilog2 num_descs
    if ring_size < 2 ∨ ring_size > 16 then
      (Ret.neg Errno.EINVAL, q)
    else
      let q := { q with
        index := index
        num_descs := num_descs
        desc_size := desc_size
        sg_desc_size := sg_desc_size
        head := 0
        tail := 0
        pid := pid }
      (Ret.val 0,
        { q with info := (List.range num_descs).foldl (ionic_q_init_slot num_descs) q.info })

/-- Returns the available space in the q (`ionic_q_space_avail`). -/
def ionic_q_space_avail (q : queue) : Nat :=
  let avail := (q.info q.tail).index
  if (q.info q.head).index ≥ avail then
    add32 avail (sub32 (q.info q.head).left 1)
  else
    sub32 avail (add32 (q.info q.head).index 1)

/-- Checks if the q has space in it (`ionic_q_has_space`). -/
def ionic_q_has_space (q : queue) (want : Nat) : Bool :=
  ionic_q_space_avail q ≥ want

/-- Map the q with the descriptors (`ionic_q_map`). -/
def ionic_q_map (q : queue) (base base_pa : Nat) : queue :=
  { q with
    base := base
    base_pa := base_pa
    info := (List.range q.num_descs).foldl
      (fun info i => Function.update info i { info i with desc := base + i * q.desc_size })
      q.info }

/-! ## Completion ring -/

/-- The color bit of a completion (`IONIC_COMP_COLOR_MASK`, core_if.h). -/
def IONIC_COMP_COLOR_MASK : Nat := 0x80

/-- Modelled from the spec: `color_match` of ionic.h, which is not part of the sources
at hand. The spec says "a completion is pending when its color equals `done_color`",
the color being the bit `IONIC_COMP_COLOR_MASK` of the color byte. -/
def color_match (color : Nat) (done_color : Bool) : Bool :=
  ((color &&& IONIC_COMP_COLOR_MASK) != 0) == done_color

/-- Per-slot metadata of a completion ring (`struct cq_info`). -/
structure cq_info where
  /-- Address of the completion of this slot. -/
  cq_desc : Nat := 0
  /-- Pointer to the next slot. -/
  next : Nat := 0
  index : Nat := 0
  last : Bool := false

/-- Completion ring (`struct cq`). The back pointers `lif` and `bound_q` carry no ring
state and are left out. -/
structure cq where
  num_descs : Nat := 0
  desc_size : Nat := 0
  /-- Consumer slot pointer. -/
  tail : Nat := 0
  done_color : Bool := false
  info : Nat → cq_info := fun _ => {}
  base : Nat := 0
  base_pa : Nat := 0

/-- Body of the loop of `ionic_cq_init` for slot `i` (`cur` is slot `i`). -/
def ionic_cq_init_slot (num_descs : Nat) (info : Nat → cq_info) (i : Nat) :
    Nat → cq_info :=
  Function.update info i
    (if i + 1 = num_descs then
      { info i with next := 0, last := true, index := i }
    else
      { info i with next := i + 1, index := i })

/-- Initialize the cq (`ionic_cq_init`): the result code and the ring afterwards. -/
def ionic_cq_init (c : cq) (num_descs desc_size : Nat) : Ret × cq :=
  if desc_size = 0 ∨ !is_power_of_2 num_descs then
    (Ret.neg Errno.EINVAL, c)
  else
    let ring_size := ilog2 num_descs
    if ring_size < 2 ∨ ring_size > 16 then
      (Ret.neg Errno.EINVAL, c)
    else
      let c := { c with
        num_descs := num_descs
        desc_size := desc_size
        tail := 0
        done_color := true }
      (Ret.val 0,
        { c with info := (List.range num_descs).foldl (ionic_cq_init_slot num_descs) c.info })

/-- Map the cq with the descriptors (`ionic_cq_map`). -/
def ionic_cq_map (c : cq) (base base_pa : Nat) : cq :=
  { c with
    base := base
    base_pa := base_pa
    info := (List.range c.num_descs).foldl
      (fun info i => Function.update info i { info i with cq_desc := base + i * c.desc_size })
      c.info }

/-- The consumer step on a completion ring, as written out in `polladminq`,
`ionic_poll_rx` and `ionic_poll_tx`:
`if (cq->tail->last) cq->done_color = !cq->done_color; cq->tail = cq->tail->next;`. -/
def cq_consume (c : cq) : cq :=
  let c := if (c.info c.tail).last then { c with done_color := !c.done_color } else c
  { c with tail := (c.info c.tail).next }

/-! ## Admin queue -/

/-- General admin command (`struct ionic_admin_cmd`, laid out as `pds_core_admin_cmd`). -/
structure ionic_admin_cmd where
  opcode : Nat := 0
  rsvd : Nat := 0
  lif_index : Nat := 0
  cmd_data : List Nat := []
  deriving DecidableEq, Repr

/-- General admin completion (`struct ionic_admin_comp`, laid out as
`pds_core_admin_comp`). -/
structure ionic_admin_comp where
  status : Nat := 0
  rsvd : Nat := 0
  comp_index : Nat := 0
  cmd_data : List Nat := []
  color : Nat := 0
  deriving DecidableEq, Repr

/-- Call-scoped command and completion pair (`struct ionic_admin_ctx`). -/
structure ionic_admin_ctx where
  cmd : ionic_admin_cmd := {}
  comp : ionic_admin_comp := {}
  deriving DecidableEq, Repr

/-- Doorbell value (`struct ionic_doorbell`, laid out as `pds_doorbell` of regs.h). -/
structure ionic_doorbell where
  p_index : Nat := 0
  ring : Nat := 0
  qid_lo : Nat := 0
  qid_hi : Nat := 0
  deriving DecidableEq, Repr

/-- Paired descriptor ring and completion ring (`struct qcq`). -/
structure qcq where
  q : queue := {}
  cq : cq := {}
  flags : Nat := 0

/-- The part of `struct lif` and of the `struct ionic` it points to that the admin queue
uses, with the memory and registers the admin queue works on. -/
structure lif where
  /-- The flag `lif->ionic->fw_running`. -/
  fw_running : Nat := 0
  adminqcq : qcq := {}
  /-- Descriptor memory of the admin ring, by address; written by the driver. -/
  desc_mem : Nat → ionic_admin_cmd := fun _ => {}
  /-- Completion memory of the admin ring, written by the device: `comp_mem t a` is what
  a read of address `a` returns once `t` delays have elapsed. -/
  comp_mem : Nat → Nat → ionic_admin_comp := fun _ _ => {}
  /-- Values written to the doorbell register `adminq->db`, latest first. -/
  db : List ionic_doorbell := []
  /-- Number of `mdelay(1000)` executed so far. -/
  delays : Nat := 0
  /-- Number of color tests executed so far. -/
  color_tests : Nat := 0

/-- Map a completion status to a result (`ionic_adminq_check_err`): the names of the
opcode and of the status are only printed. -/
def ionic_adminq_check_err (ctx : ionic_admin_ctx) : Ret :=
  if ctx.comp.status ≠ 0 then Ret.neg Errno.EIO else Ret.val 0

/-- The wait loop of `polladminq` with `n` iterations left; `comp` is the address read
from `admincq->tail->cq_desc` before the loop. -/
def polladminq_loop (comp : Nat) :
    Nat → lif → ionic_admin_ctx → Ret × lif × ionic_admin_ctx
  | 0, l, ctx => (Ret.neg Errno.ETIMEDOUT, l, ctx)
  | n + 1, l, ctx =>
    let l := { l with color_tests := l.color_tests + 1 }
    if color_match (l.comp_mem l.delays comp).color l.adminqcq.cq.done_color then
      let admincq := l.adminqcq.cq
      let l :=
        if (admincq.info admincq.tail).last then
          { l with adminqcq.cq.done_color := !admincq.done_color }
        else l
      let l := { l with adminqcq.cq.tail := (admincq.info admincq.tail).next }
      let l := { l with adminqcq.q.tail := (l.adminqcq.q.info l.adminqcq.q.tail).next }
      let ctx := { ctx with comp := l.comp_mem l.delays comp }
      (ionic_adminq_check_err ctx, l, ctx)
    else
      polladminq_loop comp n { l with delays := l.delays + 1 } ctx

/-- Poll the admin completion ring (`polladminq`); `devcmd_timeout` is the timeout
budget of ionic.h. -/
def polladminq (devcmd_timeout : Nat) (l : lif) (ctx : ionic_admin_ctx) :
    Ret × lif × ionic_admin_ctx :=
  let comp := (l.adminqcq.cq.info l.adminqcq.cq.tail).cq_desc
  if l.fw_running = 0 then
    (Ret.neg Errno.EIO, l, ctx)
  else
    polladminq_loop comp devcmd_timeout l ctx

/-- Post an admin command and wait for its completion (`ionic_adminq_post_wait`). -/
def ionic_adminq_post_wait (devcmd_timeout : Nat) (l : lif) (ctx : ionic_admin_ctx) :
    Ret × lif × ionic_admin_ctx :=
  let adminq := l.adminqcq.q
  let cmd := (adminq.info adminq.head).desc
  if !ionic_q_has_space adminq 1 then
    (Ret.neg Errno.ENOSPC, l, ctx)
  else
    let l := { l with desc_mem := Function.update l.desc_mem cmd ctx.cmd }
    let l := { l with adminqcq.q.head := (adminq.info adminq.head).next }
    let db : ionic_doorbell :=
      { qid_lo := adminq.hw_index % 2 ^ 8
        qid_hi := (adminq.hw_index >>> 8) % 2 ^ 16
        ring := 0
        p_index := (l.adminqcq.q.info l.adminqcq.q.head).index % 2 ^ 16 }
    let l := { l with db := db :: l.db }
    polladminq devcmd_timeout l ctx

/-! ## Device command channel -/

/-- The done bit of the done register (`IONIC_DEV_CMD_DONE`; `PDS_CORE_DEV_CMD_DONE` in
core_if.h). -/
def IONIC_DEV_CMD_DONE : Nat := 0x00000001

/-- The status "try again", reported while the device is initializing
(`IONIC_RC_EAGAIN`; `PDS_CORE_RC_EAGAIN = 9` in core_if.h). -/
def IONIC_RC_EAGAIN : Nat := 9

/-- Number of 32-bit words of a device command (`ARRAY_SIZE(cmd->words)`, `u32 words[16]`
in core_if.h). -/
def DEV_CMD_WORDS : Nat := 16

/-- A store to a device command register. -/
inductive dev_cmd_write where
  | cmd_word (i v : Nat)
  | done (v : Nat)
  | doorbell (v : Nat)
  deriving DecidableEq, Repr

/-- The device command registers as the driver sees them (`struct ionic_dev`, its
`dev_cmd` region), with the device behind them. -/
structure ionic_dev where
  /-- The stores of the driver to the device command registers, oldest first. -/
  writes : List dev_cmd_write := []
  /-- Number of stores to the doorbell register so far. -/
  posts : Nat := 0
  /-- The device: what a load of the done register returns, given the number of doorbell
  stores so far and the number of delays since the current wait began. -/
  dev_done : Nat → Nat → Nat := fun _ _ => 0
  /-- The device: what a load of the status byte of the completion returns, given the
  number of doorbell stores so far. -/
  dev_status : Nat → Nat := fun _ => 0
  /-- Number of `mdelay(1000)` executed so far. -/
  delays : Nat := 0
  /-- Number of loads of the done register so far. -/
  done_reads : Nat := 0

/-- Load the status byte of the completion (`ionic_dev_cmd_status`, a `readb`). -/
def ionic_dev_cmd_status (idev : ionic_dev) : Nat :=
  idev.dev_status idev.posts % 2 ^ 8

/-- Test the done bit (`ionic_dev_cmd_done`); `wait` is the number of delays since the
wait began. -/
def ionic_dev_cmd_done (idev : ionic_dev) (wait : Nat) : Bool × ionic_dev :=
  ((idev.dev_done idev.posts wait % 2 ^ 32) &&& IONIC_DEV_CMD_DONE != 0,
    { idev with done_reads := idev.done_reads + 1 })

/-- The loop of `ionic_dev_cmd_wait` with `n` iterations left and the loop variable at
`wait`. -/
def ionic_dev_cmd_wait_loop : Nat → Nat → ionic_dev → Ret × ionic_dev
  | 0, _, idev => (Ret.neg Errno.ETIMEDOUT, idev)
  | n + 1, wait, idev =>
    let r := ionic_dev_cmd_done idev wait
    if r.1 then (Ret.val 0, r.2)
    else ionic_dev_cmd_wait_loop n (wait + 1) { r.2 with delays := r.2.delays + 1 }

/-- Wait for the device command to complete, but no more than `max_seconds`
(`ionic_dev_cmd_wait`). -/
def ionic_dev_cmd_wait (idev : ionic_dev) (max_seconds : Nat) : Ret × ionic_dev :=
  ionic_dev_cmd_wait_loop max_seconds 0 idev

/-- The status as a result (`ionic_dev_cmd_check_error`). -/
def ionic_dev_cmd_check_error (idev : ionic_dev) : Ret :=
  Ret.val (ionic_dev_cmd_status idev)

/-- Wait, then read the status (`ionic_dev_cmd_wait_check`). -/
def ionic_dev_cmd_wait_check (idev : ionic_dev) (max_seconds : Nat) : Ret × ionic_dev :=
  let r := ionic_dev_cmd_wait idev max_seconds
  if r.1.isFailure then r
  else (ionic_dev_cmd_check_error r.2, r.2)

/-- The stores of one attempt of `ionic_dev_cmd_go`: the command words in order, then 0
to the done register, then 1 to the doorbell register. -/
def dev_cmd_post (idev : ionic_dev) (cmd : Nat → Nat) : ionic_dev :=
  let idev := (List.range DEV_CMD_WORDS).foldl
    (fun (d : ionic_dev) i => { d with writes := d.writes ++ [dev_cmd_write.cmd_word i (cmd i)] })
    idev
  let idev := { idev with writes := idev.writes ++ [dev_cmd_write.done 0] }
  { idev with writes := idev.writes ++ [dev_cmd_write.doorbell 1], posts := idev.posts + 1 }

/-- The retry loop of `ionic_dev_cmd_go` with `n` iterations left. -/
def ionic_dev_cmd_go_loop (cmd : Nat → Nat) (max_seconds : Nat) :
    Nat → ionic_dev → Ret × ionic_dev
  | 0, idev => (Ret.neg Errno.EIO, idev)
  | n + 1, idev =>
    let idev := dev_cmd_post idev cmd
    let r := ionic_dev_cmd_wait_check idev max_seconds
    if r.1 = Ret.val IONIC_RC_EAGAIN then
      ionic_dev_cmd_go_loop cmd max_seconds n { r.2 with delays := r.2.delays + 1 }
    else r

/-- Send a device command and wait for its status (`ionic_dev_cmd_go`); `RETRY_COUNT` is
the retry budget of ionic.h. -/
def ionic_dev_cmd_go (RETRY_COUNT : Nat) (idev : ionic_dev) (cmd : Nat → Nat)
    (max_seconds : Nat) : Ret × ionic_dev :=
  ionic_dev_cmd_go_loop cmd max_seconds RETRY_COUNT idev

/-- The stores of one post, in order. -/
def dev_cmd_post_writes (cmd : Nat → Nat) : List dev_cmd_write :=
  (List.range DEV_CMD_WORDS).map (fun i => dev_cmd_write.cmd_word i (cmd i)) ++
    [dev_cmd_write.done 0, dev_cmd_write.doorbell 1]

/-- The done bit is set in what the device returns for the done register. -/
def done_bit (v : Nat) : Bool := (v % 2 ^ 32) &&& IONIC_DEV_CMD_DONE != 0

/-- The device sets the done bit within `max_seconds` polls of the wait that follows the
`posts`-th doorbell store. -/
def dev_completes (idev : ionic_dev) (posts max_seconds : Nat) : Prop :=
  ∃ d, d < max_seconds ∧
    (∀ j, j < d → done_bit (idev.dev_done posts j) = false) ∧
    done_bit (idev.dev_done posts d) = true

/-- The list `block` repeated `n` times. -/
def repeat_block {α : Type} (block : List α) : Nat → List α
  | 0 => []
  | n + 1 => block ++ repeat_block block n

instance (idev : ionic_dev) (posts max_seconds : Nat) :
    Decidable (dev_completes idev posts max_seconds) := by
  unfold dev_completes
  infer_instance

/-- A device that sets the done bit `d` polling ticks after every post and reports the
status `status p` for the `p`-th post. -/
def dev_fixture (d : Nat) (status : Nat → Nat) : ionic_dev :=
  { dev_done := fun _ t => if d ≤ t then 1 else 0
    dev_status := status }

/-- A device that never sets the done bit. -/
def dev_fixture_dead : ionic_dev :=
  { dev_done := fun _ _ => 0 }

/-! ## TX/RX fast path -/

/-- A packet buffer (`struct io_buffer`): the address of its data and the length of the
data in it. -/
structure io_buffer where
  data : Nat := 0
  len : Nat := 0
  deriving DecidableEq, Repr

/-- A transmit descriptor (`struct ionic_txq_desc`). The command word is kept as the
arguments `encode_txq_desc_cmd` (ionic_if.h) is called with: opcode, flags, number of
scatter-gather elements and bus address. `hword0` shares its place with `vlan_tci`. -/
structure ionic_txq_desc where
  cmd_opcode : Nat := 0
  cmd_flags : Nat := 0
  cmd_nsge : Nat := 0
  cmd_addr : Nat := 0
  len : Nat := 0
  hword0 : Nat := 0
  hword1 : Nat := 0
  hword2 : Nat := 0
  deriving DecidableEq, Repr

/-- A transmit completion (`struct ionic_txq_comp`). -/
structure ionic_txq_comp where
  status : Nat := 0
  comp_index : Nat := 0
  color : Nat := 0
  deriving DecidableEq, Repr

/-- The part of `struct lif` that the transmit path uses, with the memory and the
doorbell register of the transmit queue and what was handed back to the network stack. -/
structure tx_state where
  txqcqs : qcq := {}
  vlan_en : Nat := 0
  vlan_id : Nat := 0
  /-- The side table `lif->tx_iobuf`; `none` is `NULL`. -/
  tx_iobuf : Nat → Option io_buffer := fun _ => none
  /-- Descriptor memory of the transmit ring, by address. -/
  desc_mem : Nat → ionic_txq_desc := fun _ => {}
  /-- Completion memory of the transmit ring, by address; written by the device. -/
  comp_mem : Nat → ionic_txq_comp := fun _ => {}
  /-- Values written to the doorbell register `txq->db`, latest first. -/
  db : List ionic_doorbell := []
  /-- The arguments of the calls of `netdev_tx_complete`, oldest first. -/
  completed : List (Option io_buffer) := []
  /-- The buffers passed to `netdev_tx_complete_err` with `-ECANCELED`, oldest first. -/
  cancelled : List io_buffer := []

/-- The flag `IONIC_TXQ_DESC_FLAG_VLAN` and the opcode `IONIC_TXQ_DESC_OPCODE_CSUM_NONE`
of ionic_if.h, which is not part of the sources at hand, are parameters of
`ionic_transmit`. Transmit packet (`ionic_transmit`). -/
def ionic_transmit (FLAG_VLAN OPCODE_CSUM_NONE : Nat) (st : tx_state) (iobuf : io_buffer) :
    Ret × tx_state :=
  let txq := st.txqcqs.q
  let desc := (txq.info txq.head).desc
  if !ionic_q_has_space txq 1 then
    (Ret.neg Errno.ENOBUFS, st)
  else
    let flags := if st.vlan_en ≠ 0 then FLAG_VLAN % 2 ^ 8 else 0
    let d := st.desc_mem desc
    let d := if st.vlan_en ≠ 0 then { d with hword0 := st.vlan_id % 2 ^ 16 }
      else { d with hword0 := 0 }
    let d := { d with len := iobuf.len % 2 ^ 16, hword1 := 0, hword2 := 0 }
    let d := { d with
      cmd_opcode := OPCODE_CSUM_NONE, cmd_flags := flags, cmd_nsge := 0,
      cmd_addr := iobuf.data }
    let st := { st with desc_mem := Function.update st.desc_mem desc d }
    let st := { st with
      tx_iobuf := Function.update st.tx_iobuf (txq.info txq.head).index (some iobuf) }
    let st := { st with txqcqs.q.head := (txq.info txq.head).next }
    let db : ionic_doorbell :=
      { qid_lo := txq.hw_index % 2 ^ 8
        qid_hi := (txq.hw_index >>> 8) % 2 ^ 16
        ring := 0
        p_index := (st.txqcqs.q.info st.txqcqs.q.head).index % 2 ^ 16 }
    (Ret.val 0, { st with db := db :: st.db })

/-- The inner `do ... while (index != comp->comp_index)` loop of `ionic_poll_tx`, which
retires the transmit slots up to the reported one; `none` when the fuel runs out. -/
def ionic_poll_tx_retire (comp_index : Nat) : Nat → tx_state → Option tx_state
  | 0, _ => none
  | fuel + 1, st =>
    let txq := st.txqcqs.q
    let st := { st with completed := st.completed ++ [st.tx_iobuf (txq.info txq.tail).index] }
    let st := { st with tx_iobuf := Function.update st.tx_iobuf (txq.info txq.tail).index none }
    let index := (txq.info txq.tail).index
    let st := { st with txqcqs.q.tail := (txq.info txq.tail).next }
    if index ≠ comp_index then ionic_poll_tx_retire comp_index fuel st
    else some st

/-- The outer `while (color_match(...))` loop of `ionic_poll_tx`; `none` when the fuel
runs out. -/
def ionic_poll_tx_loop (inner : Nat) : Nat → tx_state → Option tx_state
  | 0, _ => none
  | fuel + 1, st =>
    let txcq := st.txqcqs.cq
    let comp := st.comp_mem (txcq.info txcq.tail).cq_desc
    if color_match comp.color txcq.done_color then
      let st :=
        if (txcq.info txcq.tail).last then
          { st with txqcqs.cq.done_color := !txcq.done_color }
        else st
      let st := { st with txqcqs.cq.tail := (txcq.info txcq.tail).next }
      match ionic_poll_tx_retire (comp.comp_index % 2 ^ 16) inner st with
      | none => none
      | some st => ionic_poll_tx_loop inner fuel st
    else some st

/-- Poll for transmitted packets (`ionic_poll_tx`), with fuel for the outer and for the
inner loop. -/
def ionic_poll_tx (fuel inner : Nat) (st : tx_state) : Option tx_state :=
  ionic_poll_tx_loop inner fuel st

/-- A transmit state whose ring pair of capacity `C` is set up as `ionic_qcq_alloc` does
it, with a zeroed completion memory. -/
def tx_fixture (C : Nat) : tx_state :=
  { txqcqs :=
      { q := ionic_q_map (ionic_q_init {} 0 C 16 0 0).2 4096 4096
        cq := ionic_cq_map (ionic_cq_init {} C 16).2 8192 8192 } }

/-- The loop of `ionic_tx_flush`, which cancels the remaining transmits; `none` when the
fuel runs out. -/
def ionic_tx_flush_loop : Nat → tx_state → Option tx_state
  | 0, _ => none
  | fuel + 1, st =>
    let txq := st.txqcqs.q
    let txcq := st.txqcqs.cq
    if (txq.info txq.tail).index ≠ (txq.info txq.head).index then
      let st :=
        match st.tx_iobuf (txq.info txq.tail).index with
        | some iobuf =>
          { st with
            cancelled := st.cancelled ++ [iobuf]
            tx_iobuf := Function.update st.tx_iobuf (txq.info txq.tail).index none }
        | none => st
      let st := { st with txqcqs.q.tail := (txq.info txq.tail).next }
      let st :=
        if (txcq.info txcq.tail).last then
          { st with txqcqs.cq.done_color := !txcq.done_color }
        else st
      let st := { st with txqcqs.cq.tail := (txcq.info txcq.tail).next }
      ionic_tx_flush_loop fuel st
    else some st

/-- Cleans up the txq of the remaining IOB (`ionic_tx_flush`), with fuel for its loop. -/
def ionic_tx_flush (fuel : Nat) (st : tx_state) : Option tx_state :=
  ionic_tx_flush_loop fuel st

/-- A receive descriptor (`struct ionic_rxq_desc`). -/
structure ionic_rxq_desc where
  opcode : Nat := 0
  len : Nat := 0
  addr : Nat := 0
  deriving DecidableEq, Repr

/-- A receive completion (`struct ionic_rxq_comp`). -/
structure ionic_rxq_comp where
  status : Nat := 0
  len : Nat := 0
  csum_flags : Nat := 0
  pkt_type_color : Nat := 0
  deriving DecidableEq, Repr

/-- A buffer handed to the network stack by the receive path: `netdev_rx` or
`netdev_rx_err`. -/
inductive rx_event where
  | rx (iobuf : Option io_buffer)
  | rx_err (iobuf : Option io_buffer)
  deriving DecidableEq, Repr

/-- Extend the data of a buffer by `n` bytes (`iob_put`). -/
def iob_put (iobuf : Option io_buffer) (n : Nat) : Option io_buffer :=
  iobuf.map (fun b => { b with len := b.len + n })

/-- The part of `struct lif` that the receive path uses, with the memory and the doorbell
register of the receive queue, the buffer allocator and what was handed to the network
stack. -/
structure rx_state where
  rxqcqs : qcq := {}
  /-- The side table `lif->rx_iobuf`; `none` is `NULL`. -/
  rx_iobuf : Nat → Option io_buffer := fun _ => none
  /-- Descriptor memory of the receive ring, by address. -/
  desc_mem : Nat → ionic_rxq_desc := fun _ => {}
  /-- Completion memory of the receive ring, by address; written by the device. -/
  comp_mem : Nat → ionic_rxq_comp := fun _ => {}
  /-- Values written to the doorbell register `rxq->db`, latest first. -/
  db : List ionic_doorbell := []
  /-- The allocator: what the `n`-th call of `alloc_iob` returns for a length. -/
  alloc : Nat → Nat → Option io_buffer := fun _ _ => none
  /-- Number of calls of `alloc_iob` so far. -/
  allocs : Nat := 0
  /-- The calls of `netdev_rx` and `netdev_rx_err`, oldest first. -/
  events : List rx_event := []
  /-- The buffers passed to `free_iob`, oldest first. -/
  freed : List io_buffer := []

/-- The loop of `ionic_rx_fill` with the loop variable at `i`; the opcode
`IONIC_RXQ_DESC_OPCODE_SIMPLE` of ionic_if.h is a parameter. -/
def ionic_rx_fill_loop (OPCODE_SIMPLE length : Nat) : Nat → rx_state → rx_state
  | 0, st => st
  | i + 1, st =>
    let rxq := st.rxqcqs.q
    match st.alloc st.allocs length with
    | none => { st with allocs := st.allocs + 1 }
    | some iobuf =>
      let st := { st with allocs := st.allocs + 1 }
      let desc := (rxq.info rxq.head).desc
      let st := { st with
        desc_mem := Function.update st.desc_mem desc
          { st.desc_mem desc with addr := iobuf.data, len := length, opcode := OPCODE_SIMPLE } }
      let st := { st with
        rx_iobuf := Function.update st.rx_iobuf (rxq.info rxq.head).index (some iobuf) }
      let st := { st with rxqcqs.q.head := (rxq.info rxq.head).next }
      let db : ionic_doorbell :=
        { qid_lo := rxq.hw_index % 2 ^ 8
          qid_hi := (rxq.hw_index >>> 8) % 2 ^ 16
          ring := 0
          p_index := (st.rxqcqs.q.info st.rxqcqs.q.head).index % 2 ^ 16 }
      ionic_rx_fill_loop OPCODE_SIMPLE length i { st with db := db :: st.db }

/-- Allocates and assigns IOB for the rxq (`ionic_rx_fill`); `length` is a `u16`. -/
def ionic_rx_fill (OPCODE_SIMPLE length : Nat) (st : rx_state) : rx_state :=
  ionic_rx_fill_loop OPCODE_SIMPLE (length % 2 ^ 16) (ionic_q_space_avail st.rxqcqs.q) st

/-- The checksum flags of a receive completion that mark a bad packet
(`IONIC_RXQ_COMP_CSUM_F_TCP_BAD`, `..._UDP_BAD`, `..._IP_BAD` of ionic_if.h, which is not
part of the sources at hand). -/
structure rx_csum_flags where
  TCP_BAD : Nat
  UDP_BAD : Nat
  IP_BAD : Nat

/-- The error test of `ionic_poll_rx` on a completion. -/
def rx_comp_bad (F : rx_csum_flags) (comp : ionic_rxq_comp) : Bool :=
  comp.status ≠ 0 || comp.csum_flags &&& F.TCP_BAD ≠ 0 || comp.csum_flags &&& F.UDP_BAD ≠ 0 ||
    comp.csum_flags &&& F.IP_BAD ≠ 0

/-- The body of the loop of `ionic_poll_rx`, for the completion at address `comp`. -/
def ionic_poll_rx_body (F : rx_csum_flags) (comp : Nat) (st : rx_state) : rx_state :=
  let rxq := st.rxqcqs.q
  let rxcq := st.rxqcqs.cq
  let st :=
    if (rxcq.info rxcq.tail).last then
      { st with rxqcqs.cq.done_color := !rxcq.done_color }
    else st
  let st := { st with rxqcqs.cq.tail := (rxcq.info rxcq.tail).next }
  let iobuf := st.rx_iobuf (rxq.info rxq.tail).index
  let st := { st with rx_iobuf := Function.update st.rx_iobuf (rxq.info rxq.tail).index none }
  let st :=
    if rx_comp_bad F (st.comp_mem comp) then
      let desc := (rxq.info rxq.tail).desc
      { st with events := st.events ++ [rx_event.rx_err (iob_put iobuf (st.desc_mem desc).len)] }
    else
      { st with events := st.events ++ [rx_event.rx (iob_put iobuf (st.comp_mem comp).len)] }
  { st with rxqcqs.q.tail := (rxq.info rxq.tail).next }

/-- The loop of `ionic_poll_rx`; `none` when the fuel runs out. -/
def ionic_poll_rx_loop (F : rx_csum_flags) : Nat → rx_state → Option rx_state
  | 0, _ => none
  | fuel + 1, st =>
    let rxcq := st.rxqcqs.cq
    let comp := (rxcq.info rxcq.tail).cq_desc
    if color_match (st.comp_mem comp).pkt_type_color rxcq.done_color then
      ionic_poll_rx_loop F fuel (ionic_poll_rx_body F comp st)
    else some st

/-- Poll for received packets (`ionic_poll_rx`), with fuel for its loop. -/
def ionic_poll_rx (F : rx_csum_flags) (fuel : Nat) (st : rx_state) : Option rx_state :=
  ionic_poll_rx_loop F fuel st

/-- The first loop of `ionic_rx_flush`: free and clear the entry `i` of `rx_iobuf`. -/
def ionic_rx_flush_free (st : rx_state) (i : Nat) : rx_state :=
  let st :=
    match st.rx_iobuf i with
    | some iobuf => { st with freed := st.freed ++ [iobuf] }
    | none => st
  { st with rx_iobuf := Function.update st.rx_iobuf i none }

/-- The second loop of `ionic_rx_flush`, which moves the tail up to the head; `none` when
the fuel runs out. -/
def ionic_rx_flush_loop : Nat → rx_state → Option rx_state
  | 0, _ => none
  | fuel + 1, st =>
    let rxq := st.rxqcqs.q
    let rxcq := st.rxqcqs.cq
    if (rxq.info rxq.tail).index ≠ (rxq.info rxq.head).index then
      let st := { st with rxqcqs.q.tail := (rxq.info rxq.tail).next }
      let st :=
        if (rxcq.info rxcq.tail).last then
          { st with rxqcqs.cq.done_color := !rxcq.done_color }
        else st
      let st := { st with rxqcqs.cq.tail := (rxcq.info rxcq.tail).next }
      ionic_rx_flush_loop fuel st
    else some st

/-- Cleans up the rxq of the remaining IOB (`ionic_rx_flush`), with fuel for its second
loop; `NRXQ_DESC` is the size of the receive ring of ionic.h. -/
def ionic_rx_flush (NRXQ_DESC fuel : Nat) (st : rx_state) : Option rx_state :=
  ionic_rx_flush_loop fuel ((List.range NRXQ_DESC).foldl ionic_rx_flush_free st)

/-- A receive state whose ring pair of capacity `C` is set up as `ionic_qcq_alloc` does
it, with a zeroed completion memory and an allocator that always succeeds. -/
def rx_fixture (C : Nat) : rx_state :=
  { rxqcqs :=
      { q := ionic_q_map (ionic_q_init {} 0 C 16 0 0).2 4096 4096
        cq := ionic_cq_map (ionic_cq_init {} C 16).2 8192 8192 }
    alloc := fun n _ => some { data := 1000 + n, len := 0 } }

/-- The doorbell value the driver builds for the queue `q` and the producer index `p`. -/
def doorbell_of (q : queue) (p : Nat) : ionic_doorbell :=
  { qid_lo := q.hw_index % 2 ^ 8
    qid_hi := (q.hw_index >>> 8) % 2 ^ 16
    ring := 0
    p_index := p }

/-- Checksum flag bits for the examples. -/
def rx_flags_fixture : rx_csum_flags := { TCP_BAD := 2, UDP_BAD := 8, IP_BAD := 32 }

/-- A receive state with one posted buffer of 1500 bytes in slot 0 and one completion for
it, of the given status and reported length 60. -/
def rx_fixture_done (status : Nat) : rx_state :=
  { rx_fixture 4 with
    rxqcqs.q.head := 1
    rx_iobuf := Function.update (fun _ => none) 0 (some { data := 1000, len := 0 })
    desc_mem := Function.update (fun _ => {}) 4096 { addr := 1000, len := 1500 }
    comp_mem := Function.update (fun _ => {}) 8192
      { status := status, len := 60, pkt_type_color := 128 } }

/-! ## Notify queue -/

/-- A notify completion (`union ionic_notifyq_comp`, its `event` member): the event id and
the event code. `color` is the color byte that the spec gives every completion; the
source never reads it from a notify completion. -/
structure ionic_notifyq_event where
  eid : Nat := 0
  ecode : Nat := 0
  color : Nat := 0
  deriving DecidableEq, Repr

/-- The test `(s64)(eid - last_eid) > 0` of `ionic_process_notifyq` for unsigned ids of
`W` bits (the type of `eid` and of `last_eid` is declared in headers that are not part
of the sources at hand): operands narrower than `int` are promoted and subtracted without
wrapping, wider ones wrap modulo `2 ^ W`, and a 64-bit difference is read as signed. -/
def eid_newer (W eid last_eid : Nat) : Bool :=
  let diff : Int :=
    if W < 32 then (eid : Int) - (last_eid : Int)
    else ((eid : Int) - (last_eid : Int)) % (2 : Int) ^ W
  let s64 : Int := if W = 64 ∧ (2 : Int) ^ 63 ≤ diff then diff - (2 : Int) ^ 64 else diff
  decide (0 < s64)

/-- A call that `ionic_process_notifyq` makes while dispatching an event. -/
inductive notify_call where
  | check_link
  | start_queues
  | stop_queues
  | handle_fw_down
  deriving DecidableEq, Repr

/-- The part of `struct ionic` that the notify queue works on, with the completion memory
of the notify ring, the data queues and the calls made so far. -/
structure notify_state where
  notifyqcqs : qcq := {}
  last_eid : Nat := 0
  link_status : Nat := 0
  qs_running : Nat := 0
  fw_running : Nat := 0
  /-- Completion memory of the notify ring, by address; written by the device. -/
  comp_mem : Nat → ionic_notifyq_event := fun _ => {}
  /-- The transmit data queue. -/
  tx : tx_state := {}
  /-- The receive data queue. -/
  rx : rx_state := {}
  /-- The dispatch calls made so far, oldest first. -/
  calls : List notify_call := []
  /-- The ids of the events consumed so far, oldest first. -/
  consumed : List Nat := []

/-- What `ionic_process_notifyq` takes from outside this file: the width of an event id,
the event codes `IONIC_EVENT_LINK_CHANGE` and `IONIC_EVENT_RESET`, the link status
`IONIC_PORT_OPER_STATUS_UP` (ionic_if.h), and the functions `ionic_check_link`,
`ionic_start_queues`, `ionic_stop_queues` and `ionic_handle_fw_down` (ionic.c). -/
structure notify_env where
  EID_BITS : Nat
  EVENT_LINK_CHANGE : Nat
  EVENT_RESET : Nat
  PORT_OPER_STATUS_UP : Nat
  check_link : notify_state → notify_state
  start_queues : notify_state → notify_state
  stop_queues : notify_state → notify_state
  handle_fw_down : notify_state → notify_state

/-- The `switch (ecode)` of `ionic_process_notifyq`. -/
def notifyq_dispatch (E : notify_env) (ecode : Nat) (st : notify_state) : notify_state :=
  if ecode = E.EVENT_LINK_CHANGE then
    let st := { E.check_link st with calls := st.calls ++ [notify_call.check_link] }
    if st.link_status = E.PORT_OPER_STATUS_UP ∧ st.qs_running = 0 then
      { E.start_queues st with calls := st.calls ++ [notify_call.start_queues] }
    else if st.link_status ≠ E.PORT_OPER_STATUS_UP ∧ st.qs_running ≠ 0 then
      { E.stop_queues st with calls := st.calls ++ [notify_call.stop_queues] }
    else st
  else if ecode = E.EVENT_RESET then
    { E.handle_fw_down st with calls := st.calls ++ [notify_call.handle_fw_down] }
  else st

/-- The loop of `ionic_process_notifyq`; `comp` is the completion pointer the loop test
reads through, `none` when the fuel runs out. -/
def ionic_process_notifyq_loop (E : notify_env) (process : Bool) :
    Nat → Nat → notify_state → Option notify_state
  | 0, _, _ => none
  | fuel + 1, comp, st =>
    if eid_newer E.EID_BITS (st.comp_mem comp).eid st.last_eid then
      let st := { st with
        last_eid := (st.comp_mem comp).eid
        consumed := st.consumed ++ [(st.comp_mem comp).eid] }
      let cq := st.notifyqcqs.cq
      let st :=
        if (cq.info cq.tail).last then
          { st with notifyqcqs.cq.done_color := !cq.done_color }
        else st
      let st := { st with notifyqcqs.cq.tail := (cq.info cq.tail).next }
      let ecode := (st.comp_mem comp).ecode % 2 ^ 16
      let comp := (st.notifyqcqs.cq.info st.notifyqcqs.cq.tail).cq_desc
      if !process then ionic_process_notifyq_loop E process fuel comp st
      else ionic_process_notifyq_loop E process fuel comp (notifyq_dispatch E ecode st)
    else some st

/-- Process all events in the notifyq (`ionic_process_notifyq`), with fuel for its loop. -/
def ionic_process_notifyq (E : notify_env) (process : Bool) (fuel : Nat)
    (st : notify_state) : Option notify_state :=
  ionic_process_notifyq_loop E process fuel
    (st.notifyqcqs.cq.info st.notifyqcqs.cq.tail).cq_desc st

/-- Drain any out-of-date events (`ionic_drain_notifyq`). -/
def ionic_drain_notifyq (E : notify_env) (fuel : Nat) (st : notify_state) :
    Option notify_state :=
  ionic_process_notifyq E false fuel st

/-- An environment for the examples: 64-bit event ids, event codes 1 (link change) and 2
(reset), and handlers that set `link_status`, `qs_running` and `fw_running`. -/
def notify_env_fixture (W : Nat) : notify_env :=
  { EID_BITS := W
    EVENT_LINK_CHANGE := 1
    EVENT_RESET := 2
    PORT_OPER_STATUS_UP := 1
    check_link := fun st => { st with link_status := 1 }
    start_queues := fun st => { st with qs_running := 1 }
    stop_queues := fun st => { st with qs_running := 0 }
    handle_fw_down := fun st => { st with fw_running := 0 } }

/-- A notify ring of capacity 4 whose completion slot 0 holds the event `ev` and whose
other slots are zeroed, with the last seen id `last_eid`. -/
def notify_fixture (last_eid : Nat) (ev : ionic_notifyq_event) : notify_state :=
  { notifyqcqs := { cq := ionic_cq_map (ionic_cq_init {} 4 64).2 8192 8192 }
    last_eid := last_eid
    fw_running := 1
    comp_mem := Function.update (fun _ => {}) 8192 ev }

/-! ## Doorbell wire value -/

/-- The 64-bit little-endian value of a doorbell structure (`*(u64 *)&db`), by the layout
of `struct pds_doorbell` in regs.h: `p_index` in bytes 0-1, `ring` in byte 2, `qid_lo` in
byte 3, `qid_hi` in bytes 4-5 and the reserved bytes 6-7 zero. -/
def doorbell_value (db : ionic_doorbell) : Nat :=
  db.p_index % 2 ^ 16 + (db.ring % 2 ^ 8) * 2 ^ 16 + (db.qid_lo % 2 ^ 8) * 2 ^ 24 +
    (db.qid_hi % 2 ^ 16) * 2 ^ 32

/-- The macro `PDS_DBELL_QID` of regs.h. -/
def PDS_DBELL_QID (n : Nat) : Nat := (((n % 2 ^ 64) &&& 0xffffff) <<< 24) % 2 ^ 64

/-- The macro `PDS_DBELL_RING` of regs.h. -/
def PDS_DBELL_RING (n : Nat) : Nat := (((n % 2 ^ 64) &&& 0x7) <<< 16) % 2 ^ 64

/-! ## Device setup -/

/-- A PCI BAR as handed to `ionic_dev_setup` (`struct ionic_device_bar`). -/
structure ionic_device_bar where
  vaddr : Nat := 0
  bus_addr : Nat := 0
  len : Nat := 0
  deriving DecidableEq, Repr

/-- The expected signature of the device-info region (`IONIC_DEV_INFO_SIGNATURE`;
`PDS_CORE_DEV_INFO_SIGNATURE` in core_if.h). -/
def IONIC_DEV_INFO_SIGNATURE : Nat := 0x44455649

/-- Size of BAR0 (`IONIC_BAR0_SIZE`; `PDS_CORE_BAR0_SIZE` in core_if.h). -/
def IONIC_BAR0_SIZE : Nat := 0x8000

/-- Offsets into BAR0 (`IONIC_BAR0_*_OFFSET`; `PDS_CORE_BAR0_*_OFFSET` in core_if.h). -/
def IONIC_BAR0_DEV_INFO_REGS_OFFSET : Nat := 0x0000

/-- Offset of the device command registers in BAR0. -/
def IONIC_BAR0_DEV_CMD_REGS_OFFSET : Nat := 0x0800

/-- Offset of the interrupt status registers in BAR0. -/
def IONIC_BAR0_INTR_STATUS_OFFSET : Nat := 0x1000

/-- Offset of the interrupt control registers in BAR0. -/
def IONIC_BAR0_INTR_CTRL_OFFSET : Nat := 0x2000

/-- The fields of `struct ionic_dev` and `struct ionic` that `ionic_dev_setup` writes, with
the device registers it reads and the allocator. `none` is `NULL`. -/
structure setup_state where
  dev_info : Nat := 0
  dev_cmd : Nat := 0
  intr_status : Nat := 0
  intr_ctrl : Nat := 0
  db_pages : Nat := 0
  phy_db_pages : Nat := 0
  phy_hbm_pages : Nat := 0
  hbm_npages : Nat := 0
  hbm_inuse : Option Nat := none
  port_info_sz : Nat := 0
  port_info : Option Nat := none
  port_info_pa : Nat := 0
  oprom_debug_enable : Nat := 0
  /-- The device: the signature word read through a device-info pointer. -/
  read_signature : Nat → Nat := fun _ => 0
  /-- The device: the log-level byte read through a device-info pointer. -/
  read_oprom_log_level : Nat → Nat := fun _ => 0
  /-- The allocator: what the `n`-th call of `malloc_phys` returns. -/
  malloc : Nat → Option Nat := fun _ => none
  /-- Number of calls of `malloc_phys` so far. -/
  mallocs : Nat := 0

/-- Round `x` up to a multiple of `a` (`ALIGN`). -/
def ALIGN (x a : Nat) : Nat := (x + a - 1) / a * a

/-- Probe helper (`ionic_dev_setup`); `PORT_INFO_SIZE` is `sizeof(*idev->port_info)` and
`PAGE_SIZE` the page size, both from headers that are not part of the sources at hand. -/
def ionic_dev_setup (PORT_INFO_SIZE PAGE_SIZE : Nat) (idev : setup_state)
    (bars : Nat → ionic_device_bar) (num_bars : Nat) : Ret × setup_state :=
  if num_bars < 1 ∨ (bars 0).len ≠ IONIC_BAR0_SIZE then
    (Ret.neg Errno.EFAULT, idev)
  else
    let idev := { idev with
      dev_info := (bars 0).vaddr + IONIC_BAR0_DEV_INFO_REGS_OFFSET
      dev_cmd := (bars 0).vaddr + IONIC_BAR0_DEV_CMD_REGS_OFFSET
      intr_status := (bars 0).vaddr + IONIC_BAR0_INTR_STATUS_OFFSET
      intr_ctrl := (bars 0).vaddr + IONIC_BAR0_INTR_CTRL_OFFSET }
    let sig := idev.read_signature idev.dev_info % 2 ^ 32
    if sig ≠ IONIC_DEV_INFO_SIGNATURE then
      (Ret.neg Errno.EFAULT, idev)
    else
      let oprom_debug_flag := idev.read_oprom_log_level idev.dev_info % 2 ^ 8
      let idev := if oprom_debug_flag ≠ 0 then { idev with oprom_debug_enable := 1 } else idev
      if num_bars < 2 then
        (Ret.neg Errno.EFAULT, idev)
      else
        let idev := { idev with db_pages := (bars 1).vaddr, phy_db_pages := (bars 1).bus_addr }
        let idev :=
          if num_bars < 3 then
            { idev with phy_hbm_pages := 0, hbm_npages := 0, hbm_inuse := none }
          else idev
        let idev := { idev with port_info_sz := ALIGN PORT_INFO_SIZE PAGE_SIZE }
        let idev := { idev with
          port_info := idev.malloc idev.mallocs, mallocs := idev.mallocs + 1 }
        match idev.port_info with
        | none => (Ret.neg Errno.ENOMEM, idev)
        | some p => (Ret.val 0, { idev with port_info_pa := p })

/-! ## Sequences of posts and consumes -/

/-- A producer or consumer step on a descriptor ring. -/
inductive q_op where
  | post
  | consume
  deriving DecidableEq, Repr

/-- A descriptor ring with the history of its slots: the indices of the slots posted and
of the slots consumed, oldest first. -/
structure q_trace where
  q : queue := {}
  posted : List Nat := []
  consumed : List Nat := []

/-- One guarded step: a post (`q->head = q->head->next`) is performed only when
`ionic_q_has_space(q, 1)` holds, a consume (`q->tail = q->tail->next`) only when the queue
is not empty (`q->tail->index != q->head->index`). -/
def q_step (s : q_trace) (op : q_op) : q_trace :=
  match op with
  | q_op.post =>
    if ionic_q_has_space s.q 1 then
      { s with
        q := { s.q with head := (s.q.info s.q.head).next }
        posted := s.posted ++ [(s.q.info s.q.head).index] }
    else s
  | q_op.consume =>
    if (s.q.info s.q.tail).index ≠ (s.q.info s.q.head).index then
      { s with
        q := { s.q with tail := (s.q.info s.q.tail).next }
        consumed := s.consumed ++ [(s.q.info s.q.tail).index] }
    else s

/-- Number of slots from slot `t` forward to slot `j` on a ring of capacity `C`. -/
def ring_dist (C t j : Nat) : Nat := if t ≤ j then j - t else j + C - t

/-- The scenario of four transmitted packets: `tx_fixture 16` after four calls of
`ionic_transmit`, and a device that has written one completion, into completion slot 0,
whose index is that of the fourth slot. -/
def tx_scenario : tx_state :=
  let st := (ionic_transmit 1 0 (tx_fixture 16) { data := 100, len := 60 }).2
  let st := (ionic_transmit 1 0 st { data := 200, len := 61 }).2
  let st := (ionic_transmit 1 0 st { data := 300, len := 62 }).2
  let st := (ionic_transmit 1 0 st { data := 400, len := 63 }).2
  { st with comp_mem := Function.update st.comp_mem 8192 { comp_index := 3, color := 128 } }

/-- The ring shape that `ionic_q_init` gives the slots of a queue of capacity `C`: slot
`i` has index `i`, successor `(i + 1) mod C` and `C - i` slots left to the wrap point. -/
def queue_ring (q : queue) (C : Nat) : Prop :=
  4 ≤ C ∧ C ≤ 65536 ∧
    ∀ i, i < C → (q.info i).index = i ∧ (q.info i).next = (i + 1) % C ∧ (q.info i).left = C - i

instance (q : queue) (C : Nat) : Decidable (queue_ring q C) := by
  unfold queue_ring
  infer_instance

/-- The lif after the post part of `ionic_adminq_post_wait` (command copied to the head
slot, head advanced, doorbell written), before the completion ring is polled. -/
def adminq_posted (l : lif) (ctx : ionic_admin_ctx) : lif :=
  let adminq := l.adminqcq.q
  let l := { l with desc_mem := Function.update l.desc_mem (adminq.info adminq.head).desc ctx.cmd }
  let l := { l with adminqcq.q.head := (adminq.info adminq.head).next }
  { l with db :=
      { qid_lo := adminq.hw_index % 2 ^ 8
        qid_hi := (adminq.hw_index >>> 8) % 2 ^ 16
        ring := 0
        p_index := (l.adminqcq.q.info l.adminqcq.q.head).index % 2 ^ 16 } :: l.db }

/-- The lif after `k` consecutive calls of `ionic_adminq_post_wait` with the command
`ctx`. -/
def adminq_post_n (devcmd_timeout : Nat) (ctx : ionic_admin_ctx) : Nat → lif → lif
  | 0, l => l
  | k + 1, l =>
    (ionic_adminq_post_wait devcmd_timeout (adminq_post_n devcmd_timeout ctx k l) ctx).2.1

/-- The ring shape that `ionic_cq_init` gives the slots of a zeroed completion ring of
capacity `C`: slot `i` has index `i` and successor `(i + 1) mod C`, and only slot `C - 1`
is flagged last. -/
def cq_ring (c : cq) (C : Nat) : Prop :=
  4 ≤ C ∧ C ≤ 65536 ∧
    ∀ i, i < C → (c.info i).index = i ∧ (c.info i).next = (i + 1) % C ∧
      ((c.info i).last = true ↔ i + 1 = C)

instance (c : cq) (C : Nat) : Decidable (cq_ring c C) := by
  unfold cq_ring
  infer_instance

/-- A lif whose admin ring pair of capacity `C` is set up as `ionic_qcq_alloc` does it
(`ionic_q_init`, `ionic_cq_init` on zeroed slots, then the two maps), with the firmware
running and a zeroed completion memory. -/
def adminq_fixture (C : Nat) : lif :=
  { fw_running := 1
    adminqcq :=
      { q := ionic_q_map (ionic_q_init {} 0 C 64 0 0).2 4096 4096
        cq := ionic_cq_map (ionic_cq_init {} C 16).2 8192 8192 } }

/-- The lif `adminq_fixture C` with a device that has written, into every completion
slot, a completion of status `status` whose color bit is set. -/
def adminq_fixture_done (C status : Nat) : lif :=
  { adminq_fixture C with comp_mem := fun _ _ => { status := status, color := 128 } }

/-- The device side of the color protocol: the completion memory, by slot, of a ring of
capacity `C` that started zeroed and into which the device has written `p` completions,
the `k`-th into slot `k mod C` with the color bit set iff `k / C` is even. -/
def device_cq_mem (C p : Nat) : Nat → ionic_admin_comp :=
  (List.range p).foldl
    (fun mem k =>
      Function.update mem (k % C)
        { color := if (k / C) % 2 = 0 then IONIC_COMP_COLOR_MASK else 0 })
    (fun _ => {})

/-- The invariant of a traced ring of capacity `C`: the ring shape, head and tail within
the ring, and the posted slots being the consumed ones followed by the slots in flight
from the tail to the head. -/
def q_trace_inv (C : Nat) (s : q_trace) : Prop :=
  queue_ring s.q C ∧ s.q.tail < C ∧ s.q.head < C ∧
    s.posted = s.consumed ++
      (List.range (ring_dist C s.q.tail s.q.head)).map (fun i => (s.q.tail + i) % C)

/-! ## Helper lemmas -/

theorem is_power_of_2_iff (n : Nat) : is_power_of_2 n = true ↔ ∃ k, k < 32 ∧ n = 2 ^ k := by
  simp [is_power_of_2, List.any_eq_true]

theorem ilog2_two_pow : ∀ k, k < 32 → ilog2 (2 ^ k) = k := by
  decide

theorem two_pow_bounds {k : Nat} (h2 : 2 ≤ k) (h16 : k ≤ 16) :
    4 ≤ 2 ^ k ∧ 2 ^ k ≤ 65536 := by
  constructor
  · calc 4 = 2 ^ 2 := by norm_num
      _ ≤ 2 ^ k := Nat.pow_le_pow_right (by norm_num) h2
  · calc 2 ^ k ≤ 2 ^ 16 := Nat.pow_le_pow_right (by norm_num) h16
      _ = 65536 := by norm_num

theorem ionic_q_init_of_ok (q : queue) (index num_descs desc_size sg_desc_size pid : Nat)
    (hd : desc_size ≠ 0) (hp : is_power_of_2 num_descs = true)
    (hlo : 2 ≤ ilog2 num_descs) (hhi : ilog2 num_descs ≤ 16) :
    ionic_q_init q index num_descs desc_size sg_desc_size pid =
      (Ret.val 0,
        { q with
          index := index
          num_descs := num_descs
          desc_size := desc_size
          sg_desc_size := sg_desc_size
          head := 0
          tail := 0
          pid := pid
          info := (List.range num_descs).foldl (ionic_q_init_slot num_descs) q.info }) := by
  have h2 : ¬ (ilog2 num_descs < 2 ∨ 16 < ilog2 num_descs) := by omega
  simp [ionic_q_init, hd, hp, h2]

theorem ionic_q_init_of_bad (q : queue) (index num_descs desc_size sg_desc_size pid : Nat)
    (h : desc_size = 0 ∨ is_power_of_2 num_descs = false ∨
      ilog2 num_descs < 2 ∨ 16 < ilog2 num_descs) :
    ionic_q_init q index num_descs desc_size sg_desc_size pid = (Ret.neg Errno.EINVAL, q) := by
  rcases h with h | h | h
  · simp [ionic_q_init, h]
  · simp [ionic_q_init, h]
  · by_cases h1 : desc_size = 0 ∨ is_power_of_2 num_descs = false
    · simp [ionic_q_init, h1]
    · simp [ionic_q_init, h1, h]

theorem ionic_q_init_ok_iff (q : queue) (index num_descs desc_size sg_desc_size pid : Nat) :
    (ionic_q_init q index num_descs desc_size sg_desc_size pid).1 = Ret.val 0 ↔
    desc_size ≠ 0 ∧ ∃ k, 2 ≤ k ∧ k ≤ 16 ∧ num_descs = 2 ^ k := by
  constructor
  · intro h
    by_contra hn
    have hbad : desc_size = 0 ∨ is_power_of_2 num_descs = false ∨
        ilog2 num_descs < 2 ∨ 16 < ilog2 num_descs := by
      by_contra hb
      push_neg at hb
      obtain ⟨hd, hp, hlo, hhi⟩ := hb
      have hp2 : is_power_of_2 num_descs = true := by simpa using hp
      obtain ⟨k, hk, rfl⟩ := (is_power_of_2_iff _).1 hp2
      rw [ilog2_two_pow k hk] at hlo hhi
      exact hn ⟨hd, k, hlo, hhi, rfl⟩
    rw [ionic_q_init_of_bad _ _ _ _ _ _ hbad] at h
    exact Ret.noConfusion h
  · rintro ⟨hd, k, hk2, hk16, rfl⟩
    have hp : is_power_of_2 (2 ^ k) = true := (is_power_of_2_iff _).2 ⟨k, by omega, rfl⟩
    have hl := ilog2_two_pow k (by omega)
    rw [ionic_q_init_of_ok _ _ _ _ _ _ hd hp (by omega) (by omega)]

theorem ionic_q_init_slot_apply (num_descs : Nat) (info : Nat → desc_info) (n i : Nat) :
    ionic_q_init_slot num_descs info n i =
      if i = n then
        { info n with
          next := if n + 1 = num_descs then 0 else n + 1
          index := n
          left := num_descs - n }
      else info i := by
  simp [ionic_q_init_slot, Function.update_apply]

/-- The slots of a descriptor ring after the loop of `ionic_q_init` has run over the
first `n` of them. -/
theorem ionic_q_init_loop_info (num_descs : Nat) (info : Nat → desc_info) (n i : Nat) :
    ((List.range n).foldl (ionic_q_init_slot num_descs) info) i =
      if i < n then
        { info i with
          next := if i + 1 = num_descs then 0 else i + 1
          index := i
          left := num_descs - i }
      else info i := by
  induction n with
  | zero => simp
  | succ n ih =>
    rw [List.range_succ, List.foldl_append, List.foldl_cons, List.foldl_nil,
      ionic_q_init_slot_apply]
    by_cases hin : i = n
    · subst hin
      rw [if_pos rfl, if_pos (Nat.lt_succ_self i), ih, if_neg (Nat.lt_irrefl i)]
    · rw [if_neg hin, ih]
      by_cases hlt : i < n
      · rw [if_pos hlt, if_pos (Nat.lt_succ_of_lt hlt)]
      · rw [if_neg hlt, if_neg (by omega)]

/-- A successful `ionic_q_init` leaves a ring-shaped queue with head and tail at slot 0. -/
theorem ionic_q_init_ring (q0 : queue) (index C desc_size sg_desc_size pid : Nat)
    (hok : (ionic_q_init q0 index C desc_size sg_desc_size pid).1 = Ret.val 0) :
    queue_ring (ionic_q_init q0 index C desc_size sg_desc_size pid).2 C ∧
      (ionic_q_init q0 index C desc_size sg_desc_size pid).2.head = 0 ∧
      (ionic_q_init q0 index C desc_size sg_desc_size pid).2.tail = 0 ∧
      (ionic_q_init q0 index C desc_size sg_desc_size pid).2.num_descs = C := by
  obtain ⟨hd, k, hk2, hk16, rfl⟩ := (ionic_q_init_ok_iff _ _ _ _ _ _).1 hok
  have hp : is_power_of_2 (2 ^ k) = true := (is_power_of_2_iff _).2 ⟨k, by omega, rfl⟩
  have hl := ilog2_two_pow k (by omega)
  rw [ionic_q_init_of_ok _ _ _ _ _ _ hd hp (by omega) (by omega)]
  obtain ⟨h4, h64⟩ := two_pow_bounds hk2 hk16
  refine ⟨⟨h4, h64, ?_⟩, rfl, rfl, rfl⟩
  intro i hi
  simp only [ionic_q_init_loop_info, if_pos hi]
  refine ⟨trivial, ?_, trivial⟩
  by_cases hlast : i + 1 = 2 ^ k
  · simp [hlast]
  · rw [if_neg hlast, Nat.mod_eq_of_lt (by omega)]

/-- On a ring-shaped queue the free space is `tail - head - 1` counted modulo the
capacity. -/
theorem space_avail_of_ring (q : queue) (C : Nat) (hr : queue_ring q C)
    (hh : q.head < C) (ht : q.tail < C) :
    ionic_q_space_avail q =
      if q.head ≥ q.tail then q.tail + C - q.head - 1 else q.tail - q.head - 1 := by
  obtain ⟨h4, h64, hinfo⟩ := hr
  obtain ⟨hi1, -, hl1⟩ := hinfo q.head hh
  obtain ⟨hi2, -, -⟩ := hinfo q.tail ht
  unfold ionic_q_space_avail
  simp only [hi1, hi2, hl1, add32, sub32, U32]
  norm_num
  split <;> omega

theorem ring_with_head_tail (q : queue) (C h t : Nat) (hr : queue_ring q C) :
    queue_ring { q with head := h, tail := t } C := hr

theorem two_pow_exp_bounds {k : Nat} (h4 : 4 ≤ 2 ^ k) (h64 : 2 ^ k ≤ 65536) :
    2 ≤ k ∧ k ≤ 16 := by
  constructor
  · by_contra hk
    have : 2 ^ k ≤ 2 ^ 1 := Nat.pow_le_pow_right (by norm_num) (by omega)
    omega
  · by_contra hk
    have : 2 ^ 17 ≤ 2 ^ k := Nat.pow_le_pow_right (by norm_num) (by omega)
    omega

/-! ## Completion ring: lemmas -/

theorem ionic_cq_init_of_ok (c : cq) (num_descs desc_size : Nat)
    (hd : desc_size ≠ 0) (hp : is_power_of_2 num_descs = true)
    (hlo : 2 ≤ ilog2 num_descs) (hhi : ilog2 num_descs ≤ 16) :
    ionic_cq_init c num_descs desc_size =
      (Ret.val 0,
        { c with
          num_descs := num_descs
          desc_size := desc_size
          tail := 0
          done_color := true
          info := (List.range num_descs).foldl (ionic_cq_init_slot num_descs) c.info }) := by
  have h2 : ¬ (ilog2 num_descs < 2 ∨ 16 < ilog2 num_descs) := by omega
  simp [ionic_cq_init, hd, hp, h2]

theorem ionic_cq_init_of_bad (c : cq) (num_descs desc_size : Nat)
    (h : desc_size = 0 ∨ is_power_of_2 num_descs = false ∨
      ilog2 num_descs < 2 ∨ 16 < ilog2 num_descs) :
    ionic_cq_init c num_descs desc_size = (Ret.neg Errno.EINVAL, c) := by
  rcases h with h | h | h
  · simp [ionic_cq_init, h]
  · simp [ionic_cq_init, h]
  · by_cases h1 : desc_size = 0 ∨ is_power_of_2 num_descs = false
    · simp [ionic_cq_init, h1]
    · simp [ionic_cq_init, h1, h]

theorem ionic_cq_init_ok_iff (c : cq) (num_descs desc_size : Nat) :
    (ionic_cq_init c num_descs desc_size).1 = Ret.val 0 ↔
    desc_size ≠ 0 ∧ ∃ k, 2 ≤ k ∧ k ≤ 16 ∧ num_descs = 2 ^ k := by
  constructor
  · intro h
    by_contra hn
    have hbad : desc_size = 0 ∨ is_power_of_2 num_descs = false ∨
        ilog2 num_descs < 2 ∨ 16 < ilog2 num_descs := by
      by_contra hb
      push_neg at hb
      obtain ⟨hd, hp, hlo, hhi⟩ := hb
      have hp2 : is_power_of_2 num_descs = true := by simpa using hp
      obtain ⟨k, hk, rfl⟩ := (is_power_of_2_iff _).1 hp2
      rw [ilog2_two_pow k hk] at hlo hhi
      exact hn ⟨hd, k, hlo, hhi, rfl⟩
    rw [ionic_cq_init_of_bad _ _ _ hbad] at h
    exact Ret.noConfusion h
  · rintro ⟨hd, k, hk2, hk16, rfl⟩
    have hp : is_power_of_2 (2 ^ k) = true := (is_power_of_2_iff _).2 ⟨k, by omega, rfl⟩
    have hl := ilog2_two_pow k (by omega)
    rw [ionic_cq_init_of_ok _ _ _ hd hp (by omega) (by omega)]

theorem ionic_cq_init_slot_apply (num_descs : Nat) (info : Nat → cq_info) (n i : Nat) :
    ionic_cq_init_slot num_descs info n i =
      if i = n then
        (if n + 1 = num_descs then
          { info n with next := 0, last := true, index := n }
        else
          { info n with next := n + 1, index := n })
      else info i := by
  simp [ionic_cq_init_slot, Function.update_apply]

/-- The slots of a completion ring after the loop of `ionic_cq_init` has run over the
first `n` of them. -/
theorem ionic_cq_init_loop_info (num_descs : Nat) (info : Nat → cq_info) (n i : Nat) :
    ((List.range n).foldl (ionic_cq_init_slot num_descs) info) i =
      if i < n then
        (if i + 1 = num_descs then
          { info i with next := 0, last := true, index := i }
        else
          { info i with next := i + 1, index := i })
      else info i := by
  induction n with
  | zero => simp
  | succ n ih =>
    rw [List.range_succ, List.foldl_append, List.foldl_cons, List.foldl_nil,
      ionic_cq_init_slot_apply]
    by_cases hin : i = n
    · subst hin
      rw [if_pos rfl, if_pos (Nat.lt_succ_self i), ih, if_neg (Nat.lt_irrefl i)]
    · rw [if_neg hin, ih]
      by_cases hlt : i < n
      · rw [if_pos hlt, if_pos (Nat.lt_succ_of_lt hlt)]
      · rw [if_neg hlt, if_neg (by omega)]

/-- A successful `ionic_cq_init` on slots whose `last` flags are clear leaves a
ring-shaped completion ring with the tail at slot 0 and `done_color` set. -/
theorem ionic_cq_init_ring (c0 : cq) (C desc_size : Nat)
    (hok : (ionic_cq_init c0 C desc_size).1 = Ret.val 0)
    (hzero : ∀ i, (c0.info i).last = false) :
    cq_ring (ionic_cq_init c0 C desc_size).2 C ∧
      (ionic_cq_init c0 C desc_size).2.tail = 0 ∧
      (ionic_cq_init c0 C desc_size).2.done_color = true := by
  obtain ⟨hd, k, hk2, hk16, rfl⟩ := (ionic_cq_init_ok_iff _ _ _).1 hok
  have hp : is_power_of_2 (2 ^ k) = true := (is_power_of_2_iff _).2 ⟨k, by omega, rfl⟩
  have hl := ilog2_two_pow k (by omega)
  rw [ionic_cq_init_of_ok _ _ _ hd hp (by omega) (by omega)]
  obtain ⟨h4, h64⟩ := two_pow_bounds hk2 hk16
  refine ⟨⟨h4, h64, ?_⟩, rfl, rfl⟩
  intro i hi
  simp only [ionic_cq_init_loop_info, if_pos hi]
  by_cases hlast : i + 1 = 2 ^ k
  · simp [hlast]
  · rw [if_neg hlast, Nat.mod_eq_of_lt (by omega)]
    simp [hlast, hzero i]

theorem succ_mod_ring (h C : Nat) (hh : h < C) :
    (h + 1) % C = if h + 1 = C then 0 else h + 1 := by
  by_cases e : h + 1 = C
  · rw [if_pos e, e, Nat.mod_self]
  · rw [if_neg e, Nat.mod_eq_of_lt (by omega)]

theorem succ_div_mod (m C : Nat) (hC : 0 < C) :
    if m % C + 1 = C then (m + 1) / C = m / C + 1 ∧ (m + 1) % C = 0
    else (m + 1) / C = m / C ∧ (m + 1) % C = m % C + 1 := by
  have hm := Nat.mod_add_div m C
  have hlt := Nat.mod_lt m hC
  by_cases e : m % C + 1 = C
  · rw [if_pos e]
    refine (Nat.div_mod_unique hC).2 ⟨?_, hC⟩
    rw [Nat.mul_add, Nat.mul_one]
    omega
  · rw [if_neg e]
    refine (Nat.div_mod_unique hC).2 ⟨?_, by omega⟩
    omega

/-- One consumer step on a ring-shaped completion ring. -/
theorem cq_consume_ring (c : cq) (C : Nat) (hr : cq_ring c C) (ht : c.tail < C) :
    (cq_consume c).tail = (c.tail + 1) % C ∧
      (cq_consume c).done_color = (if c.tail + 1 = C then !c.done_color else c.done_color) ∧
      (cq_consume c).info = c.info := by
  obtain ⟨-, -, hinfo⟩ := hr
  obtain ⟨-, hn, hl⟩ := hinfo c.tail ht
  by_cases e : c.tail + 1 = C
  · have hl1 : (c.info c.tail).last = true := hl.2 e
    simp [cq_consume, hl1, hn, e]
  · have hl1 : (c.info c.tail).last = false := by
      cases hx : (c.info c.tail).last
      · rfl
      · exact absurd (hl.1 hx) e
    simp [cq_consume, hl1, hn, e]

/-- The completion ring after `n` consumer steps: the tail is `(t + n) mod C` and
`done_color` has flipped once per completed revolution. -/
theorem cq_consume_iterate (c : cq) (C : Nat) (hr : cq_ring c C) (ht : c.tail < C) (n : Nat) :
    (cq_consume^[n] c).tail = (c.tail + n) % C ∧
      (cq_consume^[n] c).done_color = (c.done_color != decide (((c.tail + n) / C) % 2 = 1)) ∧
      (cq_consume^[n] c).info = c.info := by
  have hC : 0 < C := by have := hr.1; omega
  induction n with
  | zero =>
    simp [Nat.mod_eq_of_lt ht, Nat.div_eq_of_lt ht]
  | succ n ih =>
    obtain ⟨iht, ihd, ihi⟩ := ih
    rw [Function.iterate_succ_apply']
    have hr2 : cq_ring (cq_consume^[n] c) C := by
      unfold cq_ring
      rw [ihi]
      exact hr
    have ht2 : (cq_consume^[n] c).tail < C := by
      rw [iht]
      exact Nat.mod_lt _ hC
    obtain ⟨st, sd, si⟩ := cq_consume_ring _ C hr2 ht2
    have key := succ_div_mod (c.tail + n) C hC
    refine ⟨?_, ?_, si.trans ihi⟩
    · rw [st, iht, ← Nat.add_assoc]
      simp
    · rw [sd, iht, ihd, ← Nat.add_assoc]
      by_cases e : (c.tail + n) % C + 1 = C
      · rw [if_pos e] at key ⊢
        rw [key.1]
        rcases Nat.mod_two_eq_zero_or_one ((c.tail + n) / C) with h2 | h2
        · have : ((c.tail + n) / C + 1) % 2 = 1 := by omega
          simp [h2, this]
        · have : ((c.tail + n) / C + 1) % 2 = 0 := by omega
          simp [h2, this]
      · rw [if_neg e] at key ⊢
        rw [key.1]

/-! ## Color protocol: lemmas -/

theorem device_cq_mem_succ (C p j : Nat) :
    device_cq_mem C (p + 1) j =
      if j = p % C then
        { color := if (p / C) % 2 = 0 then IONIC_COMP_COLOR_MASK else 0 }
      else device_cq_mem C p j := by
  unfold device_cq_mem
  rw [List.range_succ, List.foldl_append, List.foldl_cons, List.foldl_nil,
    Function.update_apply]

theorem add_mod_ne (c d C : Nat) (hd0 : 0 < d) (hd : d < C) : c % C ≠ (c + d) % C := by
  intro h
  have h1 : c + 0 ≡ c + d [MOD C] := by
    rw [Nat.add_zero]
    exact h
  have h2 : 0 ≡ d [MOD C] := Nat.ModEq.add_left_cancel' c h1
  have h3 : 0 % C = d % C := h2
  rw [Nat.zero_mod, Nat.mod_eq_of_lt hd] at h3
  omega

/-- Within one revolution after completion `c` was written, its slot still holds it. -/
theorem device_cq_mem_holds (C c : Nat) :
    ∀ d, d ≤ C → device_cq_mem C (c + d) (c % C) =
      if 0 < d then
        { color := if (c / C) % 2 = 0 then IONIC_COMP_COLOR_MASK else 0 }
      else device_cq_mem C c (c % C) := by
  intro d
  induction d with
  | zero => intro _; simp
  | succ d ih =>
    intro hd
    rw [← Nat.add_assoc, device_cq_mem_succ, if_pos (Nat.succ_pos d)]
    by_cases h0 : d = 0
    · subst h0
      simp
    · rw [if_neg (add_mod_ne c d C (by omega) (by omega)), ih (by omega), if_pos (by omega)]

theorem device_cq_mem_unwritten (C : Nat) : ∀ p j, p ≤ j → j < C → device_cq_mem C p j = {} := by
  intro p
  induction p with
  | zero => intro j _ _; rfl
  | succ p ih =>
    intro j hj hC
    rw [device_cq_mem_succ, Nat.mod_eq_of_lt (by omega), if_neg (by omega), ih j (by omega) hC]

/-! ## Admin queue: lemmas -/

theorem post_wait_nospace (T : Nat) (l : lif) (ctx : ionic_admin_ctx)
    (h : ionic_q_has_space l.adminqcq.q 1 = false) :
    ionic_adminq_post_wait T l ctx = (Ret.neg Errno.ENOSPC, l, ctx) := by
  simp [ionic_adminq_post_wait, h]

theorem post_wait_space (T : Nat) (l : lif) (ctx : ionic_admin_ctx)
    (h : ionic_q_has_space l.adminqcq.q 1 = true) :
    ionic_adminq_post_wait T l ctx = polladminq T (adminq_posted l ctx) ctx := by
  simp [ionic_adminq_post_wait, h, adminq_posted]

theorem polladminq_fw_down (T : Nat) (l : lif) (ctx : ionic_admin_ctx)
    (h : l.fw_running = 0) : polladminq T l ctx = (Ret.neg Errno.EIO, l, ctx) := by
  simp [polladminq, h]

theorem polladminq_fw_up (T : Nat) (l : lif) (ctx : ionic_admin_ctx)
    (h : l.fw_running ≠ 0) :
    polladminq T l ctx =
      polladminq_loop (l.adminqcq.cq.info l.adminqcq.cq.tail).cq_desc T l ctx := by
  simp [polladminq, h]

/-- The wait loop times out after `n` color tests and `n` delays when no test matches. -/
theorem polladminq_loop_quiet (comp : Nat) (ctx : ionic_admin_ctx) :
    ∀ (n : Nat) (l : lif),
      (∀ i, i < n →
        color_match (l.comp_mem (l.delays + i) comp).color l.adminqcq.cq.done_color = false) →
      polladminq_loop comp n l ctx =
        (Ret.neg Errno.ETIMEDOUT,
          { l with delays := l.delays + n, color_tests := l.color_tests + n }, ctx) := by
  intro n
  induction n with
  | zero => intro l _; rfl
  | succ n ih =>
    intro l h
    have h0 := h 0 (Nat.succ_pos n)
    rw [Nat.add_zero] at h0
    rw [polladminq_loop]
    simp only [h0]
    rw [ih]
    · simp only [Nat.add_assoc, Nat.add_comm 1 n]
      rfl
    · intro i hi
      have := h (i + 1) (by omega)
      simpa [Nat.add_assoc, Nat.add_comm 1 i] using this

/-- The wait loop consumes the completion at its first color test when that one matches. -/
theorem polladminq_loop_hit (comp : Nat) (ctx : ionic_admin_ctx) (n : Nat) (l : lif)
    (h : color_match (l.comp_mem l.delays comp).color l.adminqcq.cq.done_color = true) :
    polladminq_loop comp (n + 1) l ctx =
      (ionic_adminq_check_err { ctx with comp := l.comp_mem l.delays comp },
        { l with
          color_tests := l.color_tests + 1
          adminqcq.cq := cq_consume l.adminqcq.cq
          adminqcq.q.tail := (l.adminqcq.q.info l.adminqcq.q.tail).next },
        { ctx with comp := l.comp_mem l.delays comp }) := by
  rw [polladminq_loop]
  simp only [h]
  by_cases hl : (l.adminqcq.cq.info l.adminqcq.cq.tail).last = true
  · simp [cq_consume, hl]
  · simp [cq_consume, hl]

theorem mod_ring_lt2 (m C : Nat) (hm : m < 2 * C) :
    m % C = if m < C then m else m - C := by
  by_cases e : m < C
  · rw [if_pos e, Nat.mod_eq_of_lt e]
  · rw [if_neg e, Nat.mod_eq_sub_mod (by omega), Nat.mod_eq_of_lt (by omega)]

/-- Free space of a ring-shaped queue with `k` slots in flight. -/
theorem space_of_inflight (q : queue) (C k : Nat) (hr : queue_ring q C)
    (ht : q.tail < C) (hk : k < C) (hhead : q.head = (q.tail + k) % C) :
    ionic_q_space_avail q = C - 1 - k := by
  have hh : q.head < C := by
    rw [hhead]
    exact Nat.mod_lt _ (by omega)
  rw [space_avail_of_ring q C hr hh ht, hhead, mod_ring_lt2 _ C (by omega)]
  by_cases e : q.tail + k < C
  · rw [if_pos e, if_pos (by omega)]
    omega
  · rw [if_neg e, if_neg (by omega)]
    omega

theorem has_space_of_inflight (q : queue) (C k : Nat) (hr : queue_ring q C)
    (ht : q.tail < C) (hk : k < C) (hhead : q.head = (q.tail + k) % C) :
    ionic_q_has_space q 1 = decide (k + 1 < C) := by
  unfold ionic_q_has_space
  rw [space_of_inflight q C k hr ht hk hhead]
  by_cases e : k + 1 < C
  · simp [e]
    omega
  · simp [e]
    omega

/-- A post that passes the space check while no completion ever matches: the call fails
with `-EIO` or `-ETIMEDOUT` and leaves the rings as the post part left them. -/
theorem post_wait_quiet (T : Nat) (l : lif) (ctx : ionic_admin_ctx)
    (hs : ionic_q_has_space l.adminqcq.q 1 = true)
    (hquiet : ∀ t a, color_match (l.comp_mem t a).color l.adminqcq.cq.done_color = false) :
    (ionic_adminq_post_wait T l ctx).1 =
        (if l.fw_running = 0 then Ret.neg Errno.EIO else Ret.neg Errno.ETIMEDOUT) ∧
      (ionic_adminq_post_wait T l ctx).2.1.adminqcq.q =
        { l.adminqcq.q with head := (l.adminqcq.q.info l.adminqcq.q.head).next } ∧
      (ionic_adminq_post_wait T l ctx).2.1.adminqcq.cq = l.adminqcq.cq ∧
      (ionic_adminq_post_wait T l ctx).2.1.comp_mem = l.comp_mem ∧
      (ionic_adminq_post_wait T l ctx).2.1.fw_running = l.fw_running := by
  rw [post_wait_space T l ctx hs]
  by_cases hfw : l.fw_running = 0
  · rw [polladminq_fw_down T _ ctx (by exact hfw), if_pos hfw]
    exact ⟨rfl, rfl, rfl, rfl, rfl⟩
  · rw [polladminq_fw_up T _ ctx (by exact hfw), if_neg hfw, polladminq_loop_quiet]
    · exact ⟨rfl, rfl, rfl, rfl, rfl⟩
    · intro i _
      exact hquiet _ _

/-- The admin ring after `k` posts without any completion consumed. -/
theorem adminq_post_n_state (T C : Nat) (l : lif) (ctx : ionic_admin_ctx)
    (hr : queue_ring l.adminqcq.q C) (ht : l.adminqcq.q.tail < C)
    (hempty : l.adminqcq.q.head = l.adminqcq.q.tail)
    (hquiet : ∀ t a, color_match (l.comp_mem t a).color l.adminqcq.cq.done_color = false) :
    ∀ k, k < C →
      (adminq_post_n T ctx k l).adminqcq.q.info = l.adminqcq.q.info ∧
      (adminq_post_n T ctx k l).adminqcq.q.tail = l.adminqcq.q.tail ∧
      (adminq_post_n T ctx k l).adminqcq.q.head = (l.adminqcq.q.tail + k) % C ∧
      (adminq_post_n T ctx k l).adminqcq.cq = l.adminqcq.cq ∧
      (adminq_post_n T ctx k l).comp_mem = l.comp_mem := by
  intro k
  induction k with
  | zero =>
    intro _
    refine ⟨rfl, rfl, ?_, rfl, rfl⟩
    rw [Nat.add_zero, Nat.mod_eq_of_lt ht]
    exact hempty
  | succ k ih =>
    intro hk
    obtain ⟨hi, htl, hhd, hcq, hcm⟩ := ih (by omega)
    have hr2 : queue_ring (adminq_post_n T ctx k l).adminqcq.q C := by
      unfold queue_ring
      rw [hi]
      exact hr
    have hs : ionic_q_has_space (adminq_post_n T ctx k l).adminqcq.q 1 = true := by
      rw [has_space_of_inflight _ C k hr2 (by rw [htl]; exact ht) (by omega) (by rw [htl]; exact hhd)]
      exact decide_eq_true hk
    have hq2 : ∀ t a, color_match ((adminq_post_n T ctx k l).comp_mem t a).color
        (adminq_post_n T ctx k l).adminqcq.cq.done_color = false := by
      rw [hcq, hcm]
      exact hquiet
    obtain ⟨-, pq, pcq, pcm, -⟩ := post_wait_quiet T _ ctx hs hq2
    have hnext := (hr2.2.2 (adminq_post_n T ctx k l).adminqcq.q.head
      (by rw [hhd]; exact Nat.mod_lt _ (by omega))).2.1
    simp only [adminq_post_n, pq, pcq, pcm]
    refine ⟨hi, htl, ?_, hcq, hcm⟩
    rw [hnext, hhd, ← Nat.add_assoc]
    simp

/-- The successful path of `ionic_adminq_post_wait`: the post, then one color test that
matches and consumes the completion. -/
theorem post_wait_hit (T : Nat) (l : lif) (ctx : ionic_admin_ctx)
    (hs : ionic_q_has_space l.adminqcq.q 1 = true) (hfw : l.fw_running ≠ 0) (hT : 0 < T)
    (hm : color_match (l.comp_mem l.delays
      (l.adminqcq.cq.info l.adminqcq.cq.tail).cq_desc).color l.adminqcq.cq.done_color = true) :
    ionic_adminq_post_wait T l ctx =
      (ionic_adminq_check_err
          { ctx with comp := l.comp_mem l.delays (l.adminqcq.cq.info l.adminqcq.cq.tail).cq_desc },
        { adminq_posted l ctx with
          color_tests := l.color_tests + 1
          adminqcq.cq := cq_consume l.adminqcq.cq
          adminqcq.q.tail := (l.adminqcq.q.info l.adminqcq.q.tail).next },
        { ctx with comp := l.comp_mem l.delays (l.adminqcq.cq.info l.adminqcq.cq.tail).cq_desc }) := by
  obtain ⟨n, rfl⟩ : ∃ n, T = n + 1 := ⟨T - 1, by omega⟩
  rw [post_wait_space _ l ctx hs, polladminq_fw_up _ _ ctx (by exact hfw),
    polladminq_loop_hit _ ctx n _ (by exact hm)]
  rfl

/-- Advancing head and tail of a ring-shaped queue by one slot each keeps the free
space. -/
theorem space_avail_shift (q : queue) (C : Nat) (hr : queue_ring q C)
    (hh : q.head < C) (ht : q.tail < C) (hs : ionic_q_has_space q 1 = true) :
    ionic_q_space_avail { q with head := (q.head + 1) % C, tail := (q.tail + 1) % C } =
      ionic_q_space_avail q := by
  have h4 := hr.1
  have hs' : 1 ≤ ionic_q_space_avail q := by simpa [ionic_q_has_space] using hs
  have hr' : queue_ring { q with head := (q.head + 1) % C, tail := (q.tail + 1) % C } C := hr
  rw [space_avail_of_ring q C hr hh ht] at hs' ⊢
  rw [space_avail_of_ring _ C hr' (Nat.mod_lt _ (by omega)) (Nat.mod_lt _ (by omega))]
  simp only []
  rw [succ_mod_ring _ C hh, succ_mod_ring _ C ht]
  split_ifs at hs' ⊢ <;> omega

/-! ## Device command channel: lemmas -/

theorem dev_cmd_wait_loop_timeout :
    ∀ (n wait : Nat) (idev : ionic_dev),
      (∀ j, j < n → done_bit (idev.dev_done idev.posts (wait + j)) = false) →
      ionic_dev_cmd_wait_loop n wait idev =
        (Ret.neg Errno.ETIMEDOUT,
          { idev with delays := idev.delays + n, done_reads := idev.done_reads + n }) := by
  intro n
  induction n with
  | zero => intro wait idev _; rfl
  | succ n ih =>
    intro wait idev h
    have h0 := h 0 (Nat.succ_pos n)
    rw [Nat.add_zero] at h0
    have h0' : (ionic_dev_cmd_done idev wait).1 = false := h0
    rw [ionic_dev_cmd_wait_loop]
    simp only [h0']
    rw [ih]
    · simp only [ionic_dev_cmd_done, Nat.add_assoc, Nat.add_comm 1 n]
      rfl
    · intro j hj
      have := h (j + 1) (by omega)
      simpa [ionic_dev_cmd_done, Nat.add_assoc, Nat.add_comm 1 j] using this

theorem dev_cmd_wait_loop_done :
    ∀ (d n wait : Nat) (idev : ionic_dev), d < n →
      (∀ j, j < d → done_bit (idev.dev_done idev.posts (wait + j)) = false) →
      done_bit (idev.dev_done idev.posts (wait + d)) = true →
      ionic_dev_cmd_wait_loop n wait idev =
        (Ret.val 0,
          { idev with delays := idev.delays + d, done_reads := idev.done_reads + (d + 1) }) := by
  intro d
  induction d with
  | zero =>
    intro n wait idev hn _ hset
    obtain ⟨m, rfl⟩ : ∃ m, n = m + 1 := ⟨n - 1, by omega⟩
    have h0' : (ionic_dev_cmd_done idev wait).1 = true := hset
    rw [ionic_dev_cmd_wait_loop]
    simp only [h0']
    rfl
  | succ d ih =>
    intro n wait idev hn hclear hset
    obtain ⟨m, rfl⟩ : ∃ m, n = m + 1 := ⟨n - 1, by omega⟩
    have h0 := hclear 0 (Nat.succ_pos d)
    rw [Nat.add_zero] at h0
    have h0' : (ionic_dev_cmd_done idev wait).1 = false := h0
    rw [ionic_dev_cmd_wait_loop]
    simp only [h0']
    rw [ih m (wait + 1) _ (by omega)]
    · simp only [ionic_dev_cmd_done, Nat.add_assoc, Nat.add_comm 1 d, Nat.add_comm 1 (d + 1)]
      rfl
    · intro j hj
      have := hclear (j + 1) (by omega)
      simpa [ionic_dev_cmd_done, Nat.add_assoc, Nat.add_comm 1 j] using this
    · simpa [ionic_dev_cmd_done, Nat.add_assoc, Nat.add_comm 1 d] using hset

theorem dev_cmd_wait_loop_frame :
    ∀ (n wait : Nat) (idev : ionic_dev),
      (ionic_dev_cmd_wait_loop n wait idev).2.posts = idev.posts ∧
      (ionic_dev_cmd_wait_loop n wait idev).2.writes = idev.writes ∧
      (ionic_dev_cmd_wait_loop n wait idev).2.dev_done = idev.dev_done ∧
      (ionic_dev_cmd_wait_loop n wait idev).2.dev_status = idev.dev_status := by
  intro n
  induction n with
  | zero => intro wait idev; exact ⟨rfl, rfl, rfl, rfl⟩
  | succ n ih =>
    intro wait idev
    rw [ionic_dev_cmd_wait_loop]
    cases h : (ionic_dev_cmd_done idev wait).1
    · simp only [h]
      exact ih _ _
    · simp only [h]
      exact ⟨rfl, rfl, rfl, rfl⟩

theorem dev_cmd_wait_check_frame (idev : ionic_dev) (max_seconds : Nat) :
    (ionic_dev_cmd_wait_check idev max_seconds).2.posts = idev.posts ∧
      (ionic_dev_cmd_wait_check idev max_seconds).2.writes = idev.writes ∧
      (ionic_dev_cmd_wait_check idev max_seconds).2.dev_done = idev.dev_done ∧
      (ionic_dev_cmd_wait_check idev max_seconds).2.dev_status = idev.dev_status := by
  unfold ionic_dev_cmd_wait_check ionic_dev_cmd_wait
  have := dev_cmd_wait_loop_frame max_seconds 0 idev
  cases h : (ionic_dev_cmd_wait_loop max_seconds 0 idev).1.isFailure
  · simp only [h]
    exact this
  · simp only [h]
    exact this

theorem dev_cmd_wait_check_timeout (idev : ionic_dev) (max_seconds : Nat)
    (h : ∀ j, j < max_seconds → done_bit (idev.dev_done idev.posts j) = false) :
    ionic_dev_cmd_wait_check idev max_seconds =
      (Ret.neg Errno.ETIMEDOUT,
        { idev with
          delays := idev.delays + max_seconds
          done_reads := idev.done_reads + max_seconds }) := by
  unfold ionic_dev_cmd_wait_check ionic_dev_cmd_wait
  rw [dev_cmd_wait_loop_timeout max_seconds 0 idev (by simpa using h)]
  rfl

theorem dev_cmd_wait_check_done (idev : ionic_dev) (max_seconds : Nat)
    (h : dev_completes idev idev.posts max_seconds) :
    (ionic_dev_cmd_wait_check idev max_seconds).1 =
      Ret.val (idev.dev_status idev.posts % 2 ^ 8) := by
  obtain ⟨d, hd, hclear, hset⟩ := h
  unfold ionic_dev_cmd_wait_check ionic_dev_cmd_wait
  rw [dev_cmd_wait_loop_done d max_seconds 0 idev hd (by simpa using hclear) (by simpa using hset)]
  rfl

theorem dev_cmd_post_fold (f : Nat → dev_cmd_write) :
    ∀ (l : List Nat) (idev : ionic_dev),
      l.foldl (fun (d : ionic_dev) i => { d with writes := d.writes ++ [f i] }) idev =
        { idev with writes := idev.writes ++ l.map f } := by
  intro l
  induction l with
  | nil => intro idev; simp
  | cons x xs ih =>
    intro idev
    rw [List.foldl_cons, ih]
    simp

theorem dev_cmd_post_eq (idev : ionic_dev) (cmd : Nat → Nat) :
    dev_cmd_post idev cmd =
      { idev with
        writes := idev.writes ++ dev_cmd_post_writes cmd
        posts := idev.posts + 1 } := by
  unfold dev_cmd_post dev_cmd_post_writes
  rw [dev_cmd_post_fold]
  simp

theorem ret_val_ne_eagain_of_neg (e : Errno) : Ret.neg e ≠ Ret.val IONIC_RC_EAGAIN :=
  fun h => Ret.noConfusion h

theorem dev_cmd_go_loop_succ (cmd : Nat → Nat) (max_seconds n : Nat) (idev : ionic_dev) :
    ionic_dev_cmd_go_loop cmd max_seconds (n + 1) idev =
      if (ionic_dev_cmd_wait_check (dev_cmd_post idev cmd) max_seconds).1 =
          Ret.val IONIC_RC_EAGAIN then
        ionic_dev_cmd_go_loop cmd max_seconds n
          { (ionic_dev_cmd_wait_check (dev_cmd_post idev cmd) max_seconds).2 with
            delays := (ionic_dev_cmd_wait_check (dev_cmd_post idev cmd) max_seconds).2.delays + 1 }
      else ionic_dev_cmd_wait_check (dev_cmd_post idev cmd) max_seconds := by
  rw [ionic_dev_cmd_go_loop]

theorem dev_cmd_attempt_status (idev : ionic_dev) (cmd : Nat → Nat) (max_seconds : Nat)
    (h : dev_completes idev (idev.posts + 1) max_seconds) :
    (ionic_dev_cmd_wait_check (dev_cmd_post idev cmd) max_seconds).1 =
      Ret.val (idev.dev_status (idev.posts + 1) % 2 ^ 8) := by
  rw [dev_cmd_post_eq]
  exact dev_cmd_wait_check_done _ max_seconds h

theorem dev_cmd_attempt_frame (idev : ionic_dev) (cmd : Nat → Nat) (max_seconds : Nat) :
    (ionic_dev_cmd_wait_check (dev_cmd_post idev cmd) max_seconds).2.posts = idev.posts + 1 ∧
      (ionic_dev_cmd_wait_check (dev_cmd_post idev cmd) max_seconds).2.writes =
        idev.writes ++ dev_cmd_post_writes cmd ∧
      (ionic_dev_cmd_wait_check (dev_cmd_post idev cmd) max_seconds).2.dev_done =
        idev.dev_done ∧
      (ionic_dev_cmd_wait_check (dev_cmd_post idev cmd) max_seconds).2.dev_status =
        idev.dev_status := by
  have := dev_cmd_wait_check_frame (dev_cmd_post idev cmd) max_seconds
  rw [dev_cmd_post_eq] at this ⊢
  exact this

/-! ## Transmit path: lemmas -/

theorem ring_dist_eq_mod (C t j : Nat) (ht : t < C) (hj : j < C) :
    ring_dist C t j = (j + C - t) % C := by
  unfold ring_dist
  rw [mod_ring_lt2 _ C (by omega)]
  by_cases h : t ≤ j
  · rw [if_pos h, if_neg (by omega)]
    omega
  · rw [if_neg h, if_pos (by omega)]

theorem ring_dist_add (C t i : Nat) (ht : t < C) (hi : i < C) :
    ring_dist C t ((t + i) % C) = i := by
  unfold ring_dist
  rw [mod_ring_lt2 _ C (by omega)]
  by_cases h : t + i < C
  · rw [if_pos h, if_pos (by omega)]
    omega
  · rw [if_neg h]
    by_cases h0 : i = 0
    · omega
    · rw [if_neg (by omega)]
      omega

theorem transmit_nospace (F O : Nat) (st : tx_state) (b : io_buffer)
    (h : ionic_q_has_space st.txqcqs.q 1 = false) :
    ionic_transmit F O st b = (Ret.neg Errno.ENOBUFS, st) := by
  simp [ionic_transmit, h]

theorem transmit_space (F O : Nat) (st : tx_state) (b : io_buffer)
    (h : ionic_q_has_space st.txqcqs.q 1 = true) :
    (ionic_transmit F O st b).1 = Ret.val 0 ∧
      (ionic_transmit F O st b).2.tx_iobuf =
        Function.update st.tx_iobuf (st.txqcqs.q.info st.txqcqs.q.head).index (some b) ∧
      (ionic_transmit F O st b).2.txqcqs.q =
        { st.txqcqs.q with head := (st.txqcqs.q.info st.txqcqs.q.head).next } ∧
      (ionic_transmit F O st b).2.txqcqs.cq = st.txqcqs.cq ∧
      (ionic_transmit F O st b).2.db =
        { qid_lo := st.txqcqs.q.hw_index % 2 ^ 8
          qid_hi := (st.txqcqs.q.hw_index >>> 8) % 2 ^ 16
          ring := 0
          p_index := (st.txqcqs.q.info (st.txqcqs.q.info st.txqcqs.q.head).next).index %
            2 ^ 16 } :: st.db ∧
      (ionic_transmit F O st b).2.comp_mem = st.comp_mem ∧
      (ionic_transmit F O st b).2.completed = st.completed ∧
      (ionic_transmit F O st b).2.cancelled = st.cancelled := by
  simp [ionic_transmit, h]

/-- Advancing the head of a ring-shaped queue with free space by one slot takes one slot
of the free space. -/
theorem space_avail_post (q : queue) (C : Nat) (hr : queue_ring q C)
    (hh : q.head < C) (ht : q.tail < C) (hs : ionic_q_has_space q 1 = true) :
    ionic_q_space_avail { q with head := (q.head + 1) % C } = ionic_q_space_avail q - 1 := by
  have h4 := hr.1
  have hs' : 1 ≤ ionic_q_space_avail q := by simpa [ionic_q_has_space] using hs
  have hr' : queue_ring { q with head := (q.head + 1) % C } C := hr
  rw [space_avail_of_ring q C hr hh ht] at hs' ⊢
  rw [space_avail_of_ring _ C hr' (Nat.mod_lt _ (by omega)) ht]
  simp only []
  rw [succ_mod_ring _ C hh]
  split_ifs at hs' ⊢ <;> omega

theorem poll_tx_retire_step (k fuel : Nat) (st : tx_state) :
    ionic_poll_tx_retire k (fuel + 1) st =
      if (st.txqcqs.q.info st.txqcqs.q.tail).index ≠ k then
        ionic_poll_tx_retire k fuel
          { st with
            completed := st.completed ++ [st.tx_iobuf (st.txqcqs.q.info st.txqcqs.q.tail).index]
            tx_iobuf := Function.update st.tx_iobuf
              (st.txqcqs.q.info st.txqcqs.q.tail).index none
            txqcqs.q.tail := (st.txqcqs.q.info st.txqcqs.q.tail).next }
      else
        some
          { st with
            completed := st.completed ++ [st.tx_iobuf (st.txqcqs.q.info st.txqcqs.q.tail).index]
            tx_iobuf := Function.update st.tx_iobuf
              (st.txqcqs.q.info st.txqcqs.q.tail).index none
            txqcqs.q.tail := (st.txqcqs.q.info st.txqcqs.q.tail).next } := by
  rw [ionic_poll_tx_retire]

/-- The retire loop on a ring-shaped queue: with the reported slot `k` at distance `d` from
the tail and more than `d` fuel it retires the `d + 1` slots from the tail to `k`. -/
theorem poll_tx_retire_ring (C k : Nat) (hk : k < C) :
    ∀ (d fuel : Nat) (st : tx_state), queue_ring st.txqcqs.q C → st.txqcqs.q.tail < C →
      ring_dist C st.txqcqs.q.tail k = d → d < fuel →
      ∃ st', ionic_poll_tx_retire k fuel st = some st' ∧
        st'.txqcqs.q.tail = (k + 1) % C ∧
        st'.completed = st.completed ++
          (List.range (d + 1)).map (fun i => st.tx_iobuf ((st.txqcqs.q.tail + i) % C)) ∧
        (∀ j, j < C → st'.tx_iobuf j =
          if ring_dist C st.txqcqs.q.tail j ≤ d then none else st.tx_iobuf j) ∧
        (∀ j, C ≤ j → st'.tx_iobuf j = st.tx_iobuf j) ∧
        st'.txqcqs.cq = st.txqcqs.cq ∧
        st'.txqcqs.q.info = st.txqcqs.q.info ∧
        st'.txqcqs.q.head = st.txqcqs.q.head ∧
        st'.comp_mem = st.comp_mem ∧
        st'.cancelled = st.cancelled ∧
        st'.db = st.db := by
  intro d
  induction d with
  | zero =>
    intro fuel st hr ht hd hf
    obtain ⟨f, rfl⟩ : ∃ f, fuel = f + 1 := ⟨fuel - 1, by omega⟩
    obtain ⟨hi, hn, -⟩ := hr.2.2 st.txqcqs.q.tail ht
    have htk : st.txqcqs.q.tail = k := by
      unfold ring_dist at hd
      split_ifs at hd <;> omega
    rw [poll_tx_retire_step, hi, hn, if_neg (not_not.2 htk)]
    refine ⟨_, rfl, ?_, ?_, ?_, ?_, rfl, rfl, rfl, rfl, rfl, rfl⟩
    · show (st.txqcqs.q.tail + 1) % C = _
      rw [htk]
    · show st.completed ++ [st.tx_iobuf st.txqcqs.q.tail] = _
      rw [show List.range (0 + 1) = [0] from rfl, List.map_cons, List.map_nil, Nat.add_zero,
        Nat.mod_eq_of_lt ht]
    · intro j hj
      show Function.update st.tx_iobuf st.txqcqs.q.tail none j = _
      rw [Function.update_apply]
      unfold ring_dist
      split_ifs <;> first | rfl | omega
    · intro j hj
      show Function.update st.tx_iobuf st.txqcqs.q.tail none j = _
      rw [Function.update_noteq (by omega)]
  | succ d ih =>
    intro fuel st hr ht hd hf
    obtain ⟨f, rfl⟩ : ∃ f, fuel = f + 1 := ⟨fuel - 1, by omega⟩
    obtain ⟨hi, hn, -⟩ := hr.2.2 st.txqcqs.q.tail ht
    have h4 := hr.1
    have htk : st.txqcqs.q.tail ≠ k := by
      intro e
      unfold ring_dist at hd
      rw [e] at hd
      simp at hd
    have hdC : d + 1 < C := by
      unfold ring_dist at hd
      split_ifs at hd <;> omega
    rw [poll_tx_retire_step, hi, hn, if_pos htk]
    have hd' : ring_dist C ((st.txqcqs.q.tail + 1) % C) k = d := by
      rw [succ_mod_ring _ C ht]
      unfold ring_dist at hd ⊢
      split_ifs at hd ⊢ <;> omega
    obtain ⟨st', he, h1, h2, h3, h4', h5, h6, h7, h8, h9, h10⟩ := ih f
      { st with
        completed := st.completed ++ [st.tx_iobuf st.txqcqs.q.tail]
        tx_iobuf := Function.update st.tx_iobuf st.txqcqs.q.tail none
        txqcqs.q.tail := (st.txqcqs.q.tail + 1) % C }
      hr (Nat.mod_lt _ (by omega)) hd' (by omega)
    refine ⟨st', he, h1, ?_, ?_, ?_, h5, h6, h7, h8, h9, h10⟩
    · rw [h2]
      show st.completed ++ [st.tx_iobuf st.txqcqs.q.tail] ++
        (List.range (d + 1)).map (fun i =>
          Function.update st.tx_iobuf st.txqcqs.q.tail none
            (((st.txqcqs.q.tail + 1) % C + i) % C)) = _
      rw [List.range_succ_eq_map (d + 1), List.map_cons, List.map_map, List.append_assoc]
      congr 1
      simp only [Nat.add_zero, Nat.mod_eq_of_lt ht, List.singleton_append, List.cons.injEq,
        true_and]
      apply List.map_congr_left
      intro i hi'
      have hi2 : i < d + 1 := List.mem_range.1 hi'
      have hne : (st.txqcqs.q.tail + (i + 1)) % C ≠ st.txqcqs.q.tail := by
        have := add_mod_ne st.txqcqs.q.tail (i + 1) C (by omega) (by omega)
        rw [Nat.mod_eq_of_lt ht] at this
        exact fun e => this e.symm
      show Function.update st.tx_iobuf st.txqcqs.q.tail none
        (((st.txqcqs.q.tail + 1) % C + i) % C) = st.tx_iobuf ((st.txqcqs.q.tail + (i + 1)) % C)
      rw [Nat.mod_add_mod, show st.txqcqs.q.tail + 1 + i = st.txqcqs.q.tail + (i + 1) by omega,
        Function.update_noteq hne]
    · intro j hj
      rw [h3 j hj]
      show (if ring_dist C ((st.txqcqs.q.tail + 1) % C) j ≤ d then none
        else Function.update st.tx_iobuf st.txqcqs.q.tail none j) = _
      rw [succ_mod_ring _ C ht, Function.update_apply]
      unfold ring_dist
      split_ifs <;> first | rfl | omega
    · intro j hj
      rw [h4' j hj]
      show Function.update st.tx_iobuf st.txqcqs.q.tail none j = _
      rw [Function.update_noteq (by omega)]

theorem poll_tx_loop_step (inner fuel : Nat) (st : tx_state)
    (hm : color_match (st.comp_mem (st.txqcqs.cq.info st.txqcqs.cq.tail).cq_desc).color
      st.txqcqs.cq.done_color = true) :
    ionic_poll_tx_loop inner (fuel + 1) st =
      match ionic_poll_tx_retire
          ((st.comp_mem (st.txqcqs.cq.info st.txqcqs.cq.tail).cq_desc).comp_index % 2 ^ 16)
          inner { st with txqcqs.cq := cq_consume st.txqcqs.cq } with
      | none => none
      | some st => ionic_poll_tx_loop inner fuel st := by
  rw [ionic_poll_tx_loop]
  simp only [hm]
  cases hl : (st.txqcqs.cq.info st.txqcqs.cq.tail).last <;> simp [cq_consume, hl]

theorem poll_tx_loop_stop (inner fuel : Nat) (st : tx_state)
    (hm : color_match (st.comp_mem (st.txqcqs.cq.info st.txqcqs.cq.tail).cq_desc).color
      st.txqcqs.cq.done_color = false) :
    ionic_poll_tx_loop inner (fuel + 1) st = some st := by
  rw [ionic_poll_tx_loop]
  simp [hm]

theorem ring_dist_lt (C t j : Nat) (ht : t < C) (hj : j < C) : ring_dist C t j < C := by
  unfold ring_dist
  split_ifs <;> omega

theorem ring_add_dist (C t j : Nat) (ht : t < C) (hj : j < C) :
    (t + ring_dist C t j) % C = j := by
  unfold ring_dist
  rw [mod_ring_lt2 _ C (by split_ifs <;> omega)]
  split_ifs <;> omega

/-- One more post on a transmit ring with `k` slots in flight. -/
theorem transmit_chain_step (F O C k : Nat) (st : tx_state) (b : io_buffer)
    (hr : queue_ring st.txqcqs.q C) (ht : st.txqcqs.q.tail < C) (hk : k + 1 < C)
    (hhead : st.txqcqs.q.head = (st.txqcqs.q.tail + k) % C) :
    queue_ring (ionic_transmit F O st b).2.txqcqs.q C ∧
      (ionic_transmit F O st b).2.txqcqs.q.tail = st.txqcqs.q.tail ∧
      (ionic_transmit F O st b).2.txqcqs.q.head = (st.txqcqs.q.tail + (k + 1)) % C ∧
      (ionic_transmit F O st b).2.tx_iobuf =
        Function.update st.tx_iobuf ((st.txqcqs.q.tail + k) % C) (some b) ∧
      (ionic_transmit F O st b).2.txqcqs.cq = st.txqcqs.cq ∧
      (ionic_transmit F O st b).2.comp_mem = st.comp_mem ∧
      (ionic_transmit F O st b).2.completed = st.completed := by
  have hs : ionic_q_has_space st.txqcqs.q 1 = true := by
    rw [has_space_of_inflight _ C k hr ht (by omega) hhead]
    exact decide_eq_true hk
  have hh : st.txqcqs.q.head < C := by
    rw [hhead]
    exact Nat.mod_lt _ (by omega)
  obtain ⟨hqi, hqn, -⟩ := hr.2.2 st.txqcqs.q.head hh
  obtain ⟨-, t2, t3, t4, -, t6, t7, -⟩ := transmit_space F O st b hs
  rw [t2, t3, t4, t6, t7, hqi, hqn]
  refine ⟨hr, rfl, ?_, by rw [hhead], rfl, rfl, rfl⟩
  show (st.txqcqs.q.head + 1) % C = _
  rw [hhead, Nat.mod_add_mod, Nat.add_assoc]

/-- One pass of `ionic_poll_tx` over a single pending completion. -/
theorem poll_tx_single (C fuel inner : Nat) (st : tx_state)
    (hr : queue_ring st.txqcqs.q C) (ht : st.txqcqs.q.tail < C)
    (hcr : cq_ring st.txqcqs.cq C) (hct : st.txqcqs.cq.tail < C)
    (hm : color_match (st.comp_mem (st.txqcqs.cq.info st.txqcqs.cq.tail).cq_desc).color
      st.txqcqs.cq.done_color = true)
    (hk : (st.comp_mem (st.txqcqs.cq.info st.txqcqs.cq.tail).cq_desc).comp_index % 2 ^ 16 < C)
    (hone : color_match
      (st.comp_mem ((cq_consume st.txqcqs.cq).info (cq_consume st.txqcqs.cq).tail).cq_desc).color
      (cq_consume st.txqcqs.cq).done_color = false)
    (hfuel : 2 ≤ fuel) (hinner : C ≤ inner) :
    ∃ st', ionic_poll_tx fuel inner st = some st' ∧
      st'.txqcqs.q.tail =
        ((st.comp_mem (st.txqcqs.cq.info st.txqcqs.cq.tail).cq_desc).comp_index % 2 ^ 16 + 1) % C ∧
      st'.completed = st.completed ++
        (List.range
          (((st.comp_mem (st.txqcqs.cq.info st.txqcqs.cq.tail).cq_desc).comp_index % 2 ^ 16 + C -
            st.txqcqs.q.tail) % C + 1)).map
          (fun i => st.tx_iobuf ((st.txqcqs.q.tail + i) % C)) ∧
      (∀ i, i ≤ ((st.comp_mem (st.txqcqs.cq.info st.txqcqs.cq.tail).cq_desc).comp_index % 2 ^ 16 +
          C - st.txqcqs.q.tail) % C →
        st'.tx_iobuf ((st.txqcqs.q.tail + i) % C) = none) ∧
      (∀ j, (∀ i, i ≤ ((st.comp_mem (st.txqcqs.cq.info st.txqcqs.cq.tail).cq_desc).comp_index %
          2 ^ 16 + C - st.txqcqs.q.tail) % C → j ≠ (st.txqcqs.q.tail + i) % C) →
        st'.tx_iobuf j = st.tx_iobuf j) ∧
      st'.txqcqs.cq.tail = (st.txqcqs.cq.tail + 1) % C ∧
      st'.txqcqs.q.head = st.txqcqs.q.head ∧
      st'.txqcqs.q.info = st.txqcqs.q.info := by
  have h4 := hr.1
  obtain ⟨f, rfl⟩ : ∃ f, fuel = f + 2 := ⟨fuel - 2, by omega⟩
  generalize hkd : (st.comp_mem (st.txqcqs.cq.info st.txqcqs.cq.tail).cq_desc).comp_index %
    2 ^ 16 = k at hk ⊢
  have hdl := ring_dist_lt C st.txqcqs.q.tail k ht hk
  obtain ⟨st', he, h1, h2, h3, h4', h5, h6, h7, h8, -, -⟩ :=
    poll_tx_retire_ring C k hk (ring_dist C st.txqcqs.q.tail k) inner
      { st with txqcqs.cq := cq_consume st.txqcqs.cq } hr ht rfl (by omega)
  have hstop : ionic_poll_tx_loop inner (f + 1) st' = some st' := by
    apply poll_tx_loop_stop
    rw [h5, h8]
    exact hone
  refine ⟨st', ?_, h1, ?_, ?_, ?_, ?_, h7, h6⟩
  · unfold ionic_poll_tx
    rw [poll_tx_loop_step inner (f + 1) st hm, hkd, he]
    exact hstop
  · rw [h2, ring_dist_eq_mod C _ k ht hk]
  · intro i hi
    rw [← ring_dist_eq_mod C _ k ht hk] at hi
    rw [h3 _ (Nat.mod_lt _ (by omega)), ring_dist_add C _ i ht (by omega), if_pos hi]
  · intro j hj
    rw [← ring_dist_eq_mod C _ k ht hk] at hj
    by_cases hjC : j < C
    · rw [h3 j hjC]
      by_cases hle : ring_dist C st.txqcqs.q.tail j ≤ ring_dist C st.txqcqs.q.tail k
      · exact absurd (ring_add_dist C _ j ht hjC).symm (hj _ hle)
      · rw [if_neg hle]
    · exact h4' j (by omega)
  · rw [h5]
    exact (cq_consume_ring _ C hcr hct).1


/-- The scenario of four posted packets and one completion for the fourth slot: one pass
of `ionic_poll_tx` retires the four buffers in posting order and empties the ring. -/
theorem tx_scenario_retired :
    ∃ st', ionic_poll_tx 2 16 tx_scenario = some st' ∧
      st'.completed = [some { data := 100, len := 60 }, some { data := 200, len := 61 },
        some { data := 300, len := 62 }, some { data := 400, len := 63 }] ∧
      st'.txqcqs.q.tail = 4 ∧ st'.txqcqs.q.head = 4 ∧
      ionic_q_space_avail st'.txqcqs.q = 15 := by
  have r0 : queue_ring (tx_fixture 16).txqcqs.q 16 := by decide
  have c0 : cq_ring (tx_fixture 16).txqcqs.cq 16 := by decide
  have t0 : (tx_fixture 16).txqcqs.q.tail = 0 := by decide
  have hd0 : (tx_fixture 16).txqcqs.q.head = 0 := by decide
  have ct0 : (tx_fixture 16).txqcqs.cq.tail = 0 := by decide
  have cd0 : (tx_fixture 16).txqcqs.cq.done_color = true := by decide
  have a0 : ((tx_fixture 16).txqcqs.cq.info 0).cq_desc = 8192 := by decide
  have a1 : ((tx_fixture 16).txqcqs.cq.info 1).cq_desc = 8208 := by decide
  obtain ⟨r1, t1, h1, b1, c1, m1, d1⟩ := transmit_chain_step 1 0 16 0 (tx_fixture 16)
    { data := 100, len := 60 } r0 (by rw [t0]; decide) (by decide) (by rw [t0, hd0])
  obtain ⟨r2, t2, h2, b2, c2, m2, d2⟩ := transmit_chain_step 1 0 16 1 _
    { data := 200, len := 61 } r1 (by rw [t1, t0]; decide) (by decide) (by rw [t1, h1])
  obtain ⟨r3, t3, h3, b3, c3, m3, d3⟩ := transmit_chain_step 1 0 16 2 _
    { data := 300, len := 62 } r2 (by rw [t2, t1, t0]; decide) (by decide) (by rw [t2, h2, t1])
  obtain ⟨r4, t4, h4, b4, c4, m4, d4⟩ := transmit_chain_step 1 0 16 3 _
    { data := 400, len := 63 } r3 (by rw [t3, t2, t1, t0]; decide) (by decide)
    (by rw [t3, h3, t2, t1])
  rw [t3, t2, t1, t0] at t4 h4 b4
  rw [t2, t1, t0] at b3
  rw [t1, t0] at b2
  rw [t0] at b1
  rw [c3, c2, c1] at c4
  rw [d3, d2, d1] at d4
  have hq : tx_scenario.txqcqs = (ionic_transmit 1 0 (ionic_transmit 1 0 (ionic_transmit 1 0
      (ionic_transmit 1 0 (tx_fixture 16) { data := 100, len := 60 }).2
      { data := 200, len := 61 }).2 { data := 300, len := 62 }).2
      { data := 400, len := 63 }).2.txqcqs := rfl
  have hb : tx_scenario.tx_iobuf = (ionic_transmit 1 0 (ionic_transmit 1 0 (ionic_transmit 1 0
      (ionic_transmit 1 0 (tx_fixture 16) { data := 100, len := 60 }).2
      { data := 200, len := 61 }).2 { data := 300, len := 62 }).2
      { data := 400, len := 63 }).2.tx_iobuf := rfl
  have hc : tx_scenario.completed = (ionic_transmit 1 0 (ionic_transmit 1 0 (ionic_transmit 1 0
      (ionic_transmit 1 0 (tx_fixture 16) { data := 100, len := 60 }).2
      { data := 200, len := 61 }).2 { data := 300, len := 62 }).2
      { data := 400, len := 63 }).2.completed := rfl
  have hmem : ∀ a, tx_scenario.comp_mem a =
      Function.update (ionic_transmit 1 0 (ionic_transmit 1 0 (ionic_transmit 1 0
      (ionic_transmit 1 0 (tx_fixture 16) { data := 100, len := 60 }).2
      { data := 200, len := 61 }).2 { data := 300, len := 62 }).2
      { data := 400, len := 63 }).2.comp_mem 8192 { comp_index := 3, color := 128 } a :=
    fun _ => rfl
  rw [m4, m3, m2, m1] at hmem
  have hcq : tx_scenario.txqcqs.cq = (tx_fixture 16).txqcqs.cq := by rw [hq, c4]
  have hcc : cq_consume tx_scenario.txqcqs.cq = cq_consume (tx_fixture 16).txqcqs.cq := by
    rw [hcq]
  have hct1 : (cq_consume (tx_fixture 16).txqcqs.cq).tail = 1 := by
    rw [(cq_consume_ring _ 16 c0 (by rw [ct0]; decide)).1, ct0]
  have hcd1 : (cq_consume (tx_fixture 16).txqcqs.cq).done_color = true := by
    rw [(cq_consume_ring _ 16 c0 (by rw [ct0]; decide)).2.1, ct0, cd0]
    rfl
  have hci1 : (cq_consume (tx_fixture 16).txqcqs.cq).info = (tx_fixture 16).txqcqs.cq.info :=
    (cq_consume_ring _ 16 c0 (by rw [ct0]; decide)).2.2
  have hm0 : tx_scenario.comp_mem
      (tx_scenario.txqcqs.cq.info tx_scenario.txqcqs.cq.tail).cq_desc =
      { comp_index := 3, color := 128 } := by
    rw [hcq, ct0, a0, hmem]
    exact Function.update_same _ _ _
  obtain ⟨st', he, e1, e2, -, -, -, e6, e7⟩ := poll_tx_single 16 2 16 tx_scenario
    (by rw [hq]; exact r4) (by rw [hq, t4]; decide) (by rw [hcq]; exact c0)
    (by rw [hcq, ct0]; decide)
    (by rw [hm0, hcq, cd0]; decide)
    (by rw [hm0]; decide)
    (by
      rw [hcc, hci1, hct1, hcd1, a1, hmem, Function.update_noteq (by decide)]
      show color_match ((tx_fixture 16).comp_mem 8208).color true = false
      decide)
    (by decide) (by decide)
  rw [hm0] at e1 e2
  rw [hq, t4, hb, hc, d4] at e2
  rw [hq, h4] at e6
  refine ⟨st', he, ?_, e1, e6, ?_⟩
  · rw [e2, b4, b3, b2, b1]
    decide
  · have hr' : queue_ring st'.txqcqs.q 16 := by
      unfold queue_ring
      rw [e7, hq]
      exact r4
    rw [space_of_inflight st'.txqcqs.q 16 0 hr' (by rw [e1]; decide) (by decide)
      (by rw [e1, e6]; decide)]

/-! ## Receive path: lemmas -/

theorem space_avail_le (q : queue) (C : Nat) (hr : queue_ring q C)
    (hh : q.head < C) (ht : q.tail < C) : ionic_q_space_avail q ≤ C - 1 := by
  rw [space_avail_of_ring q C hr hh ht]
  split_ifs <;> omega

theorem rx_fill_loop_succ (O L i : Nat) (st : rx_state) (b : io_buffer)
    (ha : st.alloc st.allocs L = some b) :
    ionic_rx_fill_loop O L (i + 1) st =
      ionic_rx_fill_loop O L i
        { st with
          allocs := st.allocs + 1
          desc_mem := Function.update st.desc_mem (st.rxqcqs.q.info st.rxqcqs.q.head).desc
            { st.desc_mem (st.rxqcqs.q.info st.rxqcqs.q.head).desc with
              addr := b.data, len := L, opcode := O }
          rx_iobuf := Function.update st.rx_iobuf
            (st.rxqcqs.q.info st.rxqcqs.q.head).index (some b)
          rxqcqs.q.head := (st.rxqcqs.q.info st.rxqcqs.q.head).next
          db := doorbell_of st.rxqcqs.q
            ((st.rxqcqs.q.info (st.rxqcqs.q.info st.rxqcqs.q.head).next).index % 2 ^ 16) ::
            st.db } := by
  rw [ionic_rx_fill_loop]
  simp only [ha]
  rfl

/-- The fill loop on a ring-shaped queue with at least `n` free slots and `n` successful
allocations. -/
theorem rx_fill_loop_ring (O L C : Nat) :
    ∀ (n : Nat) (st : rx_state), queue_ring st.rxqcqs.q C →
      st.rxqcqs.q.head < C → st.rxqcqs.q.tail < C →
      n ≤ ionic_q_space_avail st.rxqcqs.q →
      (∀ i, i < n → ∃ b, st.alloc (st.allocs + i) L = some b) →
      (ionic_rx_fill_loop O L n st).rxqcqs.q.info = st.rxqcqs.q.info ∧
      (ionic_rx_fill_loop O L n st).rxqcqs.q.tail = st.rxqcqs.q.tail ∧
      (ionic_rx_fill_loop O L n st).rxqcqs.q.head = (st.rxqcqs.q.head + n) % C ∧
      (∀ i, i < n → (ionic_rx_fill_loop O L n st).rx_iobuf ((st.rxqcqs.q.head + i) % C) =
        st.alloc (st.allocs + i) L) ∧
      (∀ j, (∀ i, i < n → j ≠ (st.rxqcqs.q.head + i) % C) →
        (ionic_rx_fill_loop O L n st).rx_iobuf j = st.rx_iobuf j) ∧
      (ionic_rx_fill_loop O L n st).db =
        (List.range n).reverse.map
          (fun i => doorbell_of st.rxqcqs.q ((st.rxqcqs.q.head + i + 1) % C)) ++ st.db ∧
      ionic_q_space_avail (ionic_rx_fill_loop O L n st).rxqcqs.q =
        ionic_q_space_avail st.rxqcqs.q - n ∧
      (ionic_rx_fill_loop O L n st).rxqcqs.cq = st.rxqcqs.cq ∧
      (ionic_rx_fill_loop O L n st).allocs = st.allocs + n := by
  intro n
  induction n with
  | zero =>
    intro st hr hh ht _ _
    refine ⟨rfl, rfl, ?_, ?_, ?_, ?_, rfl, rfl, rfl⟩
    · rw [Nat.add_zero, Nat.mod_eq_of_lt hh]
      rfl
    · intro i hi
      omega
    · intro j _
      rfl
    · simp [ionic_rx_fill_loop]
  | succ n ih =>
    intro st hr hh ht hn ha
    have h4 := hr.1
    have h64 := hr.2.1
    have hle := space_avail_le st.rxqcqs.q C hr hh ht
    obtain ⟨b, hb⟩ := ha 0 (Nat.succ_pos n)
    rw [Nat.add_zero] at hb
    obtain ⟨hqi, hqn, -⟩ := hr.2.2 st.rxqcqs.q.head hh
    have hlt : (st.rxqcqs.q.head + 1) % C < C := Nat.mod_lt _ (by omega)
    obtain ⟨hni, -, -⟩ := hr.2.2 ((st.rxqcqs.q.head + 1) % C) hlt
    have hs : ionic_q_has_space st.rxqcqs.q 1 = true := by
      unfold ionic_q_has_space
      exact decide_eq_true (by omega)
    have hsp := space_avail_post st.rxqcqs.q C hr hh ht hs
    rw [rx_fill_loop_succ O L n st b hb, hqi, hqn, hni,
      Nat.mod_eq_of_lt (show (st.rxqcqs.q.head + 1) % C < 2 ^ 16 by omega)]
    obtain ⟨i1, i2, i3, i4, i5, i6, i7, i8, i9⟩ := ih
      { st with
        allocs := st.allocs + 1
        desc_mem := Function.update st.desc_mem (st.rxqcqs.q.info st.rxqcqs.q.head).desc
          { st.desc_mem (st.rxqcqs.q.info st.rxqcqs.q.head).desc with
            addr := b.data, len := L, opcode := O }
        rx_iobuf := Function.update st.rx_iobuf st.rxqcqs.q.head (some b)
        rxqcqs.q.head := (st.rxqcqs.q.head + 1) % C
        db := doorbell_of st.rxqcqs.q ((st.rxqcqs.q.head + 1) % C) :: st.db }
      hr hlt ht
      (by
        show n ≤ ionic_q_space_avail { st.rxqcqs.q with head := (st.rxqcqs.q.head + 1) % C }
        rw [hsp]
        omega)
      (by
        intro i hi
        show ∃ b, st.alloc (st.allocs + 1 + i) L = some b
        rw [show st.allocs + 1 + i = st.allocs + (i + 1) by omega]
        exact ha (i + 1) (by omega))
    have hne : ∀ i, i < n → st.rxqcqs.q.head ≠ ((st.rxqcqs.q.head + 1) % C + i) % C := by
      intro i hi
      have := add_mod_ne st.rxqcqs.q.head (1 + i) C (by omega) (by omega)
      rw [Nat.mod_eq_of_lt hh, ← Nat.add_assoc] at this
      rw [Nat.mod_add_mod]
      exact this
    refine ⟨i1, i2, ?_, ?_, ?_, ?_, ?_, i8, ?_⟩
    · rw [i3]
      show ((st.rxqcqs.q.head + 1) % C + n) % C = _
      rw [Nat.mod_add_mod, Nat.add_assoc, Nat.add_comm 1 n]
    · intro i hi
      rcases Nat.eq_zero_or_pos i with h0 | hpos
      · subst h0
        simp only [Nat.add_zero]
        rw [Nat.mod_eq_of_lt hh, i5 _ hne, hb]
        exact Function.update_same _ _ _
      · obtain ⟨i', rfl⟩ : ∃ i', i = i' + 1 := ⟨i - 1, by omega⟩
        have := i4 i' (by omega)
        rw [show st.allocs + (i' + 1) = st.allocs + 1 + i' by omega,
          show (st.rxqcqs.q.head + (i' + 1)) % C = ((st.rxqcqs.q.head + 1) % C + i') % C by
            rw [Nat.mod_add_mod, Nat.add_assoc, Nat.add_comm 1 i']]
        exact this
    · intro j hj
      rw [i5 j (by
        intro i hi
        have := hj (i + 1) (by omega)
        rw [show (st.rxqcqs.q.head + (i + 1)) % C = ((st.rxqcqs.q.head + 1) % C + i) % C by
          rw [Nat.mod_add_mod, Nat.add_assoc, Nat.add_comm 1 i]] at this
        exact this)]
      have h0 := hj 0 (Nat.succ_pos n)
      rw [Nat.add_zero, Nat.mod_eq_of_lt hh] at h0
      exact Function.update_noteq h0 _ _
    · rw [i6]
      show (List.range n).reverse.map
          (fun i => doorbell_of st.rxqcqs.q (((st.rxqcqs.q.head + 1) % C + i + 1) % C)) ++
          (doorbell_of st.rxqcqs.q ((st.rxqcqs.q.head + 1) % C) :: st.db) = _
      rw [List.range_succ_eq_map, List.reverse_cons, List.map_append, List.append_assoc,
        ← List.map_reverse, List.map_map]
      congr 1
      · apply List.map_congr_left
        intro i _
        show doorbell_of st.rxqcqs.q (((st.rxqcqs.q.head + 1) % C + i + 1) % C) =
          doorbell_of st.rxqcqs.q ((st.rxqcqs.q.head + (i + 1) + 1) % C)
        rw [Nat.add_assoc ((st.rxqcqs.q.head + 1) % C), Nat.mod_add_mod,
          show st.rxqcqs.q.head + 1 + (i + 1) = st.rxqcqs.q.head + (i + 1) + 1 by omega]
    · rw [i7]
      show ionic_q_space_avail { st.rxqcqs.q with head := (st.rxqcqs.q.head + 1) % C } - n = _
      rw [hsp]
      omega
    · rw [i9]
      show st.allocs + 1 + n = _
      omega

/-! ## Flush: lemmas -/

theorem tx_flush_step (fuel : Nat) (st : tx_state)
    (hne : (st.txqcqs.q.info st.txqcqs.q.tail).index ≠
      (st.txqcqs.q.info st.txqcqs.q.head).index) :
    ionic_tx_flush_loop (fuel + 1) st =
      ionic_tx_flush_loop fuel
        { st with
          cancelled := st.cancelled ++
            (st.tx_iobuf (st.txqcqs.q.info st.txqcqs.q.tail).index).toList
          tx_iobuf := Function.update st.tx_iobuf
            (st.txqcqs.q.info st.txqcqs.q.tail).index none
          txqcqs.q.tail := (st.txqcqs.q.info st.txqcqs.q.tail).next
          txqcqs.cq := cq_consume st.txqcqs.cq } := by
  rw [ionic_tx_flush_loop]
  simp only [hne, ne_eq, not_false_eq_true, if_true]
  congr 1
  cases hb : st.tx_iobuf (st.txqcqs.q.info st.txqcqs.q.tail).index with
  | none =>
    have hu : Function.update st.tx_iobuf (st.txqcqs.q.info st.txqcqs.q.tail).index none =
        st.tx_iobuf := by
      rw [← hb]
      exact Function.update_eq_self _ _
    cases hl : (st.txqcqs.cq.info st.txqcqs.cq.tail).last <;>
      simp [cq_consume, hl, hu]
  | some b =>
    cases hl : (st.txqcqs.cq.info st.txqcqs.cq.tail).last <;>
      simp [cq_consume, hl]

theorem tx_flush_stop (fuel : Nat) (st : tx_state)
    (he : (st.txqcqs.q.info st.txqcqs.q.tail).index =
      (st.txqcqs.q.info st.txqcqs.q.head).index) :
    ionic_tx_flush_loop (fuel + 1) st = some st := by
  rw [ionic_tx_flush_loop]
  simp [he]

/-- The flush loop on a ring-shaped transmit queue with `d` slots in flight. -/
theorem tx_flush_ring (C : Nat) :
    ∀ (d fuel : Nat) (st : tx_state), queue_ring st.txqcqs.q C →
      st.txqcqs.q.tail < C → st.txqcqs.q.head < C →
      ring_dist C st.txqcqs.q.tail st.txqcqs.q.head = d →
      (fuel ≤ d → ionic_tx_flush_loop fuel st = none) ∧
      (d < fuel → ∃ st', ionic_tx_flush_loop fuel st = some st' ∧
        st'.txqcqs.q.tail = st.txqcqs.q.head ∧
        st'.txqcqs.q.head = st.txqcqs.q.head ∧
        st'.txqcqs.q.info = st.txqcqs.q.info ∧
        st'.cancelled = st.cancelled ++
          (List.range d).filterMap (fun i => st.tx_iobuf ((st.txqcqs.q.tail + i) % C)) ∧
        (∀ j, j < C → st'.tx_iobuf j =
          if ring_dist C st.txqcqs.q.tail j < d then none else st.tx_iobuf j) ∧
        (∀ j, C ≤ j → st'.tx_iobuf j = st.tx_iobuf j) ∧
        st'.txqcqs.cq = cq_consume^[d] st.txqcqs.cq) := by
  intro d
  induction d with
  | zero =>
    intro fuel st hr ht hh hd
    obtain ⟨hi, -, -⟩ := hr.2.2 st.txqcqs.q.tail ht
    obtain ⟨hi2, -, -⟩ := hr.2.2 st.txqcqs.q.head hh
    have hth : st.txqcqs.q.tail = st.txqcqs.q.head := by
      unfold ring_dist at hd
      split_ifs at hd <;> omega
    constructor
    · intro hf
      have : fuel = 0 := by omega
      subst this
      rfl
    · intro hf
      obtain ⟨f, rfl⟩ : ∃ f, fuel = f + 1 := ⟨fuel - 1, by omega⟩
      rw [tx_flush_stop f st (by rw [hi, hi2]; exact hth)]
      refine ⟨st, rfl, hth, rfl, rfl, by simp, ?_, fun _ _ => rfl, rfl⟩
      intro j _
      rw [if_neg (by omega)]
  | succ d ih =>
    intro fuel st hr ht hh hd
    have h4 := hr.1
    obtain ⟨hi, hn, -⟩ := hr.2.2 st.txqcqs.q.tail ht
    obtain ⟨hi2, -, -⟩ := hr.2.2 st.txqcqs.q.head hh
    have hth : st.txqcqs.q.tail ≠ st.txqcqs.q.head := by
      intro e
      unfold ring_dist at hd
      rw [e] at hd
      simp at hd
    have hdC : d + 1 < C := by
      unfold ring_dist at hd
      split_ifs at hd <;> omega
    have hd' : ring_dist C ((st.txqcqs.q.tail + 1) % C) st.txqcqs.q.head = d := by
      rw [succ_mod_ring _ C ht]
      unfold ring_dist at hd ⊢
      split_ifs at hd ⊢ <;> omega
    have hstep := fun f => tx_flush_step f st (by rw [hi, hi2]; exact hth)
    have ihf := fun f => ih f
      { st with
        cancelled := st.cancelled ++ (st.tx_iobuf st.txqcqs.q.tail).toList
        tx_iobuf := Function.update st.tx_iobuf st.txqcqs.q.tail none
        txqcqs.q.tail := (st.txqcqs.q.tail + 1) % C
        txqcqs.cq := cq_consume st.txqcqs.cq }
      hr (Nat.mod_lt _ (by omega)) hh hd'
    constructor
    · intro hf
      rcases Nat.eq_zero_or_pos fuel with h0 | hpos
      · subst h0
        rfl
      · obtain ⟨f, rfl⟩ : ∃ f, fuel = f + 1 := ⟨fuel - 1, by omega⟩
        rw [hstep f, hi, hn]
        exact (ihf f).1 (by omega)
    · intro hf
      obtain ⟨f, rfl⟩ : ∃ f, fuel = f + 1 := ⟨fuel - 1, by omega⟩
      rw [hstep f, hi, hn]
      obtain ⟨st', he, e1, e2, e3, e4, e5, e6, e7⟩ := (ihf f).2 (by omega)
      refine ⟨st', he, e1, e2, e3, ?_, ?_, ?_, ?_⟩
      · rw [e4]
        show st.cancelled ++ (st.tx_iobuf st.txqcqs.q.tail).toList ++
          (List.range d).filterMap (fun i =>
            Function.update st.tx_iobuf st.txqcqs.q.tail none
              (((st.txqcqs.q.tail + 1) % C + i) % C)) = _
        have hmap : (List.range d).filterMap (fun i =>
              Function.update st.tx_iobuf st.txqcqs.q.tail none
                (((st.txqcqs.q.tail + 1) % C + i) % C)) =
            (List.range d).filterMap
              ((fun i => st.tx_iobuf ((st.txqcqs.q.tail + i) % C)) ∘ Nat.succ) := by
          apply List.filterMap_congr
          intro i hi'
          have hi2' : i < d := List.mem_range.1 hi'
          have hne : (st.txqcqs.q.tail + (i + 1)) % C ≠ st.txqcqs.q.tail := by
            have := add_mod_ne st.txqcqs.q.tail (i + 1) C (by omega) (by omega)
            rw [Nat.mod_eq_of_lt ht] at this
            exact fun e => this e.symm
          show Function.update st.tx_iobuf st.txqcqs.q.tail none
            (((st.txqcqs.q.tail + 1) % C + i) % C) =
            st.tx_iobuf ((st.txqcqs.q.tail + (i + 1)) % C)
          rw [Nat.mod_add_mod,
            show st.txqcqs.q.tail + 1 + i = st.txqcqs.q.tail + (i + 1) by omega,
            Function.update_noteq hne]
        rw [hmap, List.range_succ_eq_map, List.filterMap_cons, List.filterMap_map,
          List.append_assoc]
        simp only [Nat.add_zero, Nat.mod_eq_of_lt ht]
        cases hb : st.tx_iobuf st.txqcqs.q.tail <;> simp
      · intro j hj
        rw [e5 j hj]
        show (if ring_dist C ((st.txqcqs.q.tail + 1) % C) j < d then none
          else Function.update st.tx_iobuf st.txqcqs.q.tail none j) = _
        rw [succ_mod_ring _ C ht, Function.update_apply]
        unfold ring_dist
        split_ifs <;> first | rfl | omega
      · intro j hj
        rw [e6 j hj]
        show Function.update st.tx_iobuf st.txqcqs.q.tail none j = _
        rw [Function.update_noteq (by omega)]
      · rw [e7]
        show cq_consume^[d] (cq_consume st.txqcqs.cq) = _
        rw [← Function.iterate_succ_apply]

theorem rx_flush_free_fold (st : rx_state) :
    ∀ N, ((List.range N).foldl ionic_rx_flush_free st).rxqcqs = st.rxqcqs ∧
      ∀ j, ((List.range N).foldl ionic_rx_flush_free st).rx_iobuf j =
        if j < N then none else st.rx_iobuf j := by
  intro N
  induction N with
  | zero => exact ⟨rfl, fun j => by simp⟩
  | succ N ih =>
    rw [List.range_succ, List.foldl_append, List.foldl_cons, List.foldl_nil]
    obtain ⟨i1, i2⟩ := ih
    have hq : ∀ r : rx_state, (ionic_rx_flush_free r N).rxqcqs = r.rxqcqs := by
      intro r
      unfold ionic_rx_flush_free
      cases r.rx_iobuf N <;> rfl
    have hb : ∀ r : rx_state, (ionic_rx_flush_free r N).rx_iobuf =
        Function.update r.rx_iobuf N none := by
      intro r
      unfold ionic_rx_flush_free
      cases r.rx_iobuf N <;> rfl
    refine ⟨by rw [hq, i1], ?_⟩
    intro j
    rw [hb, Function.update_apply, i2 j]
    split_ifs <;> first | rfl | omega

theorem rx_flush_step (fuel : Nat) (st : rx_state)
    (hne : (st.rxqcqs.q.info st.rxqcqs.q.tail).index ≠
      (st.rxqcqs.q.info st.rxqcqs.q.head).index) :
    ionic_rx_flush_loop (fuel + 1) st =
      ionic_rx_flush_loop fuel
        { st with
          rxqcqs.q.tail := (st.rxqcqs.q.info st.rxqcqs.q.tail).next
          rxqcqs.cq := cq_consume st.rxqcqs.cq } := by
  rw [ionic_rx_flush_loop]
  simp only [hne, ne_eq, not_false_eq_true, if_true]
  congr 1
  cases hl : (st.rxqcqs.cq.info st.rxqcqs.cq.tail).last <;> simp [cq_consume, hl]

theorem rx_flush_stop (fuel : Nat) (st : rx_state)
    (he : (st.rxqcqs.q.info st.rxqcqs.q.tail).index =
      (st.rxqcqs.q.info st.rxqcqs.q.head).index) :
    ionic_rx_flush_loop (fuel + 1) st = some st := by
  rw [ionic_rx_flush_loop]
  simp [he]

/-- The second loop of `ionic_rx_flush` on a ring-shaped queue with `d` slots in flight. -/
theorem rx_flush_ring (C : Nat) :
    ∀ (d fuel : Nat) (st : rx_state), queue_ring st.rxqcqs.q C →
      st.rxqcqs.q.tail < C → st.rxqcqs.q.head < C →
      ring_dist C st.rxqcqs.q.tail st.rxqcqs.q.head = d →
      (fuel ≤ d → ionic_rx_flush_loop fuel st = none) ∧
      (d < fuel → ∃ st', ionic_rx_flush_loop fuel st = some st' ∧
        st'.rxqcqs.q.tail = st.rxqcqs.q.head ∧
        st'.rxqcqs.q.head = st.rxqcqs.q.head ∧
        st'.rxqcqs.q.info = st.rxqcqs.q.info ∧
        st'.rx_iobuf = st.rx_iobuf ∧
        st'.rxqcqs.cq = cq_consume^[d] st.rxqcqs.cq) := by
  intro d
  induction d with
  | zero =>
    intro fuel st hr ht hh hd
    obtain ⟨hi, -, -⟩ := hr.2.2 st.rxqcqs.q.tail ht
    obtain ⟨hi2, -, -⟩ := hr.2.2 st.rxqcqs.q.head hh
    have hth : st.rxqcqs.q.tail = st.rxqcqs.q.head := by
      unfold ring_dist at hd
      split_ifs at hd <;> omega
    constructor
    · intro hf
      have : fuel = 0 := by omega
      subst this
      rfl
    · intro hf
      obtain ⟨f, rfl⟩ : ∃ f, fuel = f + 1 := ⟨fuel - 1, by omega⟩
      rw [rx_flush_stop f st (by rw [hi, hi2]; exact hth)]
      exact ⟨st, rfl, hth, rfl, rfl, rfl, rfl⟩
  | succ d ih =>
    intro fuel st hr ht hh hd
    have h4 := hr.1
    obtain ⟨hi, hn, -⟩ := hr.2.2 st.rxqcqs.q.tail ht
    obtain ⟨hi2, -, -⟩ := hr.2.2 st.rxqcqs.q.head hh
    have hth : st.rxqcqs.q.tail ≠ st.rxqcqs.q.head := by
      intro e
      unfold ring_dist at hd
      rw [e] at hd
      simp at hd
    have hd' : ring_dist C ((st.rxqcqs.q.tail + 1) % C) st.rxqcqs.q.head = d := by
      rw [succ_mod_ring _ C ht]
      unfold ring_dist at hd ⊢
      split_ifs at hd ⊢ <;> omega
    have hstep := fun f => rx_flush_step f st (by rw [hi, hi2]; exact hth)
    have ihf := fun f => ih f
      { st with
        rxqcqs.q.tail := (st.rxqcqs.q.tail + 1) % C
        rxqcqs.cq := cq_consume st.rxqcqs.cq }
      hr (Nat.mod_lt _ (by omega)) hh hd'
    constructor
    · intro hf
      rcases Nat.eq_zero_or_pos fuel with h0 | hpos
      · subst h0
        rfl
      · obtain ⟨f, rfl⟩ : ∃ f, fuel = f + 1 := ⟨fuel - 1, by omega⟩
        rw [hstep f, hn]
        exact (ihf f).1 (by omega)
    · intro hf
      obtain ⟨f, rfl⟩ : ∃ f, fuel = f + 1 := ⟨fuel - 1, by omega⟩
      rw [hstep f, hn]
      obtain ⟨st', he, e1, e2, e3, e4, e5⟩ := (ihf f).2 (by omega)
      refine ⟨st', he, e1, e2, e3, e4, ?_⟩
      rw [e5]
      show cq_consume^[d] (cq_consume st.rxqcqs.cq) = _
      rw [← Function.iterate_succ_apply]

theorem poll_rx_body_eq (F : rx_csum_flags) (comp : Nat) (st : rx_state) :
    ionic_poll_rx_body F comp st =
      { st with
        rxqcqs.cq := cq_consume st.rxqcqs.cq
        rxqcqs.q.tail := (st.rxqcqs.q.info st.rxqcqs.q.tail).next
        rx_iobuf := Function.update st.rx_iobuf
          (st.rxqcqs.q.info st.rxqcqs.q.tail).index none
        events := st.events ++
          [if rx_comp_bad F (st.comp_mem comp) then
            rx_event.rx_err (iob_put (st.rx_iobuf (st.rxqcqs.q.info st.rxqcqs.q.tail).index)
              (st.desc_mem (st.rxqcqs.q.info st.rxqcqs.q.tail).desc).len)
          else
            rx_event.rx (iob_put (st.rx_iobuf (st.rxqcqs.q.info st.rxqcqs.q.tail).index)
              (st.comp_mem comp).len)] } := by
  unfold ionic_poll_rx_body
  cases hl : (st.rxqcqs.cq.info st.rxqcqs.cq.tail).last <;>
    cases hb : rx_comp_bad F (st.comp_mem comp) <;>
    simp [cq_consume, hl, hb]

/-! ## Sequences of posts and consumes: lemmas -/

theorem q_step_inv (C : Nat) (s : q_trace) (op : q_op) (h : q_trace_inv C s) :
    q_trace_inv C (q_step s op) := by
  obtain ⟨hr, ht, hh, hp⟩ := h
  have h4 := hr.1
  have hdl := ring_dist_lt C _ _ ht hh
  have hsp := has_space_of_inflight s.q C (ring_dist C s.q.tail s.q.head) hr ht hdl
    (ring_add_dist C _ _ ht hh).symm
  obtain ⟨hhi, hhn, -⟩ := hr.2.2 s.q.head hh
  obtain ⟨hti, htn, -⟩ := hr.2.2 s.q.tail ht
  cases op with
  | post =>
    unfold q_step
    simp only []
    by_cases hs : ionic_q_has_space s.q 1 = true
    · rw [if_pos hs]
      rw [hs] at hsp
      have hd1 : ring_dist C s.q.tail s.q.head + 1 < C := of_decide_eq_true hsp.symm
      have hd' : ring_dist C s.q.tail ((s.q.head + 1) % C) =
          ring_dist C s.q.tail s.q.head + 1 := by
        rw [succ_mod_ring _ C hh]
        unfold ring_dist at hd1 ⊢
        split_ifs at hd1 ⊢ <;> omega
      refine ⟨hr, ht, ?_, ?_⟩
      · show (s.q.info s.q.head).next < C
        rw [hhn]
        exact Nat.mod_lt _ (by omega)
      · show s.posted ++ [(s.q.info s.q.head).index] =
          s.consumed ++ (List.range (ring_dist C s.q.tail (s.q.info s.q.head).next)).map
            (fun i => (s.q.tail + i) % C)
        rw [hhn, hhi, hd', List.range_succ, List.map_append, ← List.append_assoc, ← hp,
          List.map_cons, List.map_nil, ring_add_dist C _ _ ht hh]
    · rw [if_neg hs]
      exact ⟨hr, ht, hh, hp⟩
  | consume =>
    unfold q_step
    simp only []
    by_cases hne : (s.q.info s.q.tail).index ≠ (s.q.info s.q.head).index
    · rw [if_pos hne]
      rw [hti, hhi] at hne
      obtain ⟨d, hd⟩ : ∃ d, ring_dist C s.q.tail s.q.head = d + 1 := by
        refine ⟨ring_dist C s.q.tail s.q.head - 1, ?_⟩
        unfold ring_dist
        split_ifs <;> omega
      have hd' : ring_dist C ((s.q.tail + 1) % C) s.q.head = d := by
        rw [succ_mod_ring _ C ht]
        unfold ring_dist at hd ⊢
        split_ifs at hd ⊢ <;> omega
      refine ⟨hr, ?_, hh, ?_⟩
      · show (s.q.info s.q.tail).next < C
        rw [htn]
        exact Nat.mod_lt _ (by omega)
      · show s.posted = s.consumed ++ [(s.q.info s.q.tail).index] ++
          (List.range (ring_dist C (s.q.info s.q.tail).next s.q.head)).map
            (fun i => ((s.q.info s.q.tail).next + i) % C)
        rw [hp, hd, htn, hti, hd', List.range_succ_eq_map, List.map_cons, List.map_map,
          List.append_assoc]
        congr 1
        simp only [Nat.add_zero, Nat.mod_eq_of_lt ht, List.singleton_append, List.cons.injEq,
          true_and]
        apply List.map_congr_left
        intro i _
        show (s.q.tail + (i + 1)) % C = ((s.q.tail + 1) % C + i) % C
        rw [Nat.mod_add_mod, Nat.add_assoc, Nat.add_comm 1 i]
    · rw [if_neg hne]
      exact ⟨hr, ht, hh, hp⟩

theorem q_steps_inv (C : Nat) (ops : List q_op) :
    ∀ s, q_trace_inv C s → q_trace_inv C (ops.foldl q_step s) := by
  induction ops with
  | nil => intro s h; exact h
  | cons op ops ih =>
    intro s h
    rw [List.foldl_cons]
    exact ih _ (q_step_inv C s op h)

/-! ## Notify queue: lemmas -/

theorem notifyq_loop_stop (E : notify_env) (process : Bool) (fuel comp : Nat)
    (st : notify_state)
    (h : eid_newer E.EID_BITS (st.comp_mem comp).eid st.last_eid = false) :
    ionic_process_notifyq_loop E process (fuel + 1) comp st = some st := by
  rw [ionic_process_notifyq_loop]
  simp [h]

/-- The state after the bookkeeping of one consumed notify event, before any dispatch. -/
theorem notifyq_loop_step_drain (E : notify_env) (fuel comp : Nat) (st : notify_state)
    (h : eid_newer E.EID_BITS (st.comp_mem comp).eid st.last_eid = true) :
    ionic_process_notifyq_loop E false (fuel + 1) comp st =
      ionic_process_notifyq_loop E false fuel
        ((cq_consume st.notifyqcqs.cq).info (cq_consume st.notifyqcqs.cq).tail).cq_desc
        { st with
          last_eid := (st.comp_mem comp).eid
          consumed := st.consumed ++ [(st.comp_mem comp).eid]
          notifyqcqs.cq := cq_consume st.notifyqcqs.cq } := by
  rw [ionic_process_notifyq_loop]
  simp only [h, if_true]
  cases hl : (st.notifyqcqs.cq.info st.notifyqcqs.cq.tail).last <;> simp [cq_consume, hl]

theorem notifyq_loop_step_process (E : notify_env) (fuel comp : Nat) (st : notify_state)
    (h : eid_newer E.EID_BITS (st.comp_mem comp).eid st.last_eid = true) :
    ionic_process_notifyq_loop E true (fuel + 1) comp st =
      ionic_process_notifyq_loop E true fuel
        ((cq_consume st.notifyqcqs.cq).info (cq_consume st.notifyqcqs.cq).tail).cq_desc
        (notifyq_dispatch E ((st.comp_mem comp).ecode % 2 ^ 16)
          { st with
            last_eid := (st.comp_mem comp).eid
            consumed := st.consumed ++ [(st.comp_mem comp).eid]
            notifyqcqs.cq := cq_consume st.notifyqcqs.cq }) := by
  rw [ionic_process_notifyq_loop]
  simp only [h, if_true]
  cases hl : (st.notifyqcqs.cq.info st.notifyqcqs.cq.tail).last <;> simp [cq_consume, hl]

/-- In drain mode the loop changes only the CQ tail, `done_color`, `last_eid` and the
record of consumed ids. -/
theorem notifyq_drain_frame (E : notify_env) :
    ∀ (fuel comp : Nat) (st st' : notify_state),
      ionic_process_notifyq_loop E false fuel comp st = some st' →
      st'.link_status = st.link_status ∧ st'.qs_running = st.qs_running ∧
        st'.fw_running = st.fw_running ∧ st'.tx = st.tx ∧ st'.rx = st.rx ∧
        st'.calls = st.calls ∧ st'.comp_mem = st.comp_mem ∧
        st'.notifyqcqs.q = st.notifyqcqs.q ∧ st'.notifyqcqs.cq.info = st.notifyqcqs.cq.info := by
  intro fuel
  induction fuel with
  | zero =>
    intro comp st st' h
    exact absurd h (by simp [ionic_process_notifyq_loop])
  | succ fuel ih =>
    intro comp st st' h
    by_cases hn : eid_newer E.EID_BITS (st.comp_mem comp).eid st.last_eid = true
    · rw [notifyq_loop_step_drain E fuel comp st hn] at h
      obtain ⟨h1, h2, h3, h4, h5, h6, h7, h8, h9⟩ := ih _ _ _ h
      refine ⟨h1, h2, h3, h4, h5, h6, h7, h8, ?_⟩
      rw [h9]
      cases hl : (st.notifyqcqs.cq.info st.notifyqcqs.cq.tail).last <;> simp [cq_consume, hl]
    · rw [notifyq_loop_stop E false fuel comp st (by simpa using hn)] at h
      cases h
      exact ⟨rfl, rfl, rfl, rfl, rfl, rfl, rfl, rfl, rfl⟩

/-! ## `fls`: lemmas -/

theorem testBit_top_mask (n s i : Nat) :
    Nat.testBit ((2 ^ s - 1) * 2 ^ n) i = (decide (n ≤ i) && decide (i - n < s)) := by
  rw [Nat.mul_comm, Nat.testBit_mul_pow_two, Nat.testBit_two_pow_sub_one]

/-- The mask test of a narrowing step of `fls`: the top `s` bits of a pattern of `n + s`
bits are all clear exactly when the pattern is below `2 ^ n`. -/
theorem and_top_mask (n s x : Nat) (hx : x < 2 ^ (n + s)) :
    x &&& ((2 ^ s - 1) * 2 ^ n) = 0 ↔ x < 2 ^ n := by
  constructor
  · intro h
    apply Nat.lt_pow_two_of_testBit
    intro i hi
    by_cases his : i < n + s
    · have hb : Nat.testBit (x &&& ((2 ^ s - 1) * 2 ^ n)) i = false := by
        rw [h]
        exact Nat.zero_testBit i
      rw [Nat.testBit_and, testBit_top_mask] at hb
      have h1 : decide (n ≤ i) = true := by simpa using hi
      have h2 : decide (i - n < s) = true := by
        simp only [decide_eq_true_eq]
        omega
      rw [h1, h2] at hb
      simpa using hb
    · apply Nat.testBit_lt_two_pow
      exact lt_of_lt_of_le hx (Nat.pow_le_pow_right (by norm_num) (by omega))
  · intro h
    apply Nat.eq_of_testBit_eq
    intro i
    rw [Nat.testBit_and, testBit_top_mask, Nat.zero_testBit]
    by_cases hi : n ≤ i
    · have hb : Nat.testBit x i = false :=
        Nat.testBit_lt_two_pow (lt_of_lt_of_le h (Nat.pow_le_pow_right (by norm_num) hi))
      rw [hb]
      rfl
    · have h1 : decide (n ≤ i) = false := by simpa using hi
      rw [h1]
      simp

/-- A narrowing step of `fls` on a 32-bit pattern, by comparison instead of by mask. -/
theorem fls_step_eq (n s x r : Nat) (hns : n + s = 32) (hx : x < 2 ^ 32) :
    fls_step ((2 ^ s - 1) * 2 ^ n) s (x, r) =
      if x < 2 ^ n then (x * 2 ^ s, r - s) else (x, r) := by
  have hm := and_top_mask n s x (by rw [hns]; exact hx)
  unfold fls_step
  by_cases h : x < 2 ^ n
  · rw [if_pos (hm.mpr h), if_pos h, Nat.shiftLeft_eq]
    have hlt : x * 2 ^ s < U32 := by
      have : x * 2 ^ s < 2 ^ n * 2 ^ s := Nat.mul_lt_mul_of_pos_right h (Nat.two_pow_pos s)
      rw [← pow_add, hns] at this
      exact this
    rw [Nat.mod_eq_of_lt hlt]
  · rw [if_neg (fun h0 => h (hm.mp h0)), if_neg h]

theorem fls_step_lt (n s mask x r : Nat) (hm : mask = (2 ^ s - 1) * 2 ^ n)
    (hns : n + s = 32) (h : x < 2 ^ n) :
    fls_step mask s (x, r) = (x * 2 ^ s, r - s) := by
  have hx : x < 2 ^ 32 := lt_of_lt_of_le h (Nat.pow_le_pow_right (by norm_num) (by omega))
  rw [hm, fls_step_eq n s x r hns hx, if_pos h]

theorem fls_step_ge (n s mask x r : Nat) (hm : mask = (2 ^ s - 1) * 2 ^ n)
    (hns : n + s = 32) (h : 2 ^ n ≤ x) (hx : x < 2 ^ 32) :
    fls_step mask s (x, r) = (x, r) := by
  rw [hm, fls_step_eq n s x r hns hx, if_neg (by omega)]

/-- The value of `fls` on a pattern with highest set bit `k`. -/
theorem fls_of_bounds (k x : Nat) (hk : k ≤ 31) (h1 : 2 ^ k ≤ x) (h2 : x < 2 ^ (k + 1)) :
    fls x = k + 1 := by
  have h0 : x ≠ 0 := by
    have := Nat.two_pow_pos k
    omega
  unfold fls
  rw [if_neg h0]
  simp only []
  interval_cases k <;> norm_num at h1 h2 ⊢ <;>
    (first
      | rw [fls_step_lt 16 16 _ _ _ (by norm_num) rfl (by omega)]
      | rw [fls_step_ge 16 16 _ _ _ (by norm_num) rfl (by omega) (by omega)]) <;>
    (first
      | rw [fls_step_lt 24 8 _ _ _ (by norm_num) rfl (by omega)]
      | rw [fls_step_ge 24 8 _ _ _ (by norm_num) rfl (by omega) (by omega)]) <;>
    (first
      | rw [fls_step_lt 28 4 _ _ _ (by norm_num) rfl (by omega)]
      | rw [fls_step_ge 28 4 _ _ _ (by norm_num) rfl (by omega) (by omega)]) <;>
    (first
      | rw [fls_step_lt 30 2 _ _ _ (by norm_num) rfl (by omega)]
      | rw [fls_step_ge 30 2 _ _ _ (by norm_num) rfl (by omega) (by omega)]) <;>
    (first
      | rw [fls_step_lt 31 1 _ _ _ (by norm_num) rfl (by omega)]
      | rw [fls_step_ge 31 1 _ _ _ (by norm_num) rfl (by omega) (by omega)])

/-! ## Descriptor ring: claims -/

/-- C1: on a queue of capacity `C` set up by `ionic_q_init`, for every head index `h` and
tail index `t` below `C`, `ionic_q_space_avail` returns `C - ((h - t) mod C) - 1`, in
both branches of its index comparison. -/
theorem ionic_q_space_avail_formula (q0 : queue) (index C desc_size sg_desc_size pid h t : Nat)
    (hok : (ionic_q_init q0 index C desc_size sg_desc_size pid).1 = Ret.val 0)
    (hh : h < C) (ht : t < C) :
    ((ionic_q_space_avail
        { (ionic_q_init q0 index C desc_size sg_desc_size pid).2 with head := h, tail := t } :
        Nat) : Int) = (C : Int) - (((h : Int) - (t : Int)) % (C : Int)) - 1 := by
  obtain ⟨hr, -, -, -⟩ := ionic_q_init_ring q0 index C desc_size sg_desc_size pid hok
  rw [space_avail_of_ring _ C (ring_with_head_tail _ C h t hr) hh ht]
  simp only []
  by_cases hge : h ≥ t
  · rw [if_pos hge]
    have e : ((h : Int) - (t : Int)) % (C : Int) = (h : Int) - (t : Int) :=
      Int.emod_eq_of_lt (by omega) (by omega)
    rw [e]
    omega
  · rw [if_neg hge]
    have e : ((h : Int) - (t : Int)) % (C : Int) = (h : Int) - (t : Int) + (C : Int) := by
      rw [← Int.add_emod_self]
      exact Int.emod_eq_of_lt (by omega) (by omega)
    rw [e]
    omega

theorem ionic_q_space_avail_formula_witness :
    ((ionic_q_space_avail { (ionic_q_init {} 0 16 64 0 0).2 with head := 15, tail := 15 } :
        Nat) : Int) = (16 : Int) - (((15 : Nat) : Int) - ((15 : Nat) : Int)) % (16 : Int) - 1 :=
  ionic_q_space_avail_formula {} 0 16 64 0 0 15 15 (by decide) (by decide) (by decide)

/-- C2: for every capacity `C` that is a power of two with `4 ≤ C ≤ 65536` and a non-zero
descriptor size, `ionic_q_init` returns 0 and `ionic_q_space_avail` on the fresh queue
returns `C - 1`. -/
theorem ionic_q_init_succeeds (q0 : queue) (index C desc_size sg_desc_size pid : Nat)
    (hpow : ∃ k, C = 2 ^ k) (h4 : 4 ≤ C) (h64 : C ≤ 65536) (hd : desc_size ≠ 0) :
    (ionic_q_init q0 index C desc_size sg_desc_size pid).1 = Ret.val 0 ∧
      ionic_q_space_avail (ionic_q_init q0 index C desc_size sg_desc_size pid).2 = C - 1 := by
  obtain ⟨k, rfl⟩ := hpow
  obtain ⟨hk2, hk16⟩ := two_pow_exp_bounds h4 h64
  have hok : (ionic_q_init q0 index (2 ^ k) desc_size sg_desc_size pid).1 = Ret.val 0 :=
    (ionic_q_init_ok_iff _ _ _ _ _ _).2 ⟨hd, k, hk2, hk16, rfl⟩
  refine ⟨hok, ?_⟩
  obtain ⟨hr, hhead, htail, -⟩ := ionic_q_init_ring q0 index (2 ^ k) desc_size sg_desc_size pid hok
  rw [space_avail_of_ring _ (2 ^ k) hr (by omega) (by omega), hhead, htail]
  simp

theorem ionic_q_init_succeeds_witness :
    (ionic_q_init {} 0 16 64 0 0).1 = Ret.val 0 ∧
      ionic_q_space_avail (ionic_q_init {} 0 16 64 0 0).2 = 16 - 1 :=
  ionic_q_init_succeeds {} 0 16 64 0 0 ⟨4, by norm_num⟩ (by decide) (by decide) (by decide)

/-- C3: `ionic_q_init` returns `-EINVAL` for every `num_descs` that is not a power of two
or lies outside `[4, 65536]`, and then leaves the queue as it was. -/
theorem ionic_q_init_rejects (q : queue) (index num_descs desc_size sg_desc_size pid : Nat)
    (hbad : (¬ ∃ k, num_descs = 2 ^ k) ∨ num_descs < 4 ∨ 65536 < num_descs) :
    ionic_q_init q index num_descs desc_size sg_desc_size pid = (Ret.neg Errno.EINVAL, q) := by
  apply ionic_q_init_of_bad
  by_cases hp : is_power_of_2 num_descs = true
  · obtain ⟨k, hk, rfl⟩ := (is_power_of_2_iff _).1 hp
    rw [ilog2_two_pow k hk]
    right; right
    rcases hbad with h | h | h
    · exact absurd ⟨k, rfl⟩ h
    · left
      by_contra hk2
      have : 2 ^ 2 ≤ 2 ^ k := Nat.pow_le_pow_right (by norm_num) (by omega)
      omega
    · right
      by_contra hk16
      have : 2 ^ k ≤ 2 ^ 16 := Nat.pow_le_pow_right (by norm_num) (by omega)
      omega
  · right; left
    simpa using hp

theorem ionic_q_init_rejects_witness :
    ionic_q_init {} 0 0 64 0 0 = (Ret.neg Errno.EINVAL, {}) ∧
      ionic_q_init {} 0 1 64 0 0 = (Ret.neg Errno.EINVAL, {}) ∧
      ionic_q_init {} 0 2 64 0 0 = (Ret.neg Errno.EINVAL, {}) ∧
      ionic_q_init {} 0 131072 64 0 0 = (Ret.neg Errno.EINVAL, {}) ∧
      ionic_q_init {} 0 (2 ^ 31) 64 0 0 = (Ret.neg Errno.EINVAL, {}) ∧
      ionic_q_init {} 0 24 64 0 0 = (Ret.neg Errno.EINVAL, {}) :=
  ⟨ionic_q_init_rejects {} 0 0 64 0 0 (Or.inr (Or.inl (by decide))),
    ionic_q_init_rejects {} 0 1 64 0 0 (Or.inr (Or.inl (by decide))),
    ionic_q_init_rejects {} 0 2 64 0 0 (Or.inr (Or.inl (by decide))),
    ionic_q_init_rejects {} 0 131072 64 0 0 (Or.inr (Or.inr (by decide))),
    ionic_q_init_rejects {} 0 (2 ^ 31) 64 0 0 (Or.inr (Or.inr (by decide))),
    ionic_q_init_rejects {} 0 24 64 0 0 (Or.inl (by
      rintro ⟨k, hk⟩
      have h5 : k < 5 := by
        by_contra h
        have : 2 ^ 5 ≤ 2 ^ k := Nat.pow_le_pow_right (by norm_num) (by omega)
        omega
      interval_cases k <;> omega))⟩

/-! ## Admin queue: claims -/

/-- C4: starting from an empty admin queue of capacity `C` with no completion consumed,
exactly `C - 1` consecutive posts pass the `ionic_q_has_space(q, 1)` check and the `C`-th
is rejected with `-ENOSPC`; once the tail has advanced by one slot the next post passes
the check again. -/
theorem adminq_full_after_capacity_minus_one (T C : Nat) (l : lif) (ctx : ionic_admin_ctx)
    (hr : queue_ring l.adminqcq.q C) (ht : l.adminqcq.q.tail < C)
    (hempty : l.adminqcq.q.head = l.adminqcq.q.tail)
    (hquiet : ∀ t a, color_match (l.comp_mem t a).color l.adminqcq.cq.done_color = false) :
    (∀ k, k < C - 1 →
      ionic_q_has_space (adminq_post_n T ctx k l).adminqcq.q 1 = true ∧
      (ionic_adminq_post_wait T (adminq_post_n T ctx k l) ctx).1 ≠ Ret.neg Errno.ENOSPC) ∧
    (ionic_q_has_space (adminq_post_n T ctx (C - 1) l).adminqcq.q 1 = false ∧
      (ionic_adminq_post_wait T (adminq_post_n T ctx (C - 1) l) ctx).1 =
        Ret.neg Errno.ENOSPC) ∧
    (ionic_q_has_space
        { (adminq_post_n T ctx (C - 1) l).adminqcq.q with
          tail := ((adminq_post_n T ctx (C - 1) l).adminqcq.q.info
            (adminq_post_n T ctx (C - 1) l).adminqcq.q.tail).next } 1 = true ∧
      (ionic_adminq_post_wait T
        { adminq_post_n T ctx (C - 1) l with
          adminqcq.q.tail := ((adminq_post_n T ctx (C - 1) l).adminqcq.q.info
            (adminq_post_n T ctx (C - 1) l).adminqcq.q.tail).next } ctx).1 ≠
        Ret.neg Errno.ENOSPC) := by
  have h4 := hr.1
  have hstate := adminq_post_n_state T C l ctx hr ht hempty hquiet
  have hring : ∀ k, k < C → queue_ring (adminq_post_n T ctx k l).adminqcq.q C := by
    intro k hk
    unfold queue_ring
    rw [(hstate k hk).1]
    exact hr
  have hsp : ∀ k, k < C →
      ionic_q_has_space (adminq_post_n T ctx k l).adminqcq.q 1 = decide (k + 1 < C) := by
    intro k hk
    obtain ⟨-, htl, hhd, -, -⟩ := hstate k hk
    exact has_space_of_inflight _ C k (hring k hk) (by rw [htl]; exact ht) hk
      (by rw [htl]; exact hhd)
  refine ⟨?_, ?_, ?_⟩
  · intro k hk
    have hs : ionic_q_has_space (adminq_post_n T ctx k l).adminqcq.q 1 = true := by
      rw [hsp k (by omega)]
      exact decide_eq_true (by omega)
    obtain ⟨-, -, -, hcq, hcm⟩ := hstate k (by omega)
    have hq2 : ∀ t a, color_match ((adminq_post_n T ctx k l).comp_mem t a).color
        (adminq_post_n T ctx k l).adminqcq.cq.done_color = false := by
      rw [hcq, hcm]
      exact hquiet
    refine ⟨hs, ?_⟩
    rw [(post_wait_quiet T _ ctx hs hq2).1]
    split <;> exact fun h => by cases h
  · have hs : ionic_q_has_space (adminq_post_n T ctx (C - 1) l).adminqcq.q 1 = false := by
      rw [hsp (C - 1) (by omega)]
      exact decide_eq_false (by omega)
    exact ⟨hs, by rw [post_wait_nospace T _ ctx hs]⟩
  · obtain ⟨-, htl, hhd, hcq, hcm⟩ := hstate (C - 1) (by omega)
    have hrL := hring (C - 1) (by omega)
    generalize adminq_post_n T ctx (C - 1) l = L at htl hhd hcq hcm hrL ⊢
    have hnext := (hrL.2.2 L.adminqcq.q.tail (by rw [htl]; exact ht)).2.1
    have hr' : queue_ring
        { L.adminqcq.q with tail := (L.adminqcq.q.info L.adminqcq.q.tail).next } C := hrL
    have hs : ionic_q_has_space
        { L.adminqcq.q with tail := (L.adminqcq.q.info L.adminqcq.q.tail).next } 1 = true := by
      rw [has_space_of_inflight _ C (C - 2) hr'
        (by
          show (L.adminqcq.q.info L.adminqcq.q.tail).next < C
          rw [hnext]
          exact Nat.mod_lt _ (by omega))
        (by omega)
        (by
          show L.adminqcq.q.head = ((L.adminqcq.q.info L.adminqcq.q.tail).next + (C - 2)) % C
          rw [hnext, hhd, htl, Nat.mod_add_mod]
          have e : l.adminqcq.q.tail + 1 + (C - 2) = l.adminqcq.q.tail + (C - 1) := by omega
          rw [e])]
      exact decide_eq_true (by omega)
    refine ⟨hs, ?_⟩
    have hq2 : ∀ t a, color_match
        (({ L with adminqcq.q.tail := (L.adminqcq.q.info L.adminqcq.q.tail).next } : lif).comp_mem
          t a).color
        ({ L with adminqcq.q.tail := (L.adminqcq.q.info L.adminqcq.q.tail).next } :
          lif).adminqcq.cq.done_color = false := by
      show ∀ t a, color_match (L.comp_mem t a).color L.adminqcq.cq.done_color = false
      rw [hcq, hcm]
      exact hquiet
    rw [(post_wait_quiet T _ ctx hs hq2).1]
    split <;> exact fun h => by cases h

theorem adminq_full_after_capacity_minus_one_witness :
    (ionic_adminq_post_wait 2 (adminq_post_n 2 {} (16 - 1) (adminq_fixture 16)) {}).1 =
      Ret.neg Errno.ENOSPC :=
  (adminq_full_after_capacity_minus_one 2 16 (adminq_fixture 16) {} (by decide) (by decide)
    (by decide) (fun _ _ => by
      have hd : (adminq_fixture 16).adminqcq.cq.done_color = true := by decide
      rw [hd]
      show color_match 0 true = false
      decide)).2.1.2

/-- C5: when `ionic_q_has_space(adminq, 1)` is false, `ionic_adminq_post_wait` returns
`-ENOSPC` and leaves everything as it was: queue head and tail, CQ tail, `done_color`,
the descriptor memory, the doorbell register and the context. -/
theorem adminq_post_wait_nospace_unmodified (T : Nat) (l : lif) (ctx : ionic_admin_ctx)
    (h : ionic_q_has_space l.adminqcq.q 1 = false) :
    ionic_adminq_post_wait T l ctx = (Ret.neg Errno.ENOSPC, l, ctx) :=
  post_wait_nospace T l ctx h

theorem adminq_post_wait_nospace_unmodified_witness :
    ionic_adminq_post_wait 2
        { adminq_fixture 4 with adminqcq.q.head := 3 } {} =
      (Ret.neg Errno.ENOSPC, { adminq_fixture 4 with adminqcq.q.head := 3 }, {}) :=
  adminq_post_wait_nospace_unmodified 2 { adminq_fixture 4 with adminqcq.q.head := 3 } {}
    (by decide)

/-- C8: when `fw_running` is 0, `ionic_adminq_post_wait` returns a failure (`-ENOSPC` from
the space check or `-EIO` from `polladminq`) without polling: no color test and no delay
happens, whatever the completion memory holds. -/
theorem adminq_post_wait_fw_down (T : Nat) (l : lif) (ctx : ionic_admin_ctx)
    (hfw : l.fw_running = 0) :
    (ionic_adminq_post_wait T l ctx).1.isFailure = true ∧
      ((ionic_adminq_post_wait T l ctx).1 = Ret.neg Errno.ENOSPC ∨
        (ionic_adminq_post_wait T l ctx).1 = Ret.neg Errno.EIO) ∧
      (ionic_adminq_post_wait T l ctx).2.1.color_tests = l.color_tests ∧
      (ionic_adminq_post_wait T l ctx).2.1.delays = l.delays := by
  cases hs : ionic_q_has_space l.adminqcq.q 1
  · rw [post_wait_nospace T l ctx hs]
    exact ⟨rfl, Or.inl rfl, rfl, rfl⟩
  · rw [post_wait_space T l ctx hs, polladminq_fw_down T _ ctx (by exact hfw)]
    exact ⟨rfl, Or.inr rfl, rfl, rfl⟩

theorem adminq_post_wait_fw_down_witness :
    (ionic_adminq_post_wait 2 { adminq_fixture 4 with fw_running := 0 } {}).1.isFailure = true ∧
      ((ionic_adminq_post_wait 2 { adminq_fixture 4 with fw_running := 0 } {}).1 =
          Ret.neg Errno.ENOSPC ∨
        (ionic_adminq_post_wait 2 { adminq_fixture 4 with fw_running := 0 } {}).1 =
          Ret.neg Errno.EIO) ∧
      (ionic_adminq_post_wait 2 { adminq_fixture 4 with fw_running := 0 } {}).2.1.color_tests =
        ({ adminq_fixture 4 with fw_running := 0 } : lif).color_tests ∧
      (ionic_adminq_post_wait 2 { adminq_fixture 4 with fw_running := 0 } {}).2.1.delays =
        ({ adminq_fixture 4 with fw_running := 0 } : lif).delays :=
  adminq_post_wait_fw_down 2 { adminq_fixture 4 with fw_running := 0 } {} rfl

/-- C9: when the device is running and the completion at the admin CQ tail never matches
`done_color`, `polladminq` (and `ionic_adminq_post_wait` after a post that passed the
space check) returns `-ETIMEDOUT` after exactly `devcmd_timeout` color tests and as many
delays, with the CQ tail, the queue tail and `done_color` as they were; the loop is a
total function of its iteration budget. -/
theorem polladminq_times_out (T : Nat) (l : lif) (ctx : ionic_admin_ctx)
    (hfw : l.fw_running ≠ 0)
    (hquiet : ∀ i, i < T →
      color_match (l.comp_mem (l.delays + i)
        (l.adminqcq.cq.info l.adminqcq.cq.tail).cq_desc).color l.adminqcq.cq.done_color = false) :
    polladminq T l ctx =
        (Ret.neg Errno.ETIMEDOUT,
          { l with delays := l.delays + T, color_tests := l.color_tests + T }, ctx) ∧
      (polladminq T l ctx).2.1.adminqcq.cq.tail = l.adminqcq.cq.tail ∧
      (polladminq T l ctx).2.1.adminqcq.cq.done_color = l.adminqcq.cq.done_color ∧
      (polladminq T l ctx).2.1.adminqcq.q.tail = l.adminqcq.q.tail ∧
      (ionic_q_has_space l.adminqcq.q 1 = true →
        ionic_adminq_post_wait T l ctx =
          (Ret.neg Errno.ETIMEDOUT,
            { adminq_posted l ctx with
              delays := l.delays + T, color_tests := l.color_tests + T }, ctx)) := by
  have h1 : polladminq T l ctx =
      (Ret.neg Errno.ETIMEDOUT,
        { l with delays := l.delays + T, color_tests := l.color_tests + T }, ctx) := by
    rw [polladminq_fw_up T l ctx hfw, polladminq_loop_quiet _ ctx T l hquiet]
  refine ⟨h1, ?_, ?_, ?_, ?_⟩
  · rw [h1]
  · rw [h1]
  · rw [h1]
  · intro hs
    rw [post_wait_space T l ctx hs, polladminq_fw_up T _ ctx (by exact hfw),
      polladminq_loop_quiet _ ctx T _ (by exact hquiet)]
    rfl

theorem polladminq_times_out_witness :
    (polladminq 3 (adminq_fixture 4) {}).1 = Ret.neg Errno.ETIMEDOUT ∧
      (polladminq 3 (adminq_fixture 4) {}).2.1.color_tests = 3 :=
  ⟨congrArg Prod.fst
      (polladminq_times_out 3 (adminq_fixture 4) {} (by decide) (fun _ _ => by
        have hd : (adminq_fixture 4).adminqcq.cq.done_color = true := by decide
        rw [hd]
        show color_match 0 true = false
        decide)).1,
    by decide⟩

/-- C6: when the ring has space, the device is running and the completion at the CQ tail
matches `done_color`, `ionic_adminq_post_wait` copies `ctx.cmd` into the slot at the old
head, advances the head by one slot, writes a doorbell carrying the new head index,
advances the CQ tail and the queue tail by one slot each (flipping `done_color` iff the
consumed CQ slot is flagged last), copies that completion into `ctx.comp` and returns
what `ionic_adminq_check_err` makes of it; the free space is what it was before. -/
theorem adminq_post_wait_success (T C : Nat) (l : lif) (ctx : ionic_admin_ctx)
    (hr : queue_ring l.adminqcq.q C) (hh : l.adminqcq.q.head < C) (ht : l.adminqcq.q.tail < C)
    (hcr : cq_ring l.adminqcq.cq C) (hct : l.adminqcq.cq.tail < C)
    (hs : ionic_q_has_space l.adminqcq.q 1 = true) (hfw : l.fw_running ≠ 0) (hT : 0 < T)
    (hm : color_match (l.comp_mem l.delays
      (l.adminqcq.cq.info l.adminqcq.cq.tail).cq_desc).color l.adminqcq.cq.done_color = true) :
    (ionic_adminq_post_wait T l ctx).2.1.desc_mem
        (l.adminqcq.q.info l.adminqcq.q.head).desc = ctx.cmd ∧
      (ionic_adminq_post_wait T l ctx).2.1.adminqcq.q.head = (l.adminqcq.q.head + 1) % C ∧
      (ionic_adminq_post_wait T l ctx).2.1.db =
        { p_index := (l.adminqcq.q.head + 1) % C
          ring := 0
          qid_lo := l.adminqcq.q.hw_index % 2 ^ 8
          qid_hi := (l.adminqcq.q.hw_index >>> 8) % 2 ^ 16 } :: l.db ∧
      (ionic_adminq_post_wait T l ctx).2.1.adminqcq.cq.tail = (l.adminqcq.cq.tail + 1) % C ∧
      (ionic_adminq_post_wait T l ctx).2.1.adminqcq.cq.done_color =
        (if (l.adminqcq.cq.info l.adminqcq.cq.tail).last then !l.adminqcq.cq.done_color
          else l.adminqcq.cq.done_color) ∧
      ((l.adminqcq.cq.info l.adminqcq.cq.tail).last = true ↔ l.adminqcq.cq.tail + 1 = C) ∧
      (ionic_adminq_post_wait T l ctx).2.1.adminqcq.q.tail = (l.adminqcq.q.tail + 1) % C ∧
      (ionic_adminq_post_wait T l ctx).2.2.comp =
        l.comp_mem l.delays (l.adminqcq.cq.info l.adminqcq.cq.tail).cq_desc ∧
      (ionic_adminq_post_wait T l ctx).2.2.cmd = ctx.cmd ∧
      (ionic_adminq_post_wait T l ctx).1 =
        ionic_adminq_check_err (ionic_adminq_post_wait T l ctx).2.2 ∧
      ionic_q_space_avail (ionic_adminq_post_wait T l ctx).2.1.adminqcq.q =
        ionic_q_space_avail l.adminqcq.q := by
  have h64 := hr.2.1
  obtain ⟨hqi, hqn, -⟩ := hr.2.2 l.adminqcq.q.head hh
  obtain ⟨-, htn, -⟩ := hr.2.2 l.adminqcq.q.tail ht
  obtain ⟨-, hcn, hcl⟩ := hcr.2.2 l.adminqcq.cq.tail hct
  have hlt : (l.adminqcq.q.head + 1) % C < C := Nat.mod_lt _ (by omega)
  obtain ⟨hni, -, -⟩ := hr.2.2 ((l.adminqcq.q.head + 1) % C) hlt
  rw [post_wait_hit T l ctx hs hfw hT hm]
  refine ⟨?_, hqn, ?_, ?_, ?_, hcl, htn, rfl, rfl, rfl, ?_⟩
  · show Function.update l.desc_mem (l.adminqcq.q.info l.adminqcq.q.head).desc ctx.cmd
      (l.adminqcq.q.info l.adminqcq.q.head).desc = ctx.cmd
    exact Function.update_same _ _ _
  · show ({ qid_lo := l.adminqcq.q.hw_index % 2 ^ 8
            qid_hi := (l.adminqcq.q.hw_index >>> 8) % 2 ^ 16
            ring := 0
            p_index := (l.adminqcq.q.info (l.adminqcq.q.info l.adminqcq.q.head).next).index %
              2 ^ 16 } : ionic_doorbell) :: l.db = _
    rw [hqn, hni, Nat.mod_eq_of_lt (by omega)]
  · show (cq_consume l.adminqcq.cq).tail = _
    exact (cq_consume_ring _ C hcr hct).1
  · show (cq_consume l.adminqcq.cq).done_color = _
    cases hl : (l.adminqcq.cq.info l.adminqcq.cq.tail).last <;> simp [cq_consume, hl]
  · have := space_avail_shift l.adminqcq.q C hr hh ht hs
    rw [← this]
    show ionic_q_space_avail
      { l.adminqcq.q with
        head := (l.adminqcq.q.info l.adminqcq.q.head).next
        tail := (l.adminqcq.q.info l.adminqcq.q.tail).next } = _
    rw [hqn, htn]

theorem adminq_post_wait_success_witness :
    (ionic_adminq_post_wait 2 (adminq_fixture_done 4 0) {}).2.1.adminqcq.q.head =
      ((adminq_fixture_done 4 0).adminqcq.q.head + 1) % 4 :=
  (adminq_post_wait_success 2 4 (adminq_fixture_done 4 0) {} (by decide) (by decide)
    (by decide) (by decide) (by decide) (by decide) (by decide) (by decide) (by decide)).2.1

/-- C7: for every completion status `s`, `ionic_adminq_check_err` returns 0 iff `s = 0`
and `-EIO` otherwise, whether or not the status has a name; a consumed admin completion
with a non-zero status makes `ionic_adminq_post_wait` return the failure `-EIO`. -/
theorem adminq_check_err_maps_status (T : Nat) (l : lif) (ctx : ionic_admin_ctx)
    (hs : ionic_q_has_space l.adminqcq.q 1 = true) (hfw : l.fw_running ≠ 0) (hT : 0 < T)
    (hm : color_match (l.comp_mem l.delays
      (l.adminqcq.cq.info l.adminqcq.cq.tail).cq_desc).color l.adminqcq.cq.done_color = true) :
    (∀ c : ionic_admin_ctx,
      (ionic_adminq_check_err c = Ret.val 0 ↔ c.comp.status = 0) ∧
      (c.comp.status ≠ 0 → ionic_adminq_check_err c = Ret.neg Errno.EIO)) ∧
    ((l.comp_mem l.delays (l.adminqcq.cq.info l.adminqcq.cq.tail).cq_desc).status ≠ 0 →
      (ionic_adminq_post_wait T l ctx).1 = Ret.neg Errno.EIO ∧
      (ionic_adminq_post_wait T l ctx).1.isFailure = true) ∧
    ((l.comp_mem l.delays (l.adminqcq.cq.info l.adminqcq.cq.tail).cq_desc).status = 0 →
      (ionic_adminq_post_wait T l ctx).1 = Ret.val 0) := by
  have hc : ∀ c : ionic_admin_ctx,
      (ionic_adminq_check_err c = Ret.val 0 ↔ c.comp.status = 0) ∧
      (c.comp.status ≠ 0 → ionic_adminq_check_err c = Ret.neg Errno.EIO) := by
    intro c
    unfold ionic_adminq_check_err
    by_cases h : c.comp.status = 0
    · simp [h]
    · simp [h]
  refine ⟨hc, ?_, ?_⟩
  · intro hne
    rw [post_wait_hit T l ctx hs hfw hT hm]
    have := (hc { ctx with
      comp := l.comp_mem l.delays (l.adminqcq.cq.info l.adminqcq.cq.tail).cq_desc }).2 hne
    exact ⟨this, by rw [this]; rfl⟩
  · intro h0
    rw [post_wait_hit T l ctx hs hfw hT hm]
    exact (hc { ctx with
      comp := l.comp_mem l.delays (l.adminqcq.cq.info l.adminqcq.cq.tail).cq_desc }).1.2 h0

theorem adminq_check_err_maps_status_witness :
    (ionic_adminq_post_wait 2 (adminq_fixture_done 4 200) {}).1 = Ret.neg Errno.EIO :=
  ((adminq_check_err_maps_status 2 (adminq_fixture_done 4 200) {} (by decide) (by decide)
    (by decide) (by decide)).2.1 (by decide)).1

/-! ## Completion ring: claims -/

/-- C10: on a completion ring of capacity `C` initialised by `ionic_cq_init` (on slots
whose `last` flags are clear, as allocated), after `n` consumer steps the CQ tail is
`n mod C` and `done_color` equals its initial value iff `n / C` is even; after exactly `C`
steps it has flipped, after `2 * C` it is back. -/
theorem cq_done_color_revolutions (c0 : cq) (C desc_size n : Nat)
    (hok : (ionic_cq_init c0 C desc_size).1 = Ret.val 0)
    (hzero : ∀ i, (c0.info i).last = false) :
    (cq_consume^[n] (ionic_cq_init c0 C desc_size).2).tail = n % C ∧
      ((cq_consume^[n] (ionic_cq_init c0 C desc_size).2).done_color =
          (ionic_cq_init c0 C desc_size).2.done_color ↔ Even (n / C)) ∧
      (cq_consume^[C] (ionic_cq_init c0 C desc_size).2).done_color =
        !(ionic_cq_init c0 C desc_size).2.done_color ∧
      (cq_consume^[2 * C] (ionic_cq_init c0 C desc_size).2).done_color =
        (ionic_cq_init c0 C desc_size).2.done_color := by
  obtain ⟨hr, ht, -⟩ := ionic_cq_init_ring c0 C desc_size hok hzero
  have hC : 0 < C := by have := hr.1; omega
  have key := fun m => cq_consume_iterate _ C hr (by rw [ht]; exact hC) m
  simp only [ht, Nat.zero_add] at key
  refine ⟨(key n).1, ?_, ?_, ?_⟩
  · rw [(key n).2.1, Nat.even_iff]
    rcases Nat.mod_two_eq_zero_or_one (n / C) with h | h <;> simp [h]
  · rw [(key C).2.1, Nat.div_self hC]
    simp
  · rw [(key (2 * C)).2.1, Nat.mul_div_cancel _ hC]
    simp

theorem cq_done_color_revolutions_witness :
    (cq_consume^[4] (ionic_cq_init {} 4 16).2).done_color =
      !(ionic_cq_init {} 4 16).2.done_color :=
  (cq_done_color_revolutions {} 4 16 4 (by decide) (fun _ => rfl)).2.2.1

/-- C11: on a completion ring that starts zeroed with `done_color = 1`, where the device
writes its `k`-th completion into slot `k mod C` with the color bit set iff `k / C` is
even, after `c` consumed and `p` produced completions with `c ≤ p < c + C` the completion
at the CQ tail matches `done_color` iff `c < p`. -/
theorem color_match_iff_pending (c0 : cq) (C desc_size c p : Nat)
    (hok : (ionic_cq_init c0 C desc_size).1 = Ret.val 0)
    (hzero : ∀ i, (c0.info i).last = false) (hcp : c ≤ p) (hp : p < c + C) :
    color_match
        (device_cq_mem C p
          ((cq_consume^[c] (ionic_cq_init c0 C desc_size).2).info
            (cq_consume^[c] (ionic_cq_init c0 C desc_size).2).tail).index).color
        (cq_consume^[c] (ionic_cq_init c0 C desc_size).2).done_color = true ↔ c < p := by
  obtain ⟨hr, ht, hdc⟩ := ionic_cq_init_ring c0 C desc_size hok hzero
  have hC : 0 < C := by have := hr.1; omega
  obtain ⟨kt, kd, ki⟩ := cq_consume_iterate _ C hr (by rw [ht]; exact hC) c
  rw [ht, Nat.zero_add] at kt kd
  rw [ki, kt, kd, hdc, (hr.2.2 (c % C) (Nat.mod_lt _ hC)).1]
  obtain ⟨d, rfl⟩ : ∃ d, p = c + d := ⟨p - c, by omega⟩
  rw [device_cq_mem_holds C c d (by omega)]
  by_cases hd : 0 < d
  · rw [if_pos hd]
    have : c < c + d := by omega
    rcases Nat.mod_two_eq_zero_or_one (c / C) with h | h <;>
      simp [h, this, color_match, IONIC_COMP_COLOR_MASK]
  · rw [if_neg hd]
    have hn : ¬ c < c + d := by omega
    by_cases hcC : c < C
    · rw [device_cq_mem_unwritten C c (c % C) (by rw [Nat.mod_eq_of_lt hcC]) (Nat.mod_lt _ hC),
        Nat.div_eq_of_lt hcC]
      simp [hn, color_match, IONIC_COMP_COLOR_MASK]
    · obtain ⟨c', rfl⟩ : ∃ c', c = c' + C := ⟨c - C, by omega⟩
      have hm : (c' + C) % C = c' % C := Nat.add_mod_right c' C
      have hdv : (c' + C) / C = c' / C + 1 := Nat.add_div_right c' hC
      rw [hm, device_cq_mem_holds C c' C (le_refl C), if_pos hC, hdv]
      rcases Nat.mod_two_eq_zero_or_one (c' / C) with h | h
      · have h2 : (c' / C + 1) % 2 = 1 := by omega
        simp [h, h2, hn, color_match, IONIC_COMP_COLOR_MASK]
      · have h2 : (c' / C + 1) % 2 = 0 := by omega
        simp [h, h2, hn, color_match, IONIC_COMP_COLOR_MASK]

theorem color_match_iff_pending_witness :
    color_match
        (device_cq_mem 4 4
          ((cq_consume^[4] (ionic_cq_init {} 4 16).2).info
            (cq_consume^[4] (ionic_cq_init {} 4 16).2).tail).index).color
        (cq_consume^[4] (ionic_cq_init {} 4 16).2).done_color = true ↔ 4 < 4 :=
  color_match_iff_pending {} 4 16 4 4 (by decide) (fun _ => rfl) (by decide) (by decide)

/-! ## Device command channel: claims -/

/-- C12: if the device sets the done bit after `d < max_seconds` polling ticks,
`ionic_dev_cmd_wait` returns 0 having consumed exactly `d` delay ticks; if the done bit
is never set it returns `-ETIMEDOUT` after exactly `max_seconds` ticks. -/
theorem dev_cmd_wait_ticks (idev : ionic_dev) (max_seconds d : Nat) :
    (d < max_seconds →
      (∀ j, j < d → done_bit (idev.dev_done idev.posts j) = false) →
      done_bit (idev.dev_done idev.posts d) = true →
      ionic_dev_cmd_wait idev max_seconds =
        (Ret.val 0,
          { idev with delays := idev.delays + d, done_reads := idev.done_reads + (d + 1) })) ∧
    ((∀ j, j < max_seconds → done_bit (idev.dev_done idev.posts j) = false) →
      ionic_dev_cmd_wait idev max_seconds =
        (Ret.neg Errno.ETIMEDOUT,
          { idev with
            delays := idev.delays + max_seconds
            done_reads := idev.done_reads + max_seconds })) := by
  constructor
  · intro hd hclear hset
    exact dev_cmd_wait_loop_done d max_seconds 0 idev hd (by simpa using hclear)
      (by simpa using hset)
  · intro h
    exact dev_cmd_wait_loop_timeout max_seconds 0 idev (by simpa using h)

theorem dev_cmd_wait_ticks_witness :
    ionic_dev_cmd_wait (dev_fixture 1 (fun _ => 0)) 2 =
        (Ret.val 0,
          { dev_fixture 1 (fun _ => 0) with
            delays := (dev_fixture 1 (fun _ => 0)).delays + 1
            done_reads := (dev_fixture 1 (fun _ => 0)).done_reads + (1 + 1) }) ∧
      ionic_dev_cmd_wait dev_fixture_dead 2 =
        (Ret.neg Errno.ETIMEDOUT,
          { dev_fixture_dead with
            delays := dev_fixture_dead.delays + 2
            done_reads := dev_fixture_dead.done_reads + 2 }) :=
  ⟨(dev_cmd_wait_ticks (dev_fixture 1 (fun _ => 0)) 2 1).1 (by decide) (by decide) (by decide),
    (dev_cmd_wait_ticks dev_fixture_dead 2 0).2 (by decide)⟩

/-- C13: if the device completes the first `k < RETRY_COUNT` attempts with status EAGAIN
and the next one with status 0, `ionic_dev_cmd_go` returns 0 having posted the command
exactly `k + 1` times. -/
theorem dev_cmd_go_retries_then_succeeds (cmd : Nat → Nat) (max_seconds : Nat) :
    ∀ (k R : Nat) (idev : ionic_dev), k < R →
      (∀ a, a ≤ k → dev_completes idev (idev.posts + a + 1) max_seconds) →
      (∀ a, a < k → idev.dev_status (idev.posts + a + 1) % 2 ^ 8 = IONIC_RC_EAGAIN) →
      idev.dev_status (idev.posts + k + 1) % 2 ^ 8 = 0 →
      (ionic_dev_cmd_go R idev cmd max_seconds).1 = Ret.val 0 ∧
        (ionic_dev_cmd_go R idev cmd max_seconds).2.posts = idev.posts + (k + 1) := by
  intro k
  induction k with
  | zero =>
    intro R idev hR hdone _ hok
    obtain ⟨n, rfl⟩ : ∃ n, R = n + 1 := ⟨R - 1, by omega⟩
    have hst := dev_cmd_attempt_status idev cmd max_seconds (hdone 0 (le_refl 0))
    rw [show idev.posts + 0 + 1 = idev.posts + 1 from rfl] at hok
    rw [hok] at hst
    unfold ionic_dev_cmd_go
    rw [dev_cmd_go_loop_succ, if_neg (by rw [hst]; decide)]
    exact ⟨hst, (dev_cmd_attempt_frame idev cmd max_seconds).1⟩
  | succ k ih =>
    intro R idev hR hdone hbusy hok
    obtain ⟨n, rfl⟩ : ∃ n, R = n + 1 := ⟨R - 1, by omega⟩
    have hst := dev_cmd_attempt_status idev cmd max_seconds (hdone 0 (Nat.zero_le _))
    rw [hbusy 0 (Nat.succ_pos k)] at hst
    obtain ⟨fp, -, fd, fs⟩ := dev_cmd_attempt_frame idev cmd max_seconds
    unfold ionic_dev_cmd_go at ih ⊢
    rw [dev_cmd_go_loop_succ, if_pos hst]
    have := ih n
      { (ionic_dev_cmd_wait_check (dev_cmd_post idev cmd) max_seconds).2 with
        delays := (ionic_dev_cmd_wait_check (dev_cmd_post idev cmd) max_seconds).2.delays + 1 }
      (by omega)
      (by
        intro a ha
        show dev_completes _ ((ionic_dev_cmd_wait_check (dev_cmd_post idev cmd) max_seconds).2.posts
          + a + 1) max_seconds
        have h := hdone (a + 1) (by omega)
        unfold dev_completes at h ⊢
        simp only [fd, fp]
        rw [show idev.posts + 1 + a + 1 = idev.posts + (a + 1) + 1 by omega]
        exact h)
      (by
        intro a ha
        show (ionic_dev_cmd_wait_check (dev_cmd_post idev cmd) max_seconds).2.dev_status
          ((ionic_dev_cmd_wait_check (dev_cmd_post idev cmd) max_seconds).2.posts + a + 1) % 2 ^ 8 = _
        rw [fs, fp, show idev.posts + 1 + a + 1 = idev.posts + (a + 1) + 1 by omega]
        exact hbusy (a + 1) (by omega))
      (by
        show (ionic_dev_cmd_wait_check (dev_cmd_post idev cmd) max_seconds).2.dev_status
          ((ionic_dev_cmd_wait_check (dev_cmd_post idev cmd) max_seconds).2.posts + k + 1) % 2 ^ 8 = _
        rw [fs, fp, show idev.posts + 1 + k + 1 = idev.posts + (k + 1) + 1 by omega]
        exact hok)
    refine ⟨this.1, ?_⟩
    rw [this.2]
    show (ionic_dev_cmd_wait_check (dev_cmd_post idev cmd) max_seconds).2.posts + (k + 1) = _
    rw [fp]
    omega

theorem dev_cmd_go_retries_then_succeeds_witness :
    (ionic_dev_cmd_go 5 (dev_fixture 1 (fun p => if p ≤ 2 then 9 else 0)) (fun _ => 0) 2).1 =
        Ret.val 0 ∧
      (ionic_dev_cmd_go 5 (dev_fixture 1 (fun p => if p ≤ 2 then 9 else 0)) (fun _ => 0) 2).2.posts =
        (dev_fixture 1 (fun p => if p ≤ 2 then 9 else 0)).posts + (2 + 1) :=
  dev_cmd_go_retries_then_succeeds (fun _ => 0) 2 2 5
    (dev_fixture 1 (fun p => if p ≤ 2 then 9 else 0)) (by decide) (by decide) (by decide)
    (by decide)

/-- C14: if the device never sets the done bit, `ionic_dev_cmd_go` (with a retry budget
of at least one) returns `-ETIMEDOUT` after exactly `max_seconds` done-bit polls and
exactly one post: a timed-out command is not posted again. -/
theorem dev_cmd_go_timeout_single_post (R : Nat) (idev : ionic_dev) (cmd : Nat → Nat)
    (max_seconds : Nat) (hR : 0 < R)
    (hdead : ∀ j, j < max_seconds → done_bit (idev.dev_done (idev.posts + 1) j) = false) :
    (ionic_dev_cmd_go R idev cmd max_seconds).1 = Ret.neg Errno.ETIMEDOUT ∧
      (ionic_dev_cmd_go R idev cmd max_seconds).2.posts = idev.posts + 1 ∧
      (ionic_dev_cmd_go R idev cmd max_seconds).2.done_reads = idev.done_reads + max_seconds ∧
      (ionic_dev_cmd_go R idev cmd max_seconds).2.writes =
        idev.writes ++ dev_cmd_post_writes cmd := by
  obtain ⟨n, rfl⟩ : ∃ n, R = n + 1 := ⟨R - 1, by omega⟩
  have hw : ionic_dev_cmd_wait_check (dev_cmd_post idev cmd) max_seconds =
      (Ret.neg Errno.ETIMEDOUT,
        { dev_cmd_post idev cmd with
          delays := (dev_cmd_post idev cmd).delays + max_seconds
          done_reads := (dev_cmd_post idev cmd).done_reads + max_seconds }) := by
    apply dev_cmd_wait_check_timeout
    rw [dev_cmd_post_eq]
    exact hdead
  unfold ionic_dev_cmd_go
  rw [dev_cmd_go_loop_succ, hw, if_neg (ret_val_ne_eagain_of_neg _)]
  rw [dev_cmd_post_eq]
  exact ⟨rfl, rfl, rfl, rfl⟩

theorem dev_cmd_go_timeout_single_post_witness :
    (ionic_dev_cmd_go 5 dev_fixture_dead (fun _ => 0) 3).1 = Ret.neg Errno.ETIMEDOUT ∧
      (ionic_dev_cmd_go 5 dev_fixture_dead (fun _ => 0) 3).2.posts = dev_fixture_dead.posts + 1 ∧
      (ionic_dev_cmd_go 5 dev_fixture_dead (fun _ => 0) 3).2.done_reads =
        dev_fixture_dead.done_reads + 3 ∧
      (ionic_dev_cmd_go 5 dev_fixture_dead (fun _ => 0) 3).2.writes =
        dev_fixture_dead.writes ++ dev_cmd_post_writes (fun _ => 0) :=
  dev_cmd_go_timeout_single_post 5 dev_fixture_dead (fun _ => 0) 3 (by decide) (by decide)

/-- C15: if the device completes every attempt with status EAGAIN, `ionic_dev_cmd_go`
posts the command exactly `RETRY_COUNT` times and then returns `-EIO`; the retry loop is a
total function of its budget. -/
theorem dev_cmd_go_exhausts_retries (cmd : Nat → Nat) (max_seconds : Nat) :
    ∀ (R : Nat) (idev : ionic_dev),
      (∀ a, a < R → dev_completes idev (idev.posts + a + 1) max_seconds) →
      (∀ a, a < R → idev.dev_status (idev.posts + a + 1) % 2 ^ 8 = IONIC_RC_EAGAIN) →
      (ionic_dev_cmd_go R idev cmd max_seconds).1 = Ret.neg Errno.EIO ∧
        (ionic_dev_cmd_go R idev cmd max_seconds).2.posts = idev.posts + R := by
  intro R
  induction R with
  | zero => intro idev _ _; exact ⟨rfl, rfl⟩
  | succ n ih =>
    intro idev hdone hbusy
    have hst := dev_cmd_attempt_status idev cmd max_seconds (hdone 0 (Nat.succ_pos n))
    rw [hbusy 0 (Nat.succ_pos n)] at hst
    obtain ⟨fp, -, fd, fs⟩ := dev_cmd_attempt_frame idev cmd max_seconds
    unfold ionic_dev_cmd_go at ih ⊢
    rw [dev_cmd_go_loop_succ, if_pos hst]
    have := ih
      { (ionic_dev_cmd_wait_check (dev_cmd_post idev cmd) max_seconds).2 with
        delays := (ionic_dev_cmd_wait_check (dev_cmd_post idev cmd) max_seconds).2.delays + 1 }
      (by
        intro a ha
        show dev_completes _ ((ionic_dev_cmd_wait_check (dev_cmd_post idev cmd) max_seconds).2.posts
          + a + 1) max_seconds
        have h := hdone (a + 1) (by omega)
        unfold dev_completes at h ⊢
        simp only [fd, fp]
        rw [show idev.posts + 1 + a + 1 = idev.posts + (a + 1) + 1 by omega]
        exact h)
      (by
        intro a ha
        show (ionic_dev_cmd_wait_check (dev_cmd_post idev cmd) max_seconds).2.dev_status
          ((ionic_dev_cmd_wait_check (dev_cmd_post idev cmd) max_seconds).2.posts + a + 1) % 2 ^ 8 = _
        rw [fs, fp, show idev.posts + 1 + a + 1 = idev.posts + (a + 1) + 1 by omega]
        exact hbusy (a + 1) (by omega))
    refine ⟨this.1, ?_⟩
    rw [this.2]
    show (ionic_dev_cmd_wait_check (dev_cmd_post idev cmd) max_seconds).2.posts + n = _
    rw [fp]
    omega

theorem dev_cmd_go_exhausts_retries_witness :
    (ionic_dev_cmd_go 5 (dev_fixture 1 (fun _ => 9)) (fun _ => 0) 2).1 = Ret.neg Errno.EIO ∧
      (ionic_dev_cmd_go 5 (dev_fixture 1 (fun _ => 9)) (fun _ => 0) 2).2.posts =
        (dev_fixture 1 (fun _ => 9)).posts + 5 :=
  dev_cmd_go_exhausts_retries (fun _ => 0) 2 5 (dev_fixture 1 (fun _ => 9)) (by decide)
    (by decide)

/-- C16: for every completion status `s` other than 0 and EAGAIN, `ionic_dev_cmd_go`
(with a retry budget of at least one) returns after exactly one post with the non-zero
result `s`; such a status is not retried. -/
theorem dev_cmd_go_rejected_not_retried (R : Nat) (idev : ionic_dev) (cmd : Nat → Nat)
    (max_seconds s : Nat) (hR : 0 < R)
    (hdone : dev_completes idev (idev.posts + 1) max_seconds)
    (hs : idev.dev_status (idev.posts + 1) % 2 ^ 8 = s)
    (hs0 : s ≠ 0) (hs9 : s ≠ IONIC_RC_EAGAIN) :
    (ionic_dev_cmd_go R idev cmd max_seconds).1 = Ret.val s ∧
      (ionic_dev_cmd_go R idev cmd max_seconds).1.isFailure = true ∧
      (ionic_dev_cmd_go R idev cmd max_seconds).2.posts = idev.posts + 1 := by
  obtain ⟨n, rfl⟩ : ∃ n, R = n + 1 := ⟨R - 1, by omega⟩
  have hst := dev_cmd_attempt_status idev cmd max_seconds hdone
  rw [hs] at hst
  unfold ionic_dev_cmd_go
  rw [dev_cmd_go_loop_succ, if_neg (by rw [hst]; exact fun h => hs9 (Ret.val.inj h))]
  refine ⟨hst, ?_, (dev_cmd_attempt_frame idev cmd max_seconds).1⟩
  rw [hst]
  simpa [Ret.isFailure] using hs0

theorem dev_cmd_go_rejected_not_retried_witness :
    (ionic_dev_cmd_go 5 (dev_fixture 1 (fun _ => 14)) (fun _ => 0) 2).1 = Ret.val 14 ∧
      (ionic_dev_cmd_go 5 (dev_fixture 1 (fun _ => 14)) (fun _ => 0) 2).1.isFailure = true ∧
      (ionic_dev_cmd_go 5 (dev_fixture 1 (fun _ => 14)) (fun _ => 0) 2).2.posts =
        (dev_fixture 1 (fun _ => 14)).posts + 1 :=
  dev_cmd_go_rejected_not_retried 5 (dev_fixture 1 (fun _ => 14)) (fun _ => 0) 2 14 (by decide)
    (by decide) (by decide) (by decide) (by decide)

/-- C17: every attempt of `ionic_dev_cmd_go` stores, in this order, the 16 command words
(word `i` of the register gets `cmd->words[i]`), then 0 to the done register, then 1 to
the doorbell register, and the call stores nothing else: its stores are that block once
per post. -/
theorem dev_cmd_go_writes (cmd : Nat → Nat) (max_seconds : Nat) :
    dev_cmd_post_writes cmd =
        [dev_cmd_write.cmd_word 0 (cmd 0), dev_cmd_write.cmd_word 1 (cmd 1),
          dev_cmd_write.cmd_word 2 (cmd 2), dev_cmd_write.cmd_word 3 (cmd 3),
          dev_cmd_write.cmd_word 4 (cmd 4), dev_cmd_write.cmd_word 5 (cmd 5),
          dev_cmd_write.cmd_word 6 (cmd 6), dev_cmd_write.cmd_word 7 (cmd 7),
          dev_cmd_write.cmd_word 8 (cmd 8), dev_cmd_write.cmd_word 9 (cmd 9),
          dev_cmd_write.cmd_word 10 (cmd 10), dev_cmd_write.cmd_word 11 (cmd 11),
          dev_cmd_write.cmd_word 12 (cmd 12), dev_cmd_write.cmd_word 13 (cmd 13),
          dev_cmd_write.cmd_word 14 (cmd 14), dev_cmd_write.cmd_word 15 (cmd 15),
          dev_cmd_write.done 0, dev_cmd_write.doorbell 1] ∧
      (∀ idev : ionic_dev,
        (dev_cmd_post idev cmd).writes = idev.writes ++ dev_cmd_post_writes cmd) ∧
      ∀ (R : Nat) (idev : ionic_dev), ∃ n, n ≤ R ∧
        (ionic_dev_cmd_go R idev cmd max_seconds).2.posts = idev.posts + n ∧
        (ionic_dev_cmd_go R idev cmd max_seconds).2.writes =
          idev.writes ++ repeat_block (dev_cmd_post_writes cmd) n := by
  refine ⟨rfl, ?_, ?_⟩
  · intro idev
    rw [dev_cmd_post_eq]
  · intro R
    induction R with
    | zero =>
      intro idev
      exact ⟨0, le_refl 0, rfl, by simp [ionic_dev_cmd_go, ionic_dev_cmd_go_loop, repeat_block]⟩
    | succ n ih =>
      intro idev
      obtain ⟨fp, fw, -, -⟩ := dev_cmd_attempt_frame idev cmd max_seconds
      unfold ionic_dev_cmd_go at ih ⊢
      rw [dev_cmd_go_loop_succ]
      by_cases hst : (ionic_dev_cmd_wait_check (dev_cmd_post idev cmd) max_seconds).1 =
          Ret.val IONIC_RC_EAGAIN
      · rw [if_pos hst]
        obtain ⟨m, hm, hp, hw⟩ := ih
          { (ionic_dev_cmd_wait_check (dev_cmd_post idev cmd) max_seconds).2 with
            delays := (ionic_dev_cmd_wait_check (dev_cmd_post idev cmd) max_seconds).2.delays + 1 }
        refine ⟨m + 1, by omega, ?_, ?_⟩
        · rw [hp]
          show (ionic_dev_cmd_wait_check (dev_cmd_post idev cmd) max_seconds).2.posts + m = _
          rw [fp]
          omega
        · rw [hw]
          show (ionic_dev_cmd_wait_check (dev_cmd_post idev cmd) max_seconds).2.writes ++ _ = _
          rw [fw, repeat_block, List.append_assoc]
      · rw [if_neg hst]
        exact ⟨1, by omega, fp, by rw [fw]; simp [repeat_block]⟩

/-! ## Transmit path: claims -/

/-- C18: when `ionic_q_has_space(txq, 1)` is false, `ionic_transmit` returns the failure
`-ENOBUFS` and changes nothing: queue head and tail, the `tx_iobuf` side table, the
descriptor memory and the doorbell register are as before the call. -/
theorem transmit_full_unmodified (F O : Nat) (st : tx_state) (b : io_buffer)
    (h : ionic_q_has_space st.txqcqs.q 1 = false) :
    ionic_transmit F O st b = (Ret.neg Errno.ENOBUFS, st) ∧
      (ionic_transmit F O st b).1.isFailure = true := by
  rw [transmit_nospace F O st b h]
  exact ⟨rfl, rfl⟩

theorem transmit_full_unmodified_witness :
    ionic_transmit 1 0 { tx_fixture 4 with txqcqs.q.head := 3 } {} =
        (Ret.neg Errno.ENOBUFS, { tx_fixture 4 with txqcqs.q.head := 3 }) ∧
      (ionic_transmit 1 0 { tx_fixture 4 with txqcqs.q.head := 3 } {}).1.isFailure = true :=
  transmit_full_unmodified 1 0 { tx_fixture 4 with txqcqs.q.head := 3 } {} (by decide)

/-- C19: when the TX ring has space, `ionic_transmit` returns 0, stores the buffer in
`tx_iobuf` at the index of the old head slot and changes no other entry, advances the head
by one slot (wrapping from `C - 1` to 0), leaves the tail unchanged and writes a doorbell
whose producer index is the new head index; the free space decreases by one. -/
theorem transmit_posts_one (F O C : Nat) (st : tx_state) (b : io_buffer)
    (hr : queue_ring st.txqcqs.q C) (hh : st.txqcqs.q.head < C) (ht : st.txqcqs.q.tail < C)
    (hs : ionic_q_has_space st.txqcqs.q 1 = true) :
    (ionic_transmit F O st b).1 = Ret.val 0 ∧
      (ionic_transmit F O st b).2.tx_iobuf st.txqcqs.q.head = some b ∧
      (∀ j, j ≠ st.txqcqs.q.head →
        (ionic_transmit F O st b).2.tx_iobuf j = st.tx_iobuf j) ∧
      (ionic_transmit F O st b).2.txqcqs.q.head = (st.txqcqs.q.head + 1) % C ∧
      (st.txqcqs.q.head = C - 1 → (ionic_transmit F O st b).2.txqcqs.q.head = 0) ∧
      (ionic_transmit F O st b).2.txqcqs.q.tail = st.txqcqs.q.tail ∧
      (ionic_transmit F O st b).2.db =
        { p_index := (st.txqcqs.q.head + 1) % C
          ring := 0
          qid_lo := st.txqcqs.q.hw_index % 2 ^ 8
          qid_hi := (st.txqcqs.q.hw_index >>> 8) % 2 ^ 16 } :: st.db ∧
      ionic_q_space_avail (ionic_transmit F O st b).2.txqcqs.q =
        ionic_q_space_avail st.txqcqs.q - 1 := by
  have h4 := hr.1
  have h64 := hr.2.1
  obtain ⟨hqi, hqn, -⟩ := hr.2.2 st.txqcqs.q.head hh
  have hlt : (st.txqcqs.q.head + 1) % C < C := Nat.mod_lt _ (by omega)
  obtain ⟨hni, -, -⟩ := hr.2.2 ((st.txqcqs.q.head + 1) % C) hlt
  obtain ⟨t1, t2, t3, -, t5, -, -, -⟩ := transmit_space F O st b hs
  rw [t2, t3, t5, hqi, hqn, hni, Nat.mod_eq_of_lt (show (st.txqcqs.q.head + 1) % C < 2 ^ 16 by omega)]
  refine ⟨t1, Function.update_same _ _ _, fun j hj => Function.update_noteq hj _ _, rfl, ?_, rfl,
    rfl, space_avail_post st.txqcqs.q C hr hh ht hs⟩
  intro hl
  show (st.txqcqs.q.head + 1) % C = 0
  rw [hl, show C - 1 + 1 = C by omega, Nat.mod_self]

theorem transmit_posts_one_witness :
    (ionic_transmit 1 0 { tx_fixture 4 with txqcqs.q.head := 3, txqcqs.q.tail := 2 } {}).2.txqcqs.q.head
      = 0 :=
  (transmit_posts_one 1 0 4 { tx_fixture 4 with txqcqs.q.head := 3, txqcqs.q.tail := 2 } {}
    (by decide) (by decide) (by decide) (by decide)).2.2.2.2.1 (by decide)

/-- C20: for a single pending TX completion whose `comp_index` is `k < C`, `ionic_poll_tx`
retires the slots `tail, tail + 1, ..., k` (mod `C`) in that order in one pass, clears
their `tx_iobuf` entries and no other, leaves the queue tail at `(k + 1) mod C` and
advances the CQ tail by one; in the scenario of four posted packets and one completion
for the fourth slot the four buffers are retired in posting order and the ring is empty. -/
theorem poll_tx_coalesces (C fuel inner : Nat) (st : tx_state)
    (hr : queue_ring st.txqcqs.q C) (ht : st.txqcqs.q.tail < C)
    (hcr : cq_ring st.txqcqs.cq C) (hct : st.txqcqs.cq.tail < C)
    (hm : color_match (st.comp_mem (st.txqcqs.cq.info st.txqcqs.cq.tail).cq_desc).color
      st.txqcqs.cq.done_color = true)
    (hk : (st.comp_mem (st.txqcqs.cq.info st.txqcqs.cq.tail).cq_desc).comp_index % 2 ^ 16 < C)
    (hone : color_match
      (st.comp_mem ((cq_consume st.txqcqs.cq).info (cq_consume st.txqcqs.cq).tail).cq_desc).color
      (cq_consume st.txqcqs.cq).done_color = false)
    (hfuel : 2 ≤ fuel) (hinner : C ≤ inner) :
    (∃ st', ionic_poll_tx fuel inner st = some st' ∧
      st'.txqcqs.q.tail =
        ((st.comp_mem (st.txqcqs.cq.info st.txqcqs.cq.tail).cq_desc).comp_index % 2 ^ 16 + 1) % C ∧
      st'.completed = st.completed ++
        (List.range
          (((st.comp_mem (st.txqcqs.cq.info st.txqcqs.cq.tail).cq_desc).comp_index % 2 ^ 16 + C -
            st.txqcqs.q.tail) % C + 1)).map
          (fun i => st.tx_iobuf ((st.txqcqs.q.tail + i) % C)) ∧
      (∀ i, i ≤ ((st.comp_mem (st.txqcqs.cq.info st.txqcqs.cq.tail).cq_desc).comp_index % 2 ^ 16 +
          C - st.txqcqs.q.tail) % C →
        st'.tx_iobuf ((st.txqcqs.q.tail + i) % C) = none) ∧
      (∀ j, (∀ i, i ≤ ((st.comp_mem (st.txqcqs.cq.info st.txqcqs.cq.tail).cq_desc).comp_index %
          2 ^ 16 + C - st.txqcqs.q.tail) % C → j ≠ (st.txqcqs.q.tail + i) % C) →
        st'.tx_iobuf j = st.tx_iobuf j) ∧
      st'.txqcqs.cq.tail = (st.txqcqs.cq.tail + 1) % C ∧
      st'.txqcqs.q.head = st.txqcqs.q.head ∧
      st'.txqcqs.q.info = st.txqcqs.q.info) ∧
    (∃ st', ionic_poll_tx 2 16 tx_scenario = some st' ∧
      st'.completed = [some { data := 100, len := 60 }, some { data := 200, len := 61 },
        some { data := 300, len := 62 }, some { data := 400, len := 63 }] ∧
      st'.txqcqs.q.tail = 4 ∧ st'.txqcqs.q.head = 4 ∧
      ionic_q_space_avail st'.txqcqs.q = 15) :=
  ⟨poll_tx_single C fuel inner st hr ht hcr hct hm hk hone hfuel hinner, tx_scenario_retired⟩

theorem poll_tx_coalesces_witness :
    ∃ st', ionic_poll_tx 2 4
        { tx_fixture 4 with
          comp_mem := Function.update (fun _ => {}) 8192 { comp_index := 1, color := 128 } } =
          some st' ∧
      st'.txqcqs.q.tail = (1 % 2 ^ 16 + 1) % 4 :=
  match (poll_tx_coalesces 4 2 4
    { tx_fixture 4 with
      comp_mem := Function.update (fun _ => {}) 8192 { comp_index := 1, color := 128 } }
    (by decide) (by decide) (by decide) (by decide) (by decide) (by decide) (by decide)
    (by decide) (by decide)).1 with
  | ⟨st', h, ht', _⟩ => ⟨st', h, ht'⟩

/-! ## Receive path and flush: claims -/

/-- C21: if the RX queue has `n = ionic_q_space_avail(rxq)` free slots and every buffer
allocation succeeds, `ionic_rx_fill` posts exactly `n` receive descriptors: the head
advances by `n` slots, the tail is unchanged, each newly posted slot gets its buffer in
`rx_iobuf`, `n` doorbells are written, each with the then-current head index, and the free
space is 0 afterwards. -/
theorem rx_fill_posts_all_free (O L C : Nat) (st : rx_state)
    (hr : queue_ring st.rxqcqs.q C) (hh : st.rxqcqs.q.head < C) (ht : st.rxqcqs.q.tail < C)
    (ha : ∀ i, i < ionic_q_space_avail st.rxqcqs.q →
      ∃ b, st.alloc (st.allocs + i) (L % 2 ^ 16) = some b) :
    (ionic_rx_fill O L st).rxqcqs.q.head =
        (st.rxqcqs.q.head + ionic_q_space_avail st.rxqcqs.q) % C ∧
      (ionic_rx_fill O L st).rxqcqs.q.tail = st.rxqcqs.q.tail ∧
      (∀ i, i < ionic_q_space_avail st.rxqcqs.q →
        (ionic_rx_fill O L st).rx_iobuf ((st.rxqcqs.q.head + i) % C) =
            st.alloc (st.allocs + i) (L % 2 ^ 16) ∧
          (ionic_rx_fill O L st).rx_iobuf ((st.rxqcqs.q.head + i) % C) ≠ none) ∧
      (∀ j, (∀ i, i < ionic_q_space_avail st.rxqcqs.q → j ≠ (st.rxqcqs.q.head + i) % C) →
        (ionic_rx_fill O L st).rx_iobuf j = st.rx_iobuf j) ∧
      (ionic_rx_fill O L st).db =
        (List.range (ionic_q_space_avail st.rxqcqs.q)).reverse.map
          (fun i => doorbell_of st.rxqcqs.q ((st.rxqcqs.q.head + i + 1) % C)) ++ st.db ∧
      (ionic_rx_fill O L st).db.length = st.db.length + ionic_q_space_avail st.rxqcqs.q ∧
      (ionic_rx_fill O L st).allocs = st.allocs + ionic_q_space_avail st.rxqcqs.q ∧
      ionic_q_space_avail (ionic_rx_fill O L st).rxqcqs.q = 0 := by
  obtain ⟨-, i2, i3, i4, i5, i6, i7, -, i9⟩ :=
    rx_fill_loop_ring O (L % 2 ^ 16) C (ionic_q_space_avail st.rxqcqs.q) st hr hh ht
      (le_refl _) ha
  unfold ionic_rx_fill
  refine ⟨i3, i2, ?_, i5, i6, ?_, i9, ?_⟩
  · intro i hi
    refine ⟨i4 i hi, ?_⟩
    rw [i4 i hi]
    obtain ⟨b, hb⟩ := ha i hi
    rw [hb]
    exact fun h => by cases h
  · rw [i6]
    simp [Nat.add_comm]
  · rw [i7, Nat.sub_self]

theorem rx_fill_posts_all_free_witness :
    ionic_q_space_avail (ionic_rx_fill 0 1500 (rx_fixture 4)).rxqcqs.q = 0 :=
  (rx_fill_posts_all_free 0 1500 4 (rx_fixture 4) (by decide) (by decide) (by decide)
    (fun i _ => ⟨{ data := 1000 + ((rx_fixture 4).allocs + i), len := 0 }, rfl⟩)).2.2.2.2.2.2.2

/-- C22: for a pending RX completion, `ionic_poll_rx` performs its loop body once and goes
on; the body detaches the side-table buffer of the queue-tail slot (that `rx_iobuf` entry
becomes NULL, the others stay), advances the queue tail and the CQ tail by one slot each,
and hands the buffer to `netdev_rx_err` iff the completion status is non-zero or one of
the TCP-bad, UDP-bad, IP-bad checksum flags is set, and to `netdev_rx` otherwise. -/
theorem poll_rx_consumes_one (F : rx_csum_flags) (C fuel : Nat) (st : rx_state)
    (hr : queue_ring st.rxqcqs.q C) (ht : st.rxqcqs.q.tail < C)
    (hcr : cq_ring st.rxqcqs.cq C) (hct : st.rxqcqs.cq.tail < C)
    (hm : color_match
      (st.comp_mem (st.rxqcqs.cq.info st.rxqcqs.cq.tail).cq_desc).pkt_type_color
      st.rxqcqs.cq.done_color = true) :
    ionic_poll_rx F (fuel + 1) st =
        ionic_poll_rx F fuel
          (ionic_poll_rx_body F (st.rxqcqs.cq.info st.rxqcqs.cq.tail).cq_desc st) ∧
      (ionic_poll_rx_body F (st.rxqcqs.cq.info st.rxqcqs.cq.tail).cq_desc st).rx_iobuf
        st.rxqcqs.q.tail = none ∧
      (∀ j, j ≠ st.rxqcqs.q.tail →
        (ionic_poll_rx_body F (st.rxqcqs.cq.info st.rxqcqs.cq.tail).cq_desc st).rx_iobuf j =
          st.rx_iobuf j) ∧
      (ionic_poll_rx_body F (st.rxqcqs.cq.info st.rxqcqs.cq.tail).cq_desc st).rxqcqs.q.tail =
        (st.rxqcqs.q.tail + 1) % C ∧
      (ionic_poll_rx_body F (st.rxqcqs.cq.info st.rxqcqs.cq.tail).cq_desc st).rxqcqs.cq.tail =
        (st.rxqcqs.cq.tail + 1) % C ∧
      (∃ b, (ionic_poll_rx_body F (st.rxqcqs.cq.info st.rxqcqs.cq.tail).cq_desc st).events =
        st.events ++
          [if (st.comp_mem (st.rxqcqs.cq.info st.rxqcqs.cq.tail).cq_desc).status ≠ 0 ∨
              (st.comp_mem (st.rxqcqs.cq.info st.rxqcqs.cq.tail).cq_desc).csum_flags &&&
                F.TCP_BAD ≠ 0 ∨
              (st.comp_mem (st.rxqcqs.cq.info st.rxqcqs.cq.tail).cq_desc).csum_flags &&&
                F.UDP_BAD ≠ 0 ∨
              (st.comp_mem (st.rxqcqs.cq.info st.rxqcqs.cq.tail).cq_desc).csum_flags &&&
                F.IP_BAD ≠ 0
            then rx_event.rx_err b else rx_event.rx b] ∧
        b.map (fun x => x.data) = (st.rx_iobuf st.rxqcqs.q.tail).map (fun x => x.data)) := by
  obtain ⟨hqi, hqn, -⟩ := hr.2.2 st.rxqcqs.q.tail ht
  refine ⟨?_, ?_, ?_, ?_, ?_, ?_⟩
  · unfold ionic_poll_rx
    rw [ionic_poll_rx_loop]
    simp only [hm, if_true]
  · rw [poll_rx_body_eq, hqi]
    exact Function.update_same _ _ _
  · intro j hj
    rw [poll_rx_body_eq, hqi]
    exact Function.update_noteq hj _ _
  · rw [poll_rx_body_eq]
    exact hqn
  · rw [poll_rx_body_eq]
    exact (cq_consume_ring _ C hcr hct).1
  · rw [poll_rx_body_eq, hqi]
    by_cases hb : rx_comp_bad F (st.comp_mem (st.rxqcqs.cq.info st.rxqcqs.cq.tail).cq_desc) = true
    · have hb' := hb
      simp only [rx_comp_bad, Bool.or_eq_true, decide_eq_true_eq, Bool.or_assoc] at hb'
      refine ⟨iob_put (st.rx_iobuf st.rxqcqs.q.tail)
        (st.desc_mem (st.rxqcqs.q.info st.rxqcqs.q.tail).desc).len, ?_, ?_⟩
      · show st.events ++ [_] = _
        rw [if_pos hb, if_pos hb']
      · cases st.rx_iobuf st.rxqcqs.q.tail <;> rfl
    · have hb' := hb
      simp only [rx_comp_bad, Bool.or_eq_true, decide_eq_true_eq, Bool.or_assoc] at hb'
      refine ⟨iob_put (st.rx_iobuf st.rxqcqs.q.tail)
        (st.comp_mem (st.rxqcqs.cq.info st.rxqcqs.cq.tail).cq_desc).len, ?_, ?_⟩
      · show st.events ++ [_] = _
        rw [if_neg hb, if_neg hb']
      · cases st.rx_iobuf st.rxqcqs.q.tail <;> rfl

theorem poll_rx_consumes_one_witness :
    (ionic_poll_rx_body rx_flags_fixture
        ((rx_fixture_done 0).rxqcqs.cq.info (rx_fixture_done 0).rxqcqs.cq.tail).cq_desc
        (rx_fixture_done 0)).rxqcqs.q.tail = ((rx_fixture_done 0).rxqcqs.q.tail + 1) % 4 :=
  (poll_rx_consumes_one rx_flags_fixture 4 1 (rx_fixture_done 0) (by decide) (by decide)
    (by decide) (by decide) (by decide)).2.2.2.1

/-- C23, as stated, fails on the error path: for a completion of status 1 that reports 60
bytes, for a buffer posted with 1500 bytes, `ionic_poll_rx` hands over a buffer of 1500
bytes, not of the 60 bytes the completion reports. -/
theorem poll_rx_error_not_sized_by_comp :
    ((rx_fixture_done 1).comp_mem 8192).len = 60 ∧
      (ionic_poll_rx_body rx_flags_fixture 8192 (rx_fixture_done 1)).events =
        [rx_event.rx_err (some { data := 1000, len := 1500 })] ∧
      (ionic_poll_rx_body rx_flags_fixture 8192 (rx_fixture_done 1)).events ≠
        [rx_event.rx_err (iob_put ((rx_fixture_done 1).rx_iobuf 0)
          ((rx_fixture_done 1).comp_mem 8192).len)] := by
  decide

/-- C23, amended: on the success path the buffer `ionic_poll_rx` delivers is extended by
the length reported in the completion (`comp->len`); on the error path it is extended by
the length of the posted descriptor of the queue-tail slot (`desc->len`). -/
theorem poll_rx_buffer_sizing (F : rx_csum_flags) (comp : Nat) (st : rx_state) :
    (rx_comp_bad F (st.comp_mem comp) = false →
      (ionic_poll_rx_body F comp st).events = st.events ++
        [rx_event.rx (iob_put (st.rx_iobuf (st.rxqcqs.q.info st.rxqcqs.q.tail).index)
          (st.comp_mem comp).len)]) ∧
    (rx_comp_bad F (st.comp_mem comp) = true →
      (ionic_poll_rx_body F comp st).events = st.events ++
        [rx_event.rx_err (iob_put (st.rx_iobuf (st.rxqcqs.q.info st.rxqcqs.q.tail).index)
          (st.desc_mem (st.rxqcqs.q.info st.rxqcqs.q.tail).desc).len)]) := by
  constructor
  · intro h
    rw [poll_rx_body_eq]
    simp [h]
  · intro h
    rw [poll_rx_body_eq]
    simp [h]

theorem poll_rx_buffer_sizing_witness :
    (ionic_poll_rx_body rx_flags_fixture 8192 (rx_fixture_done 0)).events =
        (rx_fixture_done 0).events ++
          [rx_event.rx (iob_put
            ((rx_fixture_done 0).rx_iobuf
              ((rx_fixture_done 0).rxqcqs.q.info (rx_fixture_done 0).rxqcqs.q.tail).index)
            ((rx_fixture_done 0).comp_mem 8192).len)] ∧
      (ionic_poll_rx_body rx_flags_fixture 8192 (rx_fixture_done 1)).events =
        (rx_fixture_done 1).events ++
          [rx_event.rx_err (iob_put
            ((rx_fixture_done 1).rx_iobuf
              ((rx_fixture_done 1).rxqcqs.q.info (rx_fixture_done 1).rxqcqs.q.tail).index)
            ((rx_fixture_done 1).desc_mem
              ((rx_fixture_done 1).rxqcqs.q.info (rx_fixture_done 1).rxqcqs.q.tail).desc).len)] :=
  ⟨(poll_rx_buffer_sizing rx_flags_fixture 8192 (rx_fixture_done 0)).1 (by decide),
    (poll_rx_buffer_sizing rx_flags_fixture 8192 (rx_fixture_done 1)).2 (by decide)⟩

/-- C24: on a ring-shaped TX queue with head and tail below `C`, `ionic_tx_flush` needs
exactly `d = (head - tail) mod C` loop iterations (it ends with fuel `d + 1` and not with
fuel `d`), cancels the non-empty `tx_iobuf` entries of the slots from tail to head in that
order and clears them, leaves the head unchanged and the tail equal to the head, so that
the free space is `C - 1`; `ionic_rx_flush` likewise ends with the tail equal to the head
and every one of the `NRXQ_DESC` entries of `rx_iobuf` NULL. -/
theorem flush_empties_rings (C N : Nat) (st : tx_state) (rs : rx_state)
    (hr : queue_ring st.txqcqs.q C) (ht : st.txqcqs.q.tail < C) (hh : st.txqcqs.q.head < C)
    (hrr : queue_ring rs.rxqcqs.q C) (hrt : rs.rxqcqs.q.tail < C)
    (hrh : rs.rxqcqs.q.head < C) :
    (∀ fuel, fuel ≤ (st.txqcqs.q.head + C - st.txqcqs.q.tail) % C →
      ionic_tx_flush fuel st = none) ∧
    (∀ fuel, (st.txqcqs.q.head + C - st.txqcqs.q.tail) % C < fuel →
      ∃ st', ionic_tx_flush fuel st = some st' ∧
        st'.txqcqs.q.tail = st.txqcqs.q.head ∧
        st'.txqcqs.q.head = st.txqcqs.q.head ∧
        st'.cancelled = st.cancelled ++
          (List.range ((st.txqcqs.q.head + C - st.txqcqs.q.tail) % C)).filterMap
            (fun i => st.tx_iobuf ((st.txqcqs.q.tail + i) % C)) ∧
        (∀ i, i < (st.txqcqs.q.head + C - st.txqcqs.q.tail) % C →
          st'.tx_iobuf ((st.txqcqs.q.tail + i) % C) = none) ∧
        (∀ j, (∀ i, i < (st.txqcqs.q.head + C - st.txqcqs.q.tail) % C →
          j ≠ (st.txqcqs.q.tail + i) % C) → st'.tx_iobuf j = st.tx_iobuf j) ∧
        ionic_q_space_avail st'.txqcqs.q = C - 1) ∧
    (∀ fuel, (rs.rxqcqs.q.head + C - rs.rxqcqs.q.tail) % C < fuel →
      ∃ rs', ionic_rx_flush N fuel rs = some rs' ∧
        rs'.rxqcqs.q.tail = rs.rxqcqs.q.head ∧
        rs'.rxqcqs.q.head = rs.rxqcqs.q.head ∧
        (∀ i, i < N → rs'.rx_iobuf i = none) ∧
        ionic_q_space_avail rs'.rxqcqs.q = C - 1) := by
  have h4 := hr.1
  rw [← ring_dist_eq_mod C _ _ ht hh, ← ring_dist_eq_mod C _ _ hrt hrh]
  have hdl := ring_dist_lt C _ _ ht hh
  refine ⟨?_, ?_, ?_⟩
  · intro fuel hf
    exact (tx_flush_ring C _ fuel st hr ht hh rfl).1 hf
  · intro fuel hf
    obtain ⟨st', he, e1, e2, e3, e4, e5, e6, -⟩ := (tx_flush_ring C _ fuel st hr ht hh rfl).2 hf
    refine ⟨st', he, e1, e2, e4, ?_, ?_, ?_⟩
    · intro i hi
      rw [e5 _ (Nat.mod_lt _ (by omega)), ring_dist_add C _ i ht (by omega), if_pos hi]
    · intro j hj
      by_cases hjC : j < C
      · rw [e5 j hjC]
        by_cases hlt : ring_dist C st.txqcqs.q.tail j <
            ring_dist C st.txqcqs.q.tail st.txqcqs.q.head
        · exact absurd (ring_add_dist C _ j ht hjC).symm (hj _ hlt)
        · rw [if_neg hlt]
      · exact e6 j (by omega)
    · have hr' : queue_ring st'.txqcqs.q C := by
        unfold queue_ring
        rw [e3]
        exact hr
      rw [space_of_inflight st'.txqcqs.q C 0 hr' (by rw [e1]; exact hh) (by omega)
        (by rw [e1, e2, Nat.add_zero, Nat.mod_eq_of_lt hh])]
      rfl
  · intro fuel hf
    obtain ⟨f1, f2⟩ := rx_flush_free_fold rs N
    have hq : ((List.range N).foldl ionic_rx_flush_free rs).rxqcqs.q = rs.rxqcqs.q := by
      rw [f1]
    obtain ⟨rs', he, e1, e2, e3, e4, -⟩ := (rx_flush_ring C _ fuel
      ((List.range N).foldl ionic_rx_flush_free rs) (by rw [hq]; exact hrr)
      (by rw [hq]; exact hrt) (by rw [hq]; exact hrh) rfl).2 (by rw [hq]; exact hf)
    rw [hq] at e1 e2 e3
    refine ⟨rs', he, e1, e2, ?_, ?_⟩
    · intro i hi
      rw [e4, f2 i, if_pos hi]
    · have hr' : queue_ring rs'.rxqcqs.q C := by
        unfold queue_ring
        rw [e3]
        exact hrr
      rw [space_of_inflight rs'.rxqcqs.q C 0 hr' (by rw [e1]; exact hrh) (by omega)
        (by rw [e1, e2, Nat.add_zero, Nat.mod_eq_of_lt hrh])]
      rfl

theorem flush_empties_rings_witness :
    ionic_tx_flush 2 { tx_fixture 4 with txqcqs.q.head := 1, txqcqs.q.tail := 3 } = none :=
  (flush_empties_rings 4 4 { tx_fixture 4 with txqcqs.q.head := 1, txqcqs.q.tail := 3 }
    (rx_fixture 4) (by decide) (by decide) (by decide) (by decide) (by decide)
    (by decide)).1 2 (by decide)

/-! ## Ring discipline, doorbell value and device setup: claims -/

/-- C28: for every sequence of posts (each performed only when `ionic_q_has_space(q, 1)`
holds) and consumes (each performed only when the queue is not empty) from a freshly
initialised queue of capacity `C`, head and tail stay below `C`, the in-flight count
`(head - tail) mod C` is the number of posted minus consumed slots and at most `C - 1`,
and the slots are consumed in the order in which they were posted. -/
theorem q_fifo_discipline (q0 : queue) (index C desc_size sg_desc_size pid : Nat)
    (ops : List q_op)
    (hok : (ionic_q_init q0 index C desc_size sg_desc_size pid).1 = Ret.val 0) :
    (ops.foldl q_step { q := (ionic_q_init q0 index C desc_size sg_desc_size pid).2 }).q.head
        < C ∧
      (ops.foldl q_step { q := (ionic_q_init q0 index C desc_size sg_desc_size pid).2 }).q.tail
        < C ∧
      ((ops.foldl q_step
          { q := (ionic_q_init q0 index C desc_size sg_desc_size pid).2 }).q.head + C -
        (ops.foldl q_step
          { q := (ionic_q_init q0 index C desc_size sg_desc_size pid).2 }).q.tail) % C ≤ C - 1 ∧
      (ops.foldl q_step
          { q := (ionic_q_init q0 index C desc_size sg_desc_size pid).2 }).posted.length =
        (ops.foldl q_step
          { q := (ionic_q_init q0 index C desc_size sg_desc_size pid).2 }).consumed.length +
        ((ops.foldl q_step
            { q := (ionic_q_init q0 index C desc_size sg_desc_size pid).2 }).q.head + C -
          (ops.foldl q_step
            { q := (ionic_q_init q0 index C desc_size sg_desc_size pid).2 }).q.tail) % C ∧
      (ops.foldl q_step
          { q := (ionic_q_init q0 index C desc_size sg_desc_size pid).2 }).consumed <+:
        (ops.foldl q_step
          { q := (ionic_q_init q0 index C desc_size sg_desc_size pid).2 }).posted := by
  obtain ⟨hr, hh0, ht0, -⟩ := ionic_q_init_ring q0 index C desc_size sg_desc_size pid hok
  have h4 := hr.1
  have h0 : q_trace_inv C { q := (ionic_q_init q0 index C desc_size sg_desc_size pid).2 } := by
    refine ⟨hr, by rw [ht0]; omega, by rw [hh0]; omega, ?_⟩
    show ([] : List Nat) = [] ++ _
    rw [ht0, hh0]
    simp [ring_dist]
  obtain ⟨-, ht, hh, hp⟩ := q_steps_inv C ops _ h0
  have hdl := ring_dist_lt C _ _ ht hh
  rw [← ring_dist_eq_mod C _ _ ht hh]
  refine ⟨hh, ht, by omega, ?_, ?_⟩
  · rw [hp]
    simp
  · rw [hp]
    exact List.prefix_append _ _

theorem q_fifo_discipline_witness :
    ([q_op.post, q_op.post, q_op.consume, q_op.post].foldl q_step
        { q := (ionic_q_init {} 0 4 64 0 0).2 }).consumed <+:
      ([q_op.post, q_op.post, q_op.consume, q_op.post].foldl q_step
        { q := (ionic_q_init {} 0 4 64 0 0).2 }).posted :=
  (q_fifo_discipline {} 0 4 64 0 0 [q_op.post, q_op.post, q_op.consume, q_op.post]
    (by decide)).2.2.2.2

/-- C29: for every queue id `q < 2 ^ 24` and producer index `p < 2 ^ 16`, the 64-bit
little-endian value of the doorbell structure the driver builds equals
`PDS_DBELL_QID(q) | PDS_DBELL_RING(0) | p`: the producer index in bits 0-15, the ring
selector in bits 16-18 and the queue id in bits 24-47. -/
theorem doorbell_value_eq_macros (q : queue) (p : Nat)
    (hq : q.hw_index < 2 ^ 24) (hp : p < 2 ^ 16) :
    doorbell_value (doorbell_of q p) =
        (PDS_DBELL_QID q.hw_index ||| PDS_DBELL_RING 0 ||| p) ∧
      doorbell_value (doorbell_of q p) % 2 ^ 16 = p ∧
      doorbell_value (doorbell_of q p) / 2 ^ 16 % 2 ^ 3 = 0 ∧
      doorbell_value (doorbell_of q p) / 2 ^ 24 % 2 ^ 24 = q.hw_index := by
  have hv : doorbell_value (doorbell_of q p) = 2 ^ 24 * q.hw_index + p := by
    unfold doorbell_value doorbell_of
    simp only [Nat.shiftRight_eq_div_pow]
    norm_num
    omega
  have hm : PDS_DBELL_QID q.hw_index = 2 ^ 24 * q.hw_index := by
    unfold PDS_DBELL_QID
    rw [show (0xffffff : Nat) = 2 ^ 24 - 1 by norm_num, Nat.and_pow_two_sub_one_eq_mod,
      Nat.shiftLeft_eq]
    norm_num
    omega
  have hr : PDS_DBELL_RING 0 = 0 := by decide
  refine ⟨?_, ?_, ?_, ?_⟩
  · rw [hv, hm, hr, Nat.or_zero]
    exact Nat.mul_add_lt_is_or (by omega) _
  · rw [hv]
    omega
  · rw [hv]
    omega
  · rw [hv]
    omega

theorem doorbell_value_eq_macros_witness :
    doorbell_value (doorbell_of { hw_index := 0x123456 } 0xbeef) =
      (PDS_DBELL_QID ({ hw_index := 0x123456 } : queue).hw_index ||| PDS_DBELL_RING 0 ||| 0xbeef) :=
  (doorbell_value_eq_macros { hw_index := 0x123456 } 0xbeef (by decide) (by decide)).1

/-- C30: with at least one BAR and a correctly sized BAR0, if the signature read from the
device-info region differs from the expected value, `ionic_dev_setup` returns `-EFAULT`
having set only the four BAR0 register pointers: the doorbell pages are not mapped and
the port-info region is not allocated. -/
theorem dev_setup_bad_signature (S P : Nat) (idev : setup_state)
    (bars : Nat → ionic_device_bar) (num_bars : Nat)
    (hn : 1 ≤ num_bars) (hlen : (bars 0).len = IONIC_BAR0_SIZE)
    (hsig : idev.read_signature ((bars 0).vaddr + IONIC_BAR0_DEV_INFO_REGS_OFFSET) % 2 ^ 32 ≠
      IONIC_DEV_INFO_SIGNATURE) :
    ionic_dev_setup S P idev bars num_bars =
        (Ret.neg Errno.EFAULT,
          { idev with
            dev_info := (bars 0).vaddr + IONIC_BAR0_DEV_INFO_REGS_OFFSET
            dev_cmd := (bars 0).vaddr + IONIC_BAR0_DEV_CMD_REGS_OFFSET
            intr_status := (bars 0).vaddr + IONIC_BAR0_INTR_STATUS_OFFSET
            intr_ctrl := (bars 0).vaddr + IONIC_BAR0_INTR_CTRL_OFFSET }) ∧
      (ionic_dev_setup S P idev bars num_bars).1.isFailure = true ∧
      (ionic_dev_setup S P idev bars num_bars).2.db_pages = idev.db_pages ∧
      (ionic_dev_setup S P idev bars num_bars).2.phy_db_pages = idev.phy_db_pages ∧
      (ionic_dev_setup S P idev bars num_bars).2.port_info = idev.port_info ∧
      (ionic_dev_setup S P idev bars num_bars).2.mallocs = idev.mallocs := by
  have h1 : ¬ (num_bars < 1 ∨ (bars 0).len ≠ IONIC_BAR0_SIZE) := by
    rintro (h | h)
    · omega
    · exact h hlen
  have he : ionic_dev_setup S P idev bars num_bars =
      (Ret.neg Errno.EFAULT,
        { idev with
          dev_info := (bars 0).vaddr + IONIC_BAR0_DEV_INFO_REGS_OFFSET
          dev_cmd := (bars 0).vaddr + IONIC_BAR0_DEV_CMD_REGS_OFFSET
          intr_status := (bars 0).vaddr + IONIC_BAR0_INTR_STATUS_OFFSET
          intr_ctrl := (bars 0).vaddr + IONIC_BAR0_INTR_CTRL_OFFSET }) := by
    unfold ionic_dev_setup
    rw [if_neg h1]
    simp only []
    rw [if_pos hsig]
  rw [he]
  exact ⟨rfl, rfl, rfl, rfl, rfl, rfl⟩

theorem dev_setup_bad_signature_witness :
    (ionic_dev_setup 100 4096 {} (fun _ => { vaddr := 65536, len := 32768 }) 3).1.isFailure =
      true :=
  (dev_setup_bad_signature 100 4096 {} (fun _ => { vaddr := 65536, len := 32768 }) 3
    (by decide) (by decide) (by decide)).2.1

/-! ## Notify queue: claims -/

/-- C25, as stated, fails: with the last seen id 65535 and the incoming id 0 the test
`(s64)(eid - last_eid) > 0` of `ionic_process_notifyq` is false, for 16-bit ids as well as
for 64-bit ids, and the event is not consumed. -/
theorem eid_wrap_16_not_newer :
    eid_newer 16 0 65535 = false ∧ eid_newer 64 0 65535 = false ∧
      ionic_process_notifyq (notify_env_fixture 16) false 5
          (notify_fixture 65535 { eid := 0, ecode := 1 }) =
        some (notify_fixture 65535 { eid := 0, ecode := 1 }) := by
  refine ⟨by decide, by decide, ?_⟩
  exact notifyq_loop_stop _ _ _ _ _ (by decide)

/-- C25, amended: the test is `(s64)(eid - last_eid) > 0`. With 64-bit ids an id that
wraps past `2 ^ 64 - 1` to 0 is newer; for ids of every width an id is never newer than
itself, so after `last_eid` is updated to it the same id is not consumed again; the step
from 65535 to 0 is not newer. -/
theorem eid_newer_signed_64 :
    eid_newer 64 0 (2 ^ 64 - 1) = true ∧
      (∀ W x, eid_newer W x x = false) ∧
      (∀ (E : notify_env) (process : Bool) (fuel comp : Nat) (st : notify_state),
        st.last_eid = (st.comp_mem comp).eid →
        ionic_process_notifyq_loop E process (fuel + 1) comp st = some st) ∧
      eid_newer 64 0 65535 = false ∧ eid_newer 16 0 65535 = false := by
  have hself : ∀ W x, eid_newer W x x = false := by
    intro W x
    unfold eid_newer
    simp only [sub_self, Int.zero_emod, ite_self]
    have h63 : ¬ ((2 : Int) ^ 63 ≤ 0) := by norm_num
    simp [h63]
  refine ⟨by decide, hself, ?_, by decide, by decide⟩
  intro E process fuel comp st h
  apply notifyq_loop_stop
  rw [h]
  exact hself _ _

theorem eid_newer_signed_64_witness :
    ionic_process_notifyq_loop (notify_env_fixture 64) false (0 + 1) 8192
        (notify_fixture 7 { eid := 7, ecode := 1 }) =
      some (notify_fixture 7 { eid := 7, ecode := 1 }) :=
  eid_newer_signed_64.2.2.1 (notify_env_fixture 64) false 0 8192
    (notify_fixture 7 { eid := 7, ecode := 1 }) (by decide)

/-- C26, as stated, fails: `ionic_process_notifyq` consumes a completion whose color bit
does not match `done_color` when its id is newer than `last_eid`, and leaves a completion
whose color bit matches when its id is not newer. -/
theorem notifyq_ignores_color :
    color_match ({ eid := 1, ecode := 0, color := 0 } : ionic_notifyq_event).color
        (notify_fixture 0 { eid := 1, ecode := 0, color := 0 }).notifyqcqs.cq.done_color = false ∧
      (ionic_process_notifyq (notify_env_fixture 64) false 5
        (notify_fixture 0 { eid := 1, ecode := 0, color := 0 })).map
          (fun s => (s.notifyqcqs.cq.tail, s.consumed)) = some (1, [1]) ∧
      color_match ({ eid := 0, ecode := 0, color := 128 } : ionic_notifyq_event).color
        (notify_fixture 0 { eid := 0, ecode := 0, color := 128 }).notifyqcqs.cq.done_color = true ∧
      (ionic_process_notifyq (notify_env_fixture 64) false 5
        (notify_fixture 0 { eid := 0, ecode := 0, color := 128 })).map
          (fun s => (s.notifyqcqs.cq.tail, s.consumed)) = some (0, []) := by
  decide

/-- C26, amended: `ionic_process_notifyq` consumes exactly the notify completions whose
id is newer than `last_eid` by the signed-difference test: when the id of the completion
the loop looks at is not newer the loop stops there, and when it is newer the completion
is consumed (`last_eid` recorded, CQ tail advanced, `done_color` flipped on the last slot)
and the loop goes on with the next one; the color bit is not tested. -/
theorem notifyq_consumes_newer_ids (E : notify_env) (fuel comp : Nat) (st : notify_state) :
    (eid_newer E.EID_BITS (st.comp_mem comp).eid st.last_eid = false →
      ∀ process, ionic_process_notifyq_loop E process (fuel + 1) comp st = some st) ∧
    (eid_newer E.EID_BITS (st.comp_mem comp).eid st.last_eid = true →
      ionic_process_notifyq_loop E false (fuel + 1) comp st =
          ionic_process_notifyq_loop E false fuel
            ((cq_consume st.notifyqcqs.cq).info (cq_consume st.notifyqcqs.cq).tail).cq_desc
            { st with
              last_eid := (st.comp_mem comp).eid
              consumed := st.consumed ++ [(st.comp_mem comp).eid]
              notifyqcqs.cq := cq_consume st.notifyqcqs.cq } ∧
        ionic_process_notifyq_loop E true (fuel + 1) comp st =
          ionic_process_notifyq_loop E true fuel
            ((cq_consume st.notifyqcqs.cq).info (cq_consume st.notifyqcqs.cq).tail).cq_desc
            (notifyq_dispatch E ((st.comp_mem comp).ecode % 2 ^ 16)
              { st with
                last_eid := (st.comp_mem comp).eid
                consumed := st.consumed ++ [(st.comp_mem comp).eid]
                notifyqcqs.cq := cq_consume st.notifyqcqs.cq })) :=
  ⟨fun h process => notifyq_loop_stop E process fuel comp st h,
    fun h => ⟨notifyq_loop_step_drain E fuel comp st h,
      notifyq_loop_step_process E fuel comp st h⟩⟩

theorem notifyq_consumes_newer_ids_witness :
    ionic_process_notifyq_loop (notify_env_fixture 64) true (0 + 1) 8192
        (notify_fixture 3 { eid := 2, ecode := 1, color := 128 }) =
      some (notify_fixture 3 { eid := 2, ecode := 1, color := 128 }) :=
  (notifyq_consumes_newer_ids (notify_env_fixture 64) 0 8192
    (notify_fixture 3 { eid := 2, ecode := 1, color := 128 })).1 (by decide) true

/-- C27: in drain mode (`ionic_drain_notifyq`, `process = false`)
`ionic_process_notifyq` changes, for every ring content, only the CQ tail, `done_color`
and `last_eid` (and the record of consumed ids): `link_status`, `qs_running`,
`fw_running` and the data queues are as before and no handler is called, also for
LinkChange and Reset events. -/
theorem drain_notifyq_frame (E : notify_env) (fuel : Nat) (st : notify_state) :
    (match ionic_drain_notifyq E fuel st with
      | none => True
      | some st' =>
        st'.link_status = st.link_status ∧ st'.qs_running = st.qs_running ∧
          st'.fw_running = st.fw_running ∧ st'.tx = st.tx ∧ st'.rx = st.rx ∧
          st'.calls = st.calls ∧ st'.comp_mem = st.comp_mem ∧
          st'.notifyqcqs.q = st.notifyqcqs.q ∧
          st'.notifyqcqs.cq.info = st.notifyqcqs.cq.info) ∧
    (ionic_drain_notifyq (notify_env_fixture 64) 5
        (notify_fixture 0 { eid := 1, ecode := 1 })).map
        (fun s => (s.last_eid, s.calls, s.link_status, s.qs_running)) = some (1, [], 0, 0) ∧
    (ionic_process_notifyq (notify_env_fixture 64) true 5
        (notify_fixture 0 { eid := 1, ecode := 1 })).map
        (fun s => (s.last_eid, s.calls, s.link_status, s.qs_running)) =
      some (1, [notify_call.check_link, notify_call.start_queues], 1, 1) ∧
    (ionic_drain_notifyq (notify_env_fixture 64) 5
        (notify_fixture 0 { eid := 1, ecode := 2 })).map
        (fun s => (s.last_eid, s.calls, s.fw_running)) = some (1, [], 1) ∧
    (ionic_process_notifyq (notify_env_fixture 64) true 5
        (notify_fixture 0 { eid := 1, ecode := 2 })).map
        (fun s => (s.last_eid, s.calls, s.fw_running)) =
      some (1, [notify_call.handle_fw_down], 0) := by
  refine ⟨?_, by decide, by decide, by decide, by decide⟩
  cases h : ionic_drain_notifyq E fuel st with
  | none => trivial
  | some st' => exact notifyq_drain_frame E fuel _ st st' h

/-! ## `fls` and `ilog2`: claims -/

/-- C40: `fls` returns the 1-based position of the highest set bit of its 32-bit
argument: `fls(0) = 0`, `fls(1) = 1`, `fls(0x80000000) = 32`, and `fls(x) = k + 1` for
every `x` with `2 ^ k ≤ x < 2 ^ (k + 1)`, `k ≤ 31`; so `ilog2(2 ^ k) = k` for every
`k ≤ 31`. -/
theorem fls_highest_set_bit :
    fls 0 = 0 ∧ fls 1 = 1 ∧ fls 0x80000000 = 32 ∧
      (∀ k x, k ≤ 31 → 2 ^ k ≤ x → x < 2 ^ (k + 1) → fls x = k + 1) ∧
      (∀ k, k ≤ 31 → ilog2 (2 ^ k) = k) := by
  refine ⟨by decide, by decide, by decide, fls_of_bounds, ?_⟩
  intro k hk
  exact ilog2_two_pow k (by omega)

theorem fls_highest_set_bit_witness : fls 40 = 5 + 1 ∧ ilog2 (2 ^ 7) = 7 :=
  ⟨fls_highest_set_bit.2.2.2.1 5 40 (by decide) (by decide) (by decide),
    fls_highest_set_bit.2.2.2.2 7 (by decide)⟩

/-! ## Completion ring initialisation: claims -/

/-- C35: after `ionic_cq_init` succeeds on a zero-initialised slot array of capacity `C`,
`done_color` is 1, the tail is slot 0, slot `i` has index `i` and successor
`(i + 1) mod C`, and exactly one slot, the one with index `C - 1`, is flagged last. -/
theorem cq_init_result (c0 : cq) (C desc_size : Nat)
    (hok : (ionic_cq_init c0 C desc_size).1 = Ret.val 0)
    (hzero : ∀ i, c0.info i = {}) :
    (ionic_cq_init c0 C desc_size).2.done_color = true ∧
      (ionic_cq_init c0 C desc_size).2.tail = 0 ∧
      (ionic_cq_init c0 C desc_size).2.num_descs = C ∧
      (∀ i, i < C →
        ((ionic_cq_init c0 C desc_size).2.info i).index = i ∧
          ((ionic_cq_init c0 C desc_size).2.info i).next = (i + 1) % C) ∧
      (∀ j, ((ionic_cq_init c0 C desc_size).2.info j).last = true ↔ j = C - 1) := by
  have hl : ∀ i, (c0.info i).last = false := fun i => by rw [hzero i]
  obtain ⟨⟨h4, -, hr⟩, ht, hc⟩ := ionic_cq_init_ring c0 C desc_size hok hl
  obtain ⟨hd, k, hk2, hk16, rfl⟩ := (ionic_cq_init_ok_iff c0 C desc_size).1 hok
  have hp : is_power_of_2 (2 ^ k) = true := (is_power_of_2_iff _).2 ⟨k, by omega, rfl⟩
  have hlog := ilog2_two_pow k (by omega)
  have hn : (ionic_cq_init c0 (2 ^ k) desc_size).2.num_descs = 2 ^ k := by
    rw [ionic_cq_init_of_ok _ _ _ hd hp (by omega) (by omega)]
  refine ⟨hc, ht, hn, fun i hi => ?_, fun j => ?_⟩
  · exact ⟨(hr i hi).1, (hr i hi).2.1⟩
  · by_cases hj : j < 2 ^ k
    · rw [(hr j hj).2.2]
      omega
    · have hout : ((ionic_cq_init c0 (2 ^ k) desc_size).2.info j).last = false := by
        rw [ionic_cq_init_of_ok _ _ _ hd hp (by omega) (by omega)]
        simp only [ionic_cq_init_loop_info, if_neg hj]
        exact hl j
      rw [hout]
      constructor
      · intro h
        exact absurd h (by simp)
      · intro h
        omega

theorem cq_init_result_witness :
    ∀ j, ((ionic_cq_init {} 8 16).2.info j).last = true ↔ j = 8 - 1 :=
  (cq_init_result {} 8 16 (by decide) (fun _ => rfl)).2.2.2.2

end Ionic
